import Mathlib

/-!
# Terminal panel rendering of `internal/app/output/output.go`

A shallow embedding of the rendering core: the width meter, the markup-aware
wrapper `limitSizeWithStrip`, the raw splitter `limitSize`, the HTML detector
`isHTMLContent`, the conversion `convertHTMLToText`, the regular expressions
they rely on and the panel printer.

Go strings that are only ever walked rune by rune are represented by their
rune sequence (`Str`); the raw splitter slices by byte offsets and is modelled
on the UTF-8 bytes (`Bytes`).
-/

namespace TempEmail

/-- A Go string seen as the sequence of runes `[]rune(s)` yields. -/
abbrev Str := List Char

/-- A Go string seen as its bytes. -/
abbrev Bytes := List UInt8

/-! ## Width meter -/

/-- Modelled from the spec: `runewidth.StringWidth` of the external library
go-runewidth (section 4.1), the sum of the column widths of the runes, the
width `rw` of one rune being supplied by the library. -/
def StringWidth (rw : Char → Nat) (s : Str) : Nat :=
  (s.map rw).sum

/-- Modelled from the spec: `runewidth.RuneWidth` of go-runewidth under its
default condition. Below U+0300 this is the library's own case split (control
characters and the soft hyphen 0, everything else 1); above it the library
consults its tables, of which the combining marks U+0300..U+036F, the
zero-width range U+200B..U+200F (width 0) and the wide East Asian and emoji
blocks (width 2) are kept here. -/
def runeWidth (c : Char) : Nat :=
  let r := c.toNat
  if r < 0x20 then 0
  else if (0x7F ≤ r ∧ r ≤ 0x9F) ∨ r = 0xAD then 0
  else if r < 0x300 then 1
  else if r ≤ 0x36F then 0
  else if 0x200B ≤ r ∧ r ≤ 0x200F then 0
  else if (0x1100 ≤ r ∧ r ≤ 0x115F) ∨ (0x2E80 ≤ r ∧ r ≤ 0xA4CF) ∨ (0xAC00 ≤ r ∧ r ≤ 0xD7A3)
      ∨ (0xF900 ≤ r ∧ r ≤ 0xFAFF) ∨ (0xFE30 ≤ r ∧ r ≤ 0xFE6F) ∨ (0xFF00 ≤ r ∧ r ≤ 0xFF60)
      ∨ (0xFFE0 ≤ r ∧ r ≤ 0xFFE6) ∨ (0x1F300 ≤ r ∧ r ≤ 0x1F64F) ∨ (0x1F900 ≤ r ∧ r ≤ 0x1F9FF)
      ∨ (0x20000 ≤ r ∧ r ≤ 0x3FFFD) then 2
  else 1

/-! ## The markup-aware wrapper `limitSizeWithStrip` -/

/-- The statement `words[len(words)-1] += s`: it appends to the last element
and is out of range (`none`) on an empty slice. -/
def appendLast : List Str → Str → Option (List Str)
  | [], _ => none
  | [w], s => some [w ++ s]
  | w :: w2 :: ws, s => (appendLast (w2 :: ws) s).map (fun t => w :: t)

/-- The variables of the first loop of `limitSizeWithStrip`. -/
structure WordState where
  word : Str
  words : List Str
  inTag : Bool
  deriving DecidableEq, Repr

/-- The statement `if word != "" { words = append(words, word) }`. -/
def pushWord (words : List Str) (word : Str) : List Str :=
  if word ≠ [] then words ++ [word] else words

/-- One iteration of the first loop of `limitSizeWithStrip` on the rune `r`;
`none` is the run-time panic of the index `len(words)-1` on an empty slice. -/
def wordStep (st : WordState) (r : Char) : Option WordState :=
  if st.inTag then
    if r = '>' then
      some { word := [], words := pushWord st.words (st.word ++ [r]), inTag := false }
    else
      some { st with word := st.word ++ [r] }
  else if r = '<' then
    some { word := ['<'], words := pushWord st.words st.word, inTag := true }
  else if r = ' ' then
    if st.word ≠ [] then
      some { st with word := [], words := st.words ++ [st.word] }
    else
      (appendLast st.words [' ']).map (fun ws => { st with words := ws })
  else if r = '\n' then
    some { st with word := [], words := pushWord st.words st.word ++ [['\n']] }
  else
    some { st with word := st.word ++ [r] }

/-- The first loop of `limitSizeWithStrip`, over the runes of the input. -/
def wordLoop : WordState → Str → Option WordState
  | st, [] => some st
  | st, r :: rest => (wordStep st r).bind (fun st2 => wordLoop st2 rest)

/-- The first half of `limitSizeWithStrip`: the slice `words` once the loop is
over and the pending word has been appended. -/
def splitWords (input : Str) : Option (List Str) :=
  (wordLoop { word := [], words := [], inTag := false } input).map
    (fun st => pushWord st.words st.word)

/-- The variables of the second loop of `limitSizeWithStrip`. -/
structure LineState where
  line : Str
  currentSize : Nat
  lines : List Str
  hasContent : Bool
  deriving DecidableEq, Repr

/-- One iteration of the second loop of `limitSizeWithStrip` on `word`; `none`
is the run-time panic of `word[0]` on an empty word. -/
def lineStep (rw : Char → Nat) (size : Int) (st : LineState) (word : Str) : Option LineState :=
  if word = ['\n'] then
    some { st with lines := st.lines ++ [st.line], line := [] }
  else
    match word with
    | [] => none
    | c :: _ =>
      if c = '<' then
        some { st with line := st.line ++ word }
      else if ((st.currentSize + StringWidth rw word + 1 : Nat) : Int) > size then
        some { line := word, currentSize := StringWidth rw word,
               lines := st.lines ++ [st.line], hasContent := true }
      else if st.line ≠ [] ∧ st.hasContent = true then
        some { line := st.line ++ [' '] ++ word,
               currentSize := st.currentSize + 1 + StringWidth rw word,
               lines := st.lines, hasContent := true }
      else
        some { line := st.line ++ word,
               currentSize := st.currentSize + StringWidth rw word,
               lines := st.lines, hasContent := true }

/-- The second loop of `limitSizeWithStrip`, over the slice `words`. -/
def lineLoop (rw : Char → Nat) (size : Int) : LineState → List Str → Option LineState
  | st, [] => some st
  | st, w :: rest => (lineStep rw size st w).bind (fun st2 => lineLoop rw size st2 rest)

/-- The end of `limitSizeWithStrip`: the pending line is appended when it is
not empty, and an empty result is replaced by one empty line. -/
def finishLines (st : LineState) : List Str :=
  let lines := if st.line ≠ [] then st.lines ++ [st.line] else st.lines
  if lines.length = 0 then [[]] else lines

/-- The method `limitSizeWithStrip(input, size)`; `none` is a run-time panic. -/
def limitSizeWithStrip (rw : Char → Nat) (input : Str) (size : Int) : Option (List Str) :=
  (splitWords input).bind (fun words =>
    (lineLoop rw size { line := [], currentSize := 0, lines := [], hasContent := false } words).map
      finishLines)

/-! ## Regular expressions

The expressions of `output.go` are built from literals, character classes,
greedy repetition of a class, concatenation, alternation, the ASCII word
boundary and capture groups. `Rgx.run` lists the ways an expression can match
at a position in the order a backtracking matcher tries them, which is the
leftmost-first order of Go's `regexp`. -/

/-- The syntax of the regular expressions used in `output.go`. -/
inductive Rgx where
  | eps : Rgx
  | chr (c : Char) : Rgx
  | cls (p : Char → Bool) : Rgx
  | star (p : Char → Bool) : Rgx
  | seq (a b : Rgx) : Rgx
  | alt (a b : Rgx) : Rgx
  | wordBoundary : Rgx
  | group (i : Nat) (r : Rgx) : Rgx

/-- A position of the matcher: the captures made so far, the rune before the
position (none at the start of the text) and the text still to be read. -/
structure Cursor where
  caps : List (Nat × Str)
  prev : Option Char
  rest : Str
  deriving DecidableEq, Repr

/-- The class `\w` of Go's `regexp`: ASCII letters, digits and underscore. -/
def isWordChar (c : Char) : Bool :=
  ('a' ≤ c && c ≤ 'z') || ('A' ≤ c && c ≤ 'Z') || ('0' ≤ c && c ≤ '9') || c == '_'

/-- The class `\s` of Go's `regexp`: tab, line feed, form feed, carriage
return and space. -/
def isReSpace (c : Char) : Bool :=
  c == '\t' || c == '\n' || c == Char.ofNat 12 || c == '\r' || c == ' '

/-- Whether the optional rune `o` is a word character (the edges of the text
count as non-word). -/
def optWord : Option Char → Bool
  | none => false
  | some c => isWordChar c

/-- The greedy repetition `p*`: the longest run first, then the shorter ones. -/
def starRun (p : Char → Bool) (caps : List (Nat × Str)) : Option Char → Str → List Cursor
  | prev, [] => [{ caps := caps, prev := prev, rest := [] }]
  | prev, x :: xs =>
    if p x then starRun p caps (some x) xs ++ [{ caps := caps, prev := prev, rest := x :: xs }]
    else [{ caps := caps, prev := prev, rest := x :: xs }]

/-- All the matches of an expression from a position, in priority order. -/
def Rgx.run : Rgx → Cursor → List Cursor
  | .eps, m => [m]
  | .chr c, m =>
    match m.rest with
    | [] => []
    | x :: xs => if x = c then [{ m with prev := some x, rest := xs }] else []
  | .cls p, m =>
    match m.rest with
    | [] => []
    | x :: xs => if p x then [{ m with prev := some x, rest := xs }] else []
  | .star p, m => starRun p m.caps m.prev m.rest
  | .seq a b, m => (a.run m).flatMap (fun m2 => b.run m2)
  | .alt a b, m => a.run m ++ b.run m
  | .wordBoundary, m => if optWord m.prev ≠ optWord m.rest.head? then [m] else []
  | .group i r, m =>
    (r.run m).map (fun m2 =>
      { m2 with caps := m2.caps ++ [(i, m.rest.take (m.rest.length - m2.rest.length))] })

/-- The expression matching the runes of `s` one after the other. -/
def Rgx.str : Str → Rgx
  | [] => .eps
  | c :: cs => .seq (.chr c) (Rgx.str cs)

/-- Concatenation of a list of expressions. -/
def Rgx.cat : List Rgx → Rgx
  | [] => .eps
  | [r] => r
  | r :: rs => .seq r (Rgx.cat rs)

/-- Alternation of a list of expressions, the first one preferred. -/
def Rgx.alts : List Rgx → Rgx
  | [] => .eps
  | [r] => r
  | r :: rs => .alt r (Rgx.alts rs)

/-- The preferred match of `r` starting exactly at the given position. -/
def matchAt (r : Rgx) (prev : Option Char) (s : Str) : Option Cursor :=
  (r.run { caps := [], prev := prev, rest := s }).head?

/-- The scan of `MatchString`: a match starting here or further right. -/
def matchFrom (r : Rgx) : Option Char → Str → Bool
  | prev, [] => (matchAt r prev []).isSome
  | prev, c :: rest => (matchAt r prev (c :: rest)).isSome || matchFrom r (some c) rest

/-- The method `(*Regexp).MatchString`. -/
def MatchString (r : Rgx) (s : Str) : Bool :=
  matchFrom r none s

/-- The scan of `ReplaceAllString`: `skip` runes of the current match are
still to be passed over. The expressions of this file never match the empty
string, so an empty match is treated as no match. -/
def replaceFrom (r : Rgx) (repl : Cursor → Str) : Nat → Option Char → Str → Str
  | _, _, [] => []
  | k + 1, _, c :: rest => replaceFrom r repl k (some c) rest
  | 0, prev, c :: rest =>
    match matchAt r prev (c :: rest) with
    | none => c :: replaceFrom r repl 0 (some c) rest
    | some m =>
      if (c :: rest).length - m.rest.length = 0 then c :: replaceFrom r repl 0 (some c) rest
      else repl m ++ replaceFrom r repl ((c :: rest).length - m.rest.length - 1) (some c) rest

/-- The method `(*Regexp).ReplaceAllString`, the replacement template being
given as a function of the captures of the match. -/
def ReplaceAllString (r : Rgx) (s : Str) (repl : Cursor → Str) : Str :=
  replaceFrom r repl 0 none s

/-- The text of capture group `i` of a match (empty when the group is unset). -/
def Cursor.cap (m : Cursor) (i : Nat) : Str :=
  match m.caps.find? (fun p => p.1 == i) with
  | some p => p.2
  | none => []

/-- The class `[^>]`. -/
def notGt (c : Char) : Bool := c != '>'

/-- The class `[^<]`. -/
def notLt (c : Char) : Bool := c != '<'

/-- The class of the double and the single quote. -/
def isQuote (c : Char) : Bool := c == Char.ofNat 34 || c == Char.ofNat 39

/-- The class of every rune but the two quotes. -/
def notQuote (c : Char) : Bool := !isQuote c

/-- The class `[1-6]`. -/
def isDigit16 (c : Char) : Bool := '1' ≤ c && c ≤ '6'

/-- The class `[dh]`. -/
def isDorH (c : Char) : Bool := c == 'd' || c == 'h'

/-- The optional slash `/?`, the slash preferred. -/
def optSlash : Rgx := .alt (.chr '/') .eps

/-- The expression `rgxHtml`, `<[^>]+>`. -/
def rgxHtml : Rgx :=
  Rgx.cat [.chr '<', .cls notGt, .star notGt, .chr '>']

/-- The tag names of `rgxHtmlContent`, in the order of its alternation. -/
def rgxHtmlContentNames : List Rgx :=
  [Rgx.str "html".toList, Rgx.str "body".toList, Rgx.str "div".toList, Rgx.str "p".toList,
   Rgx.str "br".toList, Rgx.str "a".toList, Rgx.str "table".toList, Rgx.str "tr".toList,
   Rgx.str "td".toList, Rgx.str "th".toList, Rgx.str "ul".toList, Rgx.str "ol".toList,
   Rgx.str "li".toList, .seq (.chr 'h') (.cls isDigit16), Rgx.str "img".toList,
   Rgx.str "input".toList]

/-- The expression `rgxHtmlContent`,
`<\s*(?:html|body|div|p|br|a|table|tr|td|th|ul|ol|li|h[1-6]|img|input)\b[^>]*>`. -/
def rgxHtmlContent : Rgx :=
  Rgx.cat [.chr '<', .star isReSpace, Rgx.alts rgxHtmlContentNames, .wordBoundary,
           .star notGt, .chr '>']

/-- The expression `rgxBr`, `<br\s*/?>`. -/
def rgxBr : Rgx := Rgx.cat [Rgx.str "<br".toList, .star isReSpace, optSlash, .chr '>']

/-- The shape `</?NAME[^>]*>` shared by the structural expressions. -/
def rgxOpenClose (name : Rgx) : Rgx :=
  Rgx.cat [.chr '<', optSlash, name, .star notGt, .chr '>']

/-- The expression `rgxP`, `</?p[^>]*>`. -/
def rgxP : Rgx := rgxOpenClose (Rgx.str "p".toList)

/-- The expression `rgxDiv`, `</?div[^>]*>`. -/
def rgxDiv : Rgx := rgxOpenClose (Rgx.str "div".toList)

/-- The expression `rgxHeading`, `</?h[1-6][^>]*>`. -/
def rgxHeading : Rgx := rgxOpenClose (.seq (.chr 'h') (.cls isDigit16))

/-- The expression `rgxTable`, `</?table[^>]*>`. -/
def rgxTable : Rgx := rgxOpenClose (Rgx.str "table".toList)

/-- The expression `rgxTr`, `</?tr[^>]*>`. -/
def rgxTr : Rgx := rgxOpenClose (Rgx.str "tr".toList)

/-- The expression `rgxTd`, `</?t[dh][^>]*>`. -/
def rgxTd : Rgx := rgxOpenClose (.seq (.chr 't') (.cls isDorH))

/-- The expression `rgxUl`, `</?ul[^>]*>`. -/
def rgxUl : Rgx := rgxOpenClose (Rgx.str "ul".toList)

/-- The expression `rgxOl`, `</?ol[^>]*>`. -/
def rgxOl : Rgx := rgxOpenClose (Rgx.str "ol".toList)

/-- The expression `rgxLi`, `<li[^>]*>`. -/
def rgxLi : Rgx := Rgx.cat [Rgx.str "<li".toList, .star notGt, .chr '>']

/-- The expression `rgxLiEnd`, `</li>`. -/
def rgxLiEnd : Rgx := Rgx.str "</li>".toList

/-- The expression `rgxLink`: `<a[^>]*href=`, a quote, group 1 of non-quotes,
a quote, `[^>]*>`, group 2 `[^<]*`, then `</a>`. -/
def rgxLink : Rgx :=
  Rgx.cat [Rgx.str "<a".toList, .star notGt, Rgx.str "href=".toList, .cls isQuote,
           .group 1 (.star notQuote), .cls isQuote, .star notGt, .chr '>',
           .group 2 (.star notLt), Rgx.str "</a>".toList]

/-- The expression `rgxAllTags`, `<[^>]+>`. -/
def rgxAllTags : Rgx :=
  Rgx.cat [.chr '<', .cls notGt, .star notGt, .chr '>']

/-- The expression `rgxMultiNewlines`, `\n\s*\n`. -/
def rgxMultiNewlines : Rgx := Rgx.cat [.chr '\n', .star isReSpace, .chr '\n']

/-- The function `stripTags`. -/
def stripTags (input : Str) : Str :=
  ReplaceAllString rgxHtml input (fun _ => [])

/-! ## HTML detection and conversion -/

/-- The scan of `strings.Count` for a non-empty `sub`: occurrences are counted
from left to right without overlap, `skip` runes of the last occurrence being
still to be passed over. -/
def countFrom (sub : Str) : Nat → Str → Nat
  | _, [] => 0
  | k + 1, _ :: rest => countFrom sub k rest
  | 0, c :: rest =>
    if sub.isPrefixOf (c :: rest) then 1 + countFrom sub (sub.length - 1) rest
    else countFrom sub 0 rest

/-- The function `strings.Count`. -/
def Count (s sub : Str) : Nat :=
  if sub = [] then s.length + 1 else countFrom sub 0 s

/-- The function `strings.Contains`. -/
def Contains : Str → Str → Bool
  | [], sub => sub.isPrefixOf []
  | c :: rest, sub => sub.isPrefixOf (c :: rest) || Contains rest sub

/-- The function `unicode.ToLower` on the runes whose image is an ASCII
letter: the capitals A to Z, the dotted capital I (U+0130) and the Kelvin sign
(U+212A). Every other rune is mapped inside the non-ASCII range and is left as
it is here, which changes no comparison with an ASCII text. -/
def unicodeToLower (c : Char) : Char :=
  if 'A' ≤ c ∧ c ≤ 'Z' then Char.ofNat (c.toNat + 32)
  else if c = Char.ofNat 0x130 then 'i'
  else if c = Char.ofNat 0x212A then 'k'
  else c

/-- The function `strings.ToLower`. -/
def ToLower (s : Str) : Str :=
  s.map unicodeToLower

/-- The function `isHTMLContent`. -/
def isHTMLContent (content : Str) : Bool :=
  if MatchString rgxHtmlContent content then true
  else if Count content "&".toList + Count content "&#".toList ≥ 3 then true
  else if Contains (ToLower content) "<!doctype html>".toList
      || Contains (ToLower content) "<html".toList then true
  else false

/-- The type `HTMLConvertOptions`. -/
structure HTMLConvertOptions where
  ShowLinkURLs : Bool
  UseListBullets : Bool
  TableSeparator : Str
  deriving DecidableEq, Repr

/-- The function `processHTMLStructure`. -/
def processHTMLStructure (text : Str) : Str :=
  let text := ReplaceAllString rgxBr text (fun _ => ['\n'])
  let text := ReplaceAllString rgxP text (fun _ => ['\n'])
  let text := ReplaceAllString rgxDiv text (fun _ => ['\n'])
  let text := ReplaceAllString rgxHeading text (fun _ => ['\n'])
  text

/-- The function `processHTMLTables`. The separator is inserted as it is: the
one `New` configures, a tab, has no template variable. -/
def processHTMLTables (text : Str) (options : HTMLConvertOptions) : Str :=
  let text := ReplaceAllString rgxTable text (fun _ => ['\n'])
  let text := ReplaceAllString rgxTr text (fun _ => ['\n'])
  let text := ReplaceAllString rgxTd text (fun _ => options.TableSeparator)
  text

/-- The function `processHTMLLists`. -/
def processHTMLLists (text : Str) (options : HTMLConvertOptions) : Str :=
  let text := ReplaceAllString rgxUl text (fun _ => ['\n'])
  let text := ReplaceAllString rgxOl text (fun _ => ['\n'])
  let text :=
    if options.UseListBullets then ReplaceAllString rgxLi text (fun _ => ['\n', '•', ' '])
    else ReplaceAllString rgxLi text (fun _ => ['\n'])
  let text := ReplaceAllString rgxLiEnd text (fun _ => [])
  text

/-- The function `processHTMLLinks`; the templates `$2 ($1)` and `$2` are
written out on the captures. -/
def processHTMLLinks (text : Str) (options : HTMLConvertOptions) : Str :=
  if options.ShowLinkURLs then
    ReplaceAllString rgxLink text (fun m => m.cap 2 ++ [' ', '('] ++ m.cap 1 ++ [')'])
  else
    ReplaceAllString rgxLink text (fun m => m.cap 2)

/-- The function `unicode.IsSpace`. -/
def isSpace (c : Char) : Bool :=
  let r := c.toNat
  (0x09 ≤ r && r ≤ 0x0D) || r == 0x20 || r == 0x85 || r == 0xA0 || r == 0x1680
    || (0x2000 ≤ r && r ≤ 0x200A) || r == 0x2028 || r == 0x2029 || r == 0x202F
    || r == 0x205F || r == 0x3000

/-- The function `strings.TrimSpace`. -/
def TrimSpace (s : Str) : Str :=
  ((s.dropWhile isSpace).reverse.dropWhile isSpace).reverse

/-- The function `cleanupText`; `unescape` is `html.UnescapeString` of the
standard library. -/
def cleanupText (unescape : Str → Str) (text : Str) : Str :=
  let text := ReplaceAllString rgxAllTags text (fun _ => [])
  let text := unescape text
  let text := ReplaceAllString rgxMultiNewlines text (fun _ => ['\n', '\n'])
  let text := TrimSpace text
  text

/-- The function `convertHTMLToText`; its error result is always nil and is
left out. -/
def convertHTMLToText (unescape : Str → Str) (htmlContent : Str)
    (options : HTMLConvertOptions) : Str :=
  let text := htmlContent
  let text := processHTMLStructure text
  let text := processHTMLTables text options
  let text := processHTMLLists text options
  let text := processHTMLLinks text options
  let text := cleanupText unescape text
  text

/-! ## The raw splitter `limitSize` -/

/-- The UTF-8 bytes of a text. -/
def utf8 (s : Str) : Bytes :=
  s.flatMap String.utf8EncodeChar

/-- The function `utf8.DecodeRune` on a non-empty byte string `b0 :: t0`: the
rune and the number of bytes it takes. A byte that does not start a
well-formed sequence yields U+FFFD and the size 1. -/
def decodeRune (b0 : UInt8) (t0 : Bytes) : Char × Nat :=
  if b0.toNat < 0x80 then (Char.ofNat b0.toNat, 1)
  else if b0.toNat < 0xC2 ∨ 0xF4 < b0.toNat then (Char.ofNat 0xFFFD, 1)
  else if b0.toNat < 0xE0 then
    match t0 with
    | b1 :: _ =>
      if 0x80 ≤ b1.toNat ∧ b1.toNat ≤ 0xBF then
        (Char.ofNat (b0.toNat % 32 * 64 + b1.toNat % 64), 2)
      else (Char.ofNat 0xFFFD, 1)
    | _ => (Char.ofNat 0xFFFD, 1)
  else if b0.toNat < 0xF0 then
    match t0 with
    | b1 :: b2 :: _ =>
      if (if b0.toNat = 0xE0 then 0xA0 else 0x80) ≤ b1.toNat
          ∧ b1.toNat ≤ (if b0.toNat = 0xED then 0x9F else 0xBF)
          ∧ 0x80 ≤ b2.toNat ∧ b2.toNat ≤ 0xBF then
        (Char.ofNat (b0.toNat % 16 * 4096 + b1.toNat % 64 * 64 + b2.toNat % 64), 3)
      else (Char.ofNat 0xFFFD, 1)
    | _ => (Char.ofNat 0xFFFD, 1)
  else
    match t0 with
    | b1 :: b2 :: b3 :: _ =>
      if (if b0.toNat = 0xF0 then 0x90 else 0x80) ≤ b1.toNat
          ∧ b1.toNat ≤ (if b0.toNat = 0xF4 then 0x8F else 0xBF)
          ∧ 0x80 ≤ b2.toNat ∧ b2.toNat ≤ 0xBF
          ∧ 0x80 ≤ b3.toNat ∧ b3.toNat ≤ 0xBF then
        (Char.ofNat (b0.toNat % 8 * 262144 + b1.toNat % 64 * 4096
            + b2.toNat % 64 * 64 + b3.toNat % 64), 4)
      else (Char.ofNat 0xFFFD, 1)
    | _ => (Char.ofNat 0xFFFD, 1)

/-- The runes a Go `range` loop reads from a byte string, `skip` bytes of the
rune just read being still to be passed over. -/
def decodeFrom : Nat → Bytes → List Char
  | _, [] => []
  | k + 1, _ :: rest => decodeFrom k rest
  | 0, b0 :: rest => (decodeRune b0 rest).1 :: decodeFrom ((decodeRune b0 rest).2 - 1) rest

/-- The runes a Go `range` loop reads from a byte string. -/
def decodeRunes (b : Bytes) : List Char :=
  decodeFrom 0 b

/-- The call `runewidth.StringWidth` on a byte string. -/
def widthBytes (rw : Char → Nat) (b : Bytes) : Nat :=
  StringWidth rw (decodeRunes b)

/-- The call `strings.Split(input, "\n")`. -/
def splitLines : Str → List Str
  | [] => [[]]
  | c :: rest =>
    if c = '\n' then [] :: splitLines rest
    else
      match splitLines rest with
      | [] => [[c]]
      | l :: ls => (c :: l) :: ls

/-- The inner loop of `limitSize`, `for runewidth.StringWidth(line) > max`,
returning the remaining `line` and the grown `output`. A slice bound out of
range is `none`; so is the end of `fuel`, which `limitSize` sets to one more
than the length of the line, more than the loop can use when `max` is
positive (every round removes `max` bytes) and reached only when `max` is 0
and the loop never ends. -/
def chunkLoop (rw : Char → Nat) (max : Int) : Nat → Bytes → List Bytes → Option (Bytes × List Bytes)
  | 0, _, _ => none
  | fuel + 1, line, output =>
    if (widthBytes rw line : Int) > max then
      if 0 ≤ max ∧ max ≤ (line.length : Int) then
        chunkLoop rw max fuel (line.drop max.toNat) (output ++ [line.take max.toNat])
      else none
    else some (line, output)

/-- The body of the outer loop of `limitSize` for one line of the input. -/
def limitSizeLine (rw : Char → Nat) (max : Int) (output : List Bytes) (line : Str) :
    Option (List Bytes) :=
  (chunkLoop rw max ((utf8 (TrimSpace line)).length + 1) (utf8 (TrimSpace line)) output).bind
    (fun r =>
      let untilIdx := if max > (r.1.length : Int) then (r.1.length : Int) else max
      if untilIdx < 0 then none else some (r.2 ++ [r.1.take untilIdx.toNat]))

/-- The outer loop of `limitSize`. -/
def limitSizeLoop (rw : Char → Nat) (max : Int) : List Bytes → List Str → Option (List Bytes)
  | output, [] => some output
  | output, line :: rest =>
    (limitSizeLine rw max output line).bind (fun out2 => limitSizeLoop rw max out2 rest)

/-- The method `limitSize(input, max)`; `none` when the call does not return
(a slice bound out of range, or the loop that never ends). -/
def limitSize (rw : Char → Nat) (input : Str) (max : Int) : Option (List Bytes) :=
  limitSizeLoop rw max [] (splitLines input)

/-! ## The panel printer

What the printer writes is kept line by line. A line is the list of the pieces
written for it: the literal parts of the `tml` format strings carry markup
(`Seg.markup`), the arguments substituted for the verbs are written as they
are (`Seg.text`, `Seg.raw`), and the output of `safeRepeat` that fills a line
up to the panel width is marked `Seg.fill`. A wrapped content line is written
after `tml.Sprintf` has been applied to it; the library `tml` is not part of
the repository, and what `tml.Sprintf(line)` shows of a line, the escape
sequences that set the style left out, is the parameter `tml` of the printer.
The line terminators are left out. -/

/-- The constant `borderTopLeft`. -/
def borderTopLeft : Char := '╭'
/-- The constant `borderTopRight`. -/
def borderTopRight : Char := '╮'
/-- The constant `borderBottomLeft`. -/
def borderBottomLeft : Char := '╰'
/-- The constant `borderBottomRight`. -/
def borderBottomRight : Char := '╯'
/-- The constant `borderVertical`. -/
def borderVertical : Char := '│'
/-- The constant `borderHorizontal`. -/
def borderHorizontal : Char := '─'
/-- The constant `borderLeftT`. -/
def borderLeftT : Char := '├'
/-- The constant `borderRightT`. -/
def borderRightT : Char := '┤'

/-- A piece of a written line. -/
inductive Seg where
  | markup (s : Str)
  | text (s : Str)
  | raw (b : Bytes)
  | fill (s : Str)
  deriving DecidableEq, Repr

/-- A written line. -/
abbrev Row := List Seg

/-- The display width of a piece, markup tokens counting as zero width: a
piece with markup is measured as `printIn` measures it, through `stripTags`. -/
def Seg.width (rw : Char → Nat) : Seg → Nat
  | .markup s => StringWidth rw (stripTags s)
  | .text s => StringWidth rw s
  | .raw b => widthBytes rw b
  | .fill s => StringWidth rw s

/-- The display width of a written line. -/
def rowWidth (rw : Char → Nat) (row : Row) : Nat :=
  (row.map (Seg.width rw)).sum

/-- The function `safeRepeat`. -/
def safeRepeat (input : Str) (times : Int) : Str :=
  if times ≤ 0 then [] else (List.replicate times.toNat input).flatten

/-- The fields of the type `printer` the rendering depends on. -/
structure Printer where
  width : Int
  htmlOptions : HTMLConvertOptions
  deriving DecidableEq, Repr

/-- The body of the loop `for _, line := range lines` of `printIn`, the line
written for one line of the content: `coloured` is the piece written for the
line (`tml.Sprintf(line)` with `strip` true, the line itself otherwise) and
`measured` the width `runewidth.StringWidth(realStr)` the filler is computed
from. -/
def contentRow (p : Printer) (indent : Int) (coloured : Seg) (measured : Nat) : Row :=
  [Seg.markup "<dim>".toList, Seg.text [borderVertical], Seg.markup "</dim> ".toList,
   Seg.text (safeRepeat [' '] indent),
   coloured,
   Seg.fill (safeRepeat [' '] (p.width - 4 - indent - (measured : Int))),
   Seg.markup " <dim>".toList, Seg.text [borderVertical], Seg.markup "</dim>".toList]

/-- The lines `printIn` writes for the lines `lines` of a wrapped text, the
loop `for _, line := range lines` with `strip` true: the line is measured with
its markup removed by `stripTags` and written as `tml.Sprintf(line)`. -/
def printInStyled (rw : Char → Nat) (tml : Str → Str) (p : Printer) (indent : Int)
    (lines : List Str) : List Row :=
  lines.map (fun line =>
    contentRow p indent (Seg.text (tml line)) (StringWidth rw (stripTags line)))

/-- The lines `printIn` writes for the chunks `lines` of a raw text, the loop
`for _, line := range lines` with `strip` false. -/
def printInRaw (rw : Char → Nat) (p : Printer) (indent : Int) (lines : List Bytes) : List Row :=
  lines.map (fun line => contentRow p indent (Seg.raw line) (widthBytes rw line))

/-- The method `printIn(indent, strip, format, args...)`, `input` being the
text `fmt.Sprintf(format, args...)`. -/
def printIn (rw : Char → Nat) (tml : Str → Str) (p : Printer) (indent : Int) (strip : Bool)
    (input : Str) : Option (List Row) :=
  if strip then
    (limitSizeWithStrip rw input (p.width - indent - 4)).map (printInStyled rw tml p indent)
  else
    (limitSize rw input (p.width - indent - 4)).map (printInRaw rw p indent)

/-- The method `printBlank`. -/
def printBlank (rw : Char → Nat) (tml : Str → Str) (p : Printer) : Option (List Row) :=
  printIn rw tml p 0 true []

/-- The line of `printHeader` and `printDivider`: the corner runes `left` and
`right`, the heading and the rule that fills the line. -/
def titleRow (rw : Char → Nat) (p : Printer) (left right : Char) (heading : Str) : Row :=
  [Seg.markup "<dim>".toList, Seg.text [left], Seg.text [borderHorizontal],
   Seg.text [borderRightT], Seg.markup "</dim> <bold>".toList, Seg.text heading,
   Seg.markup "</bold> <dim>".toList, Seg.text [borderLeftT],
   Seg.fill (safeRepeat [borderHorizontal] (p.width - 7 - (StringWidth rw heading : Int))),
   Seg.text [right], Seg.markup "</dim>".toList]

/-- The method `printHeader`. -/
def printHeader (rw : Char → Nat) (tml : Str → Str) (p : Printer) (heading : Str) :
    Option (List Row) :=
  (printBlank rw tml p).map (fun blank =>
    titleRow rw p borderTopLeft borderTopRight heading :: blank)

/-- The method `printDivider`. -/
def printDivider (rw : Char → Nat) (tml : Str → Str) (p : Printer) (heading : Str) :
    Option (List Row) :=
  (printBlank rw tml p).bind (fun blank1 =>
    (printBlank rw tml p).map (fun blank2 =>
      blank1 ++ titleRow rw p borderLeftT borderRightT heading :: blank2))

/-- The line of `printFooter`. -/
def footerRow (p : Printer) : Row :=
  [Seg.markup "<dim>".toList, Seg.text [borderBottomLeft],
   Seg.fill (safeRepeat [borderHorizontal] (p.width - 2)),
   Seg.text [borderBottomRight], Seg.markup "</dim>".toList]

/-- The method `printFooter`. -/
def printFooter (rw : Char → Nat) (tml : Str → Str) (p : Printer) : Option (List Row) :=
  (printBlank rw tml p).map (fun blank => blank ++ [footerRow p])

/-- The loop of `PrintSummary` over the addresses. -/
def printAddresses (rw : Char → Nat) (tml : Str → Str) (p : Printer) :
    List Str → Option (List Row)
  | [] => some []
  | addr :: rest =>
    if TrimSpace addr ≠ [] then
      (printIn rw tml p 4 true ("<blue>".toList ++ TrimSpace addr ++ "</blue>".toList)).bind
        (fun rows => (printAddresses rw tml p rest).map (fun more => rows ++ more))
    else printAddresses rw tml p rest

/-- The method `PrintSummary`. -/
def PrintSummary (rw : Char → Nat) (tml : Str → Str) (p : Printer) (addresses : List Str) :
    Option (List Row) :=
  (printHeader rw tml p "New Address Created".toList).bind (fun r1 =>
  (printIn rw tml p 0 true "Your disposable email addresses are:".toList).bind (fun r2 =>
  (printIn rw tml p 0 true []).bind (fun r3 =>
  (printAddresses rw tml p addresses).bind (fun r4 =>
  (printIn rw tml p 0 true []).bind (fun r5 =>
  (printIn rw tml p 0 true "Emails will appear below as they are received.".toList).bind (fun r6 =>
  (printFooter rw tml p).map (fun r7 =>
    r1 ++ r2 ++ r3 ++ r4 ++ r5 ++ r6 ++ r7)))))))

/-- The fields of the type `guerrilla.Email` that `PrintEmail` reads;
`Timestamp` holds the text `email.Timestamp.Format(time.RFC1123)`. -/
structure Email where
  ID : Str
  Subject : Str
  From : Str
  Timestamp : Str
  Body : Str
  deriving DecidableEq, Repr

/-- The variable `bodyContent` of `PrintEmail`: the converted body when
`isHTMLContent` holds, the body itself otherwise. -/
def bodyContent (unescape : Str → Str) (p : Printer) (email : Email) : Str :=
  if isHTMLContent email.Body then convertHTMLToText unescape email.Body p.htmlOptions
  else email.Body

/-- The method `PrintEmail`. -/
def PrintEmail (rw : Char → Nat) (tml : Str → Str) (unescape : Str → Str) (p : Printer)
    (email : Email) : Option (List Row) :=
  (printHeader rw tml p ("Email #".toList ++ email.ID)).bind (fun r1 =>
  (printIn rw tml p 0 true ("Subject:   <blue>".toList ++ email.Subject)).bind (fun r2 =>
  (printIn rw tml p 0 true ("From:      <blue>".toList ++ email.From)).bind (fun r3 =>
  (printIn rw tml p 0 true ("Time:      <blue>".toList ++ email.Timestamp)).bind (fun r4 =>
  (printDivider rw tml p "Body".toList).bind (fun r5 =>
  (printIn rw tml p 0 false (bodyContent unescape p email)).bind (fun r6 =>
  (printFooter rw tml p).map (fun r7 =>
    r1 ++ r2 ++ r3 ++ r4 ++ r5 ++ r6 ++ r7)))))))

/-- The options `New` configures. -/
def defaultOptions : HTMLConvertOptions :=
  { ShowLinkURLs := true, UseListBullets := true, TableSeparator := ['\t'] }

/-! ## Notions used to state the properties -/

/-- A word of the wrapper: no space, no `<` and no line break in it. -/
def IsWord (w : Str) : Prop :=
  ∀ c ∈ w, c ≠ ' ' ∧ c ≠ '<' ∧ c ≠ '\n'

instance IsWord.instDecidable (w : Str) : Decidable (IsWord w) := by
  unfold IsWord
  exact inferInstance

/-- The markup tokens of a text, from left to right: a token runs from a `<`
to the next `>`; `cur` holds the opened token, if any. -/
def markupTokensFrom : Option Str → Str → List Str
  | _, [] => []
  | none, c :: rest =>
    if c = '<' then markupTokensFrom (some ['<']) rest else markupTokensFrom none rest
  | some t, c :: rest =>
    if c = '>' then (t ++ ['>']) :: markupTokensFrom none rest
    else markupTokensFrom (some (t ++ [c])) rest

/-- The markup tokens of a text. -/
def markupTokens (s : Str) : List Str :=
  markupTokensFrom none s

/-- Whether the markup of a text is well formed from a position inside
(`inside = true`) or outside a token: every `<` opens a token made of runes
other than `<` and `>` and closed by a `>`. -/
def wellFormedFrom : Bool → Str → Bool
  | inside, [] => !inside
  | false, c :: rest => if c = '<' then wellFormedFrom true rest else wellFormedFrom false rest
  | true, c :: rest =>
    if c = '<' then false
    else if c = '>' then wellFormedFrom false rest
    else wellFormedFrom true rest

/-- Whether every markup token of a text is well formed. -/
def wellFormedMarkup (s : Str) : Bool :=
  wellFormedFrom false s

/-- The markup token with the text `inner` between its `<` and its `>`. -/
def markupToken (inner : Str) : Str :=
  '<' :: (inner ++ ['>'])

/-- The rune before the position reached once `taken` has been read from a
position preceded by `prev`. -/
def lastOr (prev : Option Char) : Str → Option Char
  | [] => prev
  | c :: cs => lastOr (some c) cs

/-- The whitelist of tag names of the HTML detection. -/
def tagWhitelist : List Str :=
  ["html".toList, "body".toList, "div".toList, "p".toList, "br".toList, "a".toList,
   "table".toList, "tr".toList, "td".toList, "th".toList, "ul".toList, "ol".toList,
   "li".toList, "h1".toList, "h2".toList, "h3".toList, "h4".toList, "h5".toList,
   "h6".toList, "img".toList, "input".toList]

/-- What the expression `rgxHtmlContent` finds in a text: a `<`, white space if
any, a name of the whitelist in lower case that is not continued by a letter,
digit or underscore, and any runes other than `>` up to a closing `>`. This is
narrower and wider than a tag with a listed name: a closing tag such as `</p>`
and a name in upper case are not of this kind, and an address such as
`<a.smith@example.com>`, where `a` ends at the full stop, is. -/
def HasListedTag (c : Str) : Prop :=
  ∃ pre ws name attrs post, c = pre ++ '<' :: (ws ++ (name ++ (attrs ++ '>' :: post)))
    ∧ (∀ x ∈ ws, isReSpace x = true) ∧ name ∈ tagWhitelist
    ∧ (∀ x ∈ attrs, x ≠ '>') ∧ (∀ x ∈ attrs.head?, isWordChar x = false)

/-- The number of occurrences of `sub` in `s`: the positions of `s` at which
`sub` starts. -/
def occurrences (sub s : Str) : Nat :=
  (s.tails.filter (fun t => sub.isPrefixOf t)).length

/-- The text `c` contains `pat`, a lower-case text, up to the case of the
letters. -/
def ContainsIgnoreCase (c pat : Str) : Prop :=
  ∃ pre mid post, c = pre ++ (mid ++ post) ∧ ToLower mid = pat

/-- The rune widths the arithmetic of the printer relies on: a space and the
border runes are one column wide, no rune is wider than two columns, and an
ASCII rune and the replacement rune U+FFFD are at most one column wide (the
default, not East Asian, condition of go-runewidth). -/
structure PanelWidths (rw : Char → Nat) : Prop where
  space : rw ' ' = 1
  topLeft : rw borderTopLeft = 1
  topRight : rw borderTopRight = 1
  bottomLeft : rw borderBottomLeft = 1
  bottomRight : rw borderBottomRight = 1
  vertical : rw borderVertical = 1
  horizontal : rw borderHorizontal = 1
  leftT : rw borderLeftT = 1
  rightT : rw borderRightT = 1
  le_two : ∀ c, rw c ≤ 2
  ascii : ∀ c : Char, c.toNat < 128 → rw c ≤ 1
  replacement : rw (Char.ofNat 0xFFFD) ≤ 1

/-! ## The style markup of a wrapped line -/

/-- The names of the tags of `tml` that the printer puts in a wrapped line:
`<blue>` and its closing tag. -/
def tmlTagNames : List Str :=
  ["blue".toList, "/blue".toList]

/-- The scan of `tmlVisible`; `cur` holds the name of the tag being read. -/
def tmlFrom : Option Str → Str → Str
  | _, [] => []
  | none, c :: rest => if c = '<' then tmlFrom (some []) rest else c :: tmlFrom none rest
  | some t, c :: rest =>
    if c = '>' then
      (if t ∈ tmlTagNames then [] else '<' :: (t ++ ['>'])) ++ tmlFrom none rest
    else tmlFrom (some (t ++ [c])) rest

/-- Modelled from the library: what `tml.Sprintf(line)` shows of a line without
`%` whose tags are among `tmlTagNames`. A tag of that list is replaced by an
escape sequence, which shows nothing, a tag the parser does not know is
written as it is, a tag that is not closed is dropped, and the text outside
the tags is written as it is. The printer is evaluated with it on such lines;
the general properties take `tml` as a parameter. -/
def tmlVisible (line : Str) : Str :=
  tmlFrom none line

/-- A piece of a wrapped line: a markup token, given by the name between its
`<` and its `>`, or a text. -/
inductive Piece where
  | tag (name : Str)
  | txt (s : Str)

/-- The text of a piece as it stands in the line. -/
def Piece.text : Piece → Str
  | .tag n => markupToken n
  | .txt s => s

/-- The text of a piece with the markup removed. -/
def Piece.plain : Piece → Str
  | .tag _ => []
  | .txt s => s

/-- A piece whose rendering is known: one of the tags of `tmlTagNames`, or a
text without `<` and without `%`. -/
def Piece.Known : Piece → Prop
  | .tag n => n ∈ tmlTagNames
  | .txt s => '<' ∉ s ∧ '%' ∉ s

/-- The behaviour of `tml.Sprintf` the printer relies on: of a line made of
texts without `<` and `%` and of the tags `<blue>` and `</blue>`, it shows the
texts and nothing else. -/
def TmlKnown (tml : Str → Str) : Prop :=
  ∀ ps : List Piece, (∀ q ∈ ps, q.Known) → tml (ps.flatMap Piece.text) = ps.flatMap Piece.plain

/-- The text `t` can be wrapped within `budget` columns: the tokenizer of the
wrapper returns on it, so it does not begin with a space, and every token it
makes of it is a line break alone, or a word made of runes other than `<`, `%`
and the line break (the runes up to a space, with the spaces after the first
that follow them) that is at most `budget` columns wide. -/
def WrapsWithin (rw : Char → Nat) (budget : Int) (t : Str) : Prop :=
  ∃ ws, splitWords t = some ws
    ∧ ∀ w ∈ ws, w = ['\n'] ∨ ('<' ∉ w ∧ '%' ∉ w ∧ '\n' ∉ w ∧ (StringWidth rw w : Int) ≤ budget)

/-- The line `l` is made of pieces whose rendering is known and is, with its
markup removed, at most `size` columns wide. -/
def LineFits (rw : Char → Nat) (size : Int) (l : Str) : Prop :=
  ∃ ps : List Piece, (∀ q ∈ ps, q.Known) ∧ l = ps.flatMap Piece.text
    ∧ (StringWidth rw (ps.flatMap Piece.plain) : Int) ≤ size

/-- A token the line builder of the wrapper keeps within `size` columns: a
line break alone, one of the tags of `tmlTagNames`, or a word without `<`, `%`
and line break at most `size` columns wide. -/
def WordFits (rw : Char → Nat) (size : Int) (w : Str) : Prop :=
  w = ['\n'] ∨ (∃ n ∈ tmlTagNames, w = markupToken n)
    ∨ (w ≠ [] ∧ '<' ∉ w ∧ '%' ∉ w ∧ '\n' ∉ w ∧ (StringWidth rw w : Int) ≤ size)

/-! ## Entity decoding -/

/-- Modelled from the standard library: the character reference that starts
the text, with the number of runes it takes, among the five references that
`html.EscapeString` writes. -/
def entityAt (s : Str) : Option (Char × Nat) :=
  if "&amp;".toList.isPrefixOf s then some ('&', 5)
  else if "&lt;".toList.isPrefixOf s then some ('<', 4)
  else if "&gt;".toList.isPrefixOf s then some ('>', 4)
  else if "&#34;".toList.isPrefixOf s then some (Char.ofNat 34, 5)
  else if "&#39;".toList.isPrefixOf s then some (Char.ofNat 39, 5)
  else none

/-- The scan of `UnescapeString`, `skip` runes of the reference just decoded
being still to be passed over. -/
def unescapeFrom : Nat → Str → Str
  | _, [] => []
  | k + 1, _ :: rest => unescapeFrom k rest
  | 0, c :: rest =>
    match entityAt (c :: rest) with
    | some (x, n) => x :: unescapeFrom (n - 1) rest
    | none => c :: unescapeFrom 0 rest

/-- Modelled from the standard library: `html.UnescapeString` on the texts
whose character references are among `&amp;`, `&lt;`, `&gt;`, `&#34;` and
`&#39;`, each written in full, and whose other `&` start no reference. A text
without `&` comes back as it is. The conversion is evaluated with it on such
texts; the general properties take the decoder as a parameter. -/
def UnescapeString (s : Str) : Str :=
  unescapeFrom 0 s

/-! ## Notions used to state the properties of the conversion -/

/-- Modelled from the spec: the anchor `<a href="u">t</a>` with the URL `u`
between double quotes and the link text `t`. -/
def anchor (u t : Str) : Str :=
  "<a href=".toList ++ [Char.ofNat 34] ++ u ++ [Char.ofNat 34, '>'] ++ t ++ "</a>".toList

/-- A tag run starts the text: a `<`, a rune other than `>`, and a `>` further
on, which is what `<[^>]+>` matches. -/
def tagRunAt : Str → Bool
  | a :: c :: rest => a == '<' && c != '>' && decide ('>' ∈ rest)
  | _ => false

/-- The text contains a tag run. -/
def hasTagRun : Str → Bool
  | [] => false
  | c :: rest => tagRunAt (c :: rest) || hasTagRun rest

/-- Whether the white space the text starts with holds a line break. -/
def blankAhead : Str → Bool
  | [] => false
  | x :: xs => isReSpace x && (x == '\n' || blankAhead xs)

/-- The text that follows the last line break of the white space the text
starts with, if that white space holds a line break. -/
def afterLastNL : Str → Option Str
  | [] => none
  | x :: xs =>
    if isReSpace x then
      match afterLastNL xs with
      | some r => some r
      | none => if x = '\n' then some xs else none
    else none

/-- The blank lines of the text are collapsed: a line break is followed by
white space holding another line break only when it is followed at once by one
line break, the last of that white space. -/
def blankLinesCollapsed : Str → Bool
  | [] => true
  | c :: rest =>
    (c != '\n' || match rest with
      | [] => true
      | x :: r2 => !(isReSpace x && blankAhead r2)) && blankLinesCollapsed rest

/-- The replacement of the matches of `r` maps the text `p`, whatever follows
it, to `out`. -/
def Maps (r : Rgx) (repl : Cursor → Str) (p out : Str) : Prop :=
  ∀ rest o, (∀ prev, replaceFrom r repl 0 prev rest = o)
    → ∀ prev, replaceFrom r repl 0 prev (p ++ rest) = out ++ o

/-- The expressions of the tag stages of `convertHTMLToText` that come before
the links, in the order they are applied. -/
def structuralRgx : List Rgx :=
  [rgxBr, rgxP, rgxDiv, rgxHeading, rgxTable, rgxTr, rgxTd, rgxUl, rgxOl, rgxLi, rgxLiEnd]

/-! # Properties -/

/-! ## The tokenizer of `limitSizeWithStrip` -/

theorem appendLast_concat (ws : List Str) (w s : Str) :
    appendLast (ws ++ [w]) s = some (ws ++ [w ++ s]) := by
  induction ws with
  | nil => rfl
  | cons a t ih =>
    cases t with
    | nil => simp [appendLast]
    | cons b t2 =>
      simp only [List.cons_append] at ih ⊢
      simp [appendLast, ih]

theorem appendLast_eq_some {ws ws2 : List Str} {s : Str} (h : appendLast ws s = some ws2) :
    ∃ pre w, ws = pre ++ [w] ∧ ws2 = pre ++ [w ++ s] := by
  rcases List.eq_nil_or_concat ws with h0 | ⟨pre, w, h1⟩
  · subst h0; simp [appendLast] at h
  · subst h1
    rw [List.concat_eq_append, appendLast_concat] at h
    exact ⟨pre, w, by simp, by simpa using h.symm⟩

theorem wordLoop_append (a b : Str) (st : WordState) :
    wordLoop st (a ++ b) = (wordLoop st a).bind (fun st2 => wordLoop st2 b) := by
  induction a generalizing st with
  | nil => simp [wordLoop]
  | cons c cs ih =>
    rw [List.cons_append, wordLoop, wordLoop]
    cases wordStep st c with
    | none => simp
    | some st1 => simp [ih]

theorem wordStep_plain (w0 : Str) (ws : List Str) (c : Char)
    (hc : c ≠ ' ' ∧ c ≠ '<' ∧ c ≠ '\n') :
    wordStep { word := w0, words := ws, inTag := false } c
      = some { word := w0 ++ [c], words := ws, inTag := false } := by
  simp [wordStep, hc.1, hc.2.1, hc.2.2]

theorem wordLoop_word (u w0 : Str) (ws : List Str) (hu : IsWord u) :
    wordLoop { word := w0, words := ws, inTag := false } u
      = some { word := w0 ++ u, words := ws, inTag := false } := by
  induction u generalizing w0 with
  | nil => simp [wordLoop]
  | cons c cs ih =>
    have hc := hu c (List.mem_cons_self _ _)
    have hcs : IsWord cs := fun x hx => hu x (List.mem_cons_of_mem _ hx)
    rw [wordLoop, wordStep_plain w0 ws c hc, Option.some_bind, ih _ hcs]
    simp

theorem wordStep_space_word (ws : List Str) (w : Str) (hw : w ≠ []) :
    wordStep { word := w, words := ws, inTag := false } ' '
      = some { word := [], words := ws ++ [w], inTag := false } := by
  simp [wordStep, hw]

theorem wordStep_space_empty (ws : List Str) (w : Str) :
    wordStep { word := [], words := ws ++ [w], inTag := false } ' '
      = some { word := [], words := ws ++ [w ++ [' ']], inTag := false } := by
  simp [wordStep, appendLast_concat]

theorem wordLoop_spaces (n : Nat) (ws : List Str) (w : Str) :
    wordLoop { word := [], words := ws ++ [w], inTag := false } (List.replicate n ' ')
      = some { word := [], words := ws ++ [w ++ List.replicate n ' '], inTag := false } := by
  induction n generalizing w with
  | zero => simp [wordLoop]
  | succ k ih =>
    rw [List.replicate_succ, wordLoop, wordStep_space_empty, Option.some_bind, ih]
    simp

theorem wordLoop_space_run (n : Nat) (ws : List Str) (w : Str) (hw : w ≠ []) :
    wordLoop { word := w, words := ws, inTag := false } (List.replicate (n + 1) ' ')
      = some { word := [], words := ws ++ [w ++ List.replicate n ' '], inTag := false } := by
  rw [List.replicate_succ, wordLoop, wordStep_space_word ws w hw, Option.some_bind,
    wordLoop_spaces]

/-! ## The line builder of `limitSizeWithStrip` -/

theorem StringWidth_append (rw : Char → Nat) (a b : Str) :
    StringWidth rw (a ++ b) = StringWidth rw a + StringWidth rw b := by
  simp [StringWidth]

theorem StringWidth_cons (rw : Char → Nat) (c : Char) (s : Str) :
    StringWidth rw (c :: s) = rw c + StringWidth rw s := by
  simp [StringWidth]

theorem StringWidth_replicate (rw : Char → Nat) (n : Nat) (c : Char) :
    StringWidth rw (List.replicate n c) = n * rw c := by
  simp [StringWidth]

theorem lineStep_plainHead (rw : Char → Nat) (size : Int) (st : LineState) (c : Char) (cs : Str)
    (h1 : c ≠ '<') (h2 : c ≠ '\n') :
    lineStep rw size st (c :: cs) =
      if ((st.currentSize + StringWidth rw (c :: cs) + 1 : Nat) : Int) > size then
        some { line := c :: cs, currentSize := StringWidth rw (c :: cs),
               lines := st.lines ++ [st.line], hasContent := true }
      else if st.line ≠ [] ∧ st.hasContent = true then
        some { line := st.line ++ [' '] ++ (c :: cs),
               currentSize := st.currentSize + 1 + StringWidth rw (c :: cs),
               lines := st.lines, hasContent := true }
      else
        some { line := st.line ++ (c :: cs),
               currentSize := st.currentSize + StringWidth rw (c :: cs),
               lines := st.lines, hasContent := true } := by
  have h3 : ¬ (c :: cs = ['\n']) := by
    intro h
    exact h2 (List.cons.inj h).1
  simp only [lineStep, h3, if_false, h1]

theorem lineStep_overflow (rw : Char → Nat) (size : Int) (line : Str) (n : Nat)
    (lines : List Str) (hc : Bool) (c : Char) (cs : Str) (h1 : c ≠ '<') (h2 : c ≠ '\n')
    (h : size < (n : Int) + StringWidth rw (c :: cs) + 1) :
    lineStep rw size { line := line, currentSize := n, lines := lines, hasContent := hc } (c :: cs)
      = some { line := c :: cs, currentSize := StringWidth rw (c :: cs),
               lines := lines ++ [line], hasContent := true } := by
  rw [lineStep_plainHead rw size _ c cs h1 h2, if_pos]
  push_cast
  exact h

theorem lineStep_fit_first (rw : Char → Nat) (size : Int) (n : Nat)
    (lines : List Str) (hc : Bool) (c : Char) (cs : Str) (h1 : c ≠ '<') (h2 : c ≠ '\n')
    (h : (n : Int) + StringWidth rw (c :: cs) + 1 ≤ size) :
    lineStep rw size { line := [], currentSize := n, lines := lines, hasContent := hc } (c :: cs)
      = some { line := c :: cs, currentSize := n + StringWidth rw (c :: cs),
               lines := lines, hasContent := true } := by
  rw [lineStep_plainHead rw size _ c cs h1 h2, if_neg, if_neg]
  · simp
  · simp
  · push_cast
    omega

theorem lineStep_fit_join (rw : Char → Nat) (size : Int) (line : Str) (n : Nat)
    (lines : List Str) (c : Char) (cs : Str) (h1 : c ≠ '<') (h2 : c ≠ '\n')
    (hl : line ≠ []) (h : (n : Int) + StringWidth rw (c :: cs) + 1 ≤ size) :
    lineStep rw size { line := line, currentSize := n, lines := lines, hasContent := true }
        (c :: cs)
      = some { line := line ++ [' '] ++ (c :: cs), currentSize := n + 1 + StringWidth rw (c :: cs),
               lines := lines, hasContent := true } := by
  rw [lineStep_plainHead rw size _ c cs h1 h2, if_neg, if_pos]
  · exact ⟨hl, rfl⟩
  · push_cast
    omega

theorem IsWord.head_ne {w : Str} (hw : IsWord w) (h0 : w ≠ []) :
    ∃ c cs, w = c :: cs ∧ c ≠ '<' ∧ c ≠ '\n' := by
  cases w with
  | nil => exact absurd rfl h0
  | cons c cs =>
    have h := hw c (List.mem_cons_self _ _)
    exact ⟨c, cs, rfl, h.2.1, h.2.2⟩

theorem splitWords_word (w : Str) (hw : IsWord w) (h0 : w ≠ []) :
    splitWords w = some [w] := by
  simp [splitWords, wordLoop_word w [] [] hw, pushWord, h0]

theorem splitWords_three (u w v : Str) (hu : IsWord u) (hu0 : u ≠ []) (hw : IsWord w)
    (hw0 : w ≠ []) (hv : IsWord v) (hv0 : v ≠ []) :
    splitWords (u ++ [' '] ++ w ++ [' '] ++ v) = some [u, w, v] := by
  have e1 := wordLoop_space_run 0 [] u hu0
  have e2 := wordLoop_space_run 0 [u] w hw0
  simp only [List.replicate_zero, List.append_nil, zero_add, List.replicate_one,
    List.nil_append] at e1 e2
  unfold splitWords
  rw [List.append_assoc, List.append_assoc, List.append_assoc, wordLoop_append,
    wordLoop_word u [] [] hu, Option.some_bind, wordLoop_append, List.nil_append, e1,
    Option.some_bind, wordLoop_append, wordLoop_word w [] _ hw, Option.some_bind,
    wordLoop_append, List.nil_append, e2, Option.some_bind, wordLoop_word v [] _ hv]
  simp [pushWord, hv0]

theorem splitWords_space_run (u v : Str) (n : Nat) (hu : IsWord u) (hu0 : u ≠ [])
    (hv : IsWord v) (hv0 : v ≠ []) :
    splitWords (u ++ List.replicate (n + 1) ' ' ++ v) = some [u ++ List.replicate n ' ', v] := by
  have e1 := wordLoop_space_run n [] u hu0
  simp only [List.nil_append] at e1
  unfold splitWords
  rw [List.append_assoc, wordLoop_append, wordLoop_word u [] [] hu, Option.some_bind,
    wordLoop_append, List.nil_append, e1, Option.some_bind, wordLoop_word v [] _ hv]
  simp [pushWord, hv0]

theorem finishLines_ne_nil (st : LineState) : finishLines st ≠ [] := by
  unfold finishLines
  by_cases h : st.line = []
  · cases hl : st.lines <;> simp [h, hl]
  · simp [h]

theorem limitSizeWithStrip_eq_some {rw : Char → Nat} {input : Str} {W : Int} {lines : List Str}
    (h : limitSizeWithStrip rw input W = some lines) :
    ∃ words st, splitWords input = some words
      ∧ lineLoop rw W { line := [], currentSize := 0, lines := [], hasContent := false } words
          = some st
      ∧ lines = finishLines st := by
  unfold limitSizeWithStrip at h
  cases hs : splitWords input with
  | none => simp [hs] at h
  | some words =>
    rw [hs, Option.some_bind] at h
    cases hl : lineLoop rw W { line := [], currentSize := 0, lines := [], hasContent := false }
        words with
    | none => simp [hl] at h
    | some st =>
      rw [hl] at h
      exact ⟨words, st, rfl, hl, by simpa using h.symm⟩

theorem limitSizeWithStrip_of_words {rw : Char → Nat} {input : Str} {W : Int} {words : List Str}
    {st : LineState} (h1 : splitWords input = some words)
    (h2 : lineLoop rw W { line := [], currentSize := 0, lines := [], hasContent := false } words
          = some st) :
    limitSizeWithStrip rw input W = some (finishLines st) := by
  simp [limitSizeWithStrip, h1, h2]

/-- C8: whenever `limitSizeWithStrip` returns, the returned list has at least
one line, and on the empty input it returns exactly the list holding the
empty line. -/
theorem limitSizeWithStrip_at_least_one_line (rw : Char → Nat) (input : Str) (W : Int)
    (lines : List Str) (h : limitSizeWithStrip rw input W = some lines) :
    1 ≤ lines.length ∧ limitSizeWithStrip rw [] W = some [[]] := by
  obtain ⟨words, st, -, -, rfl⟩ := limitSizeWithStrip_eq_some h
  refine ⟨?_, by rfl⟩
  have := finishLines_ne_nil st
  exact List.length_pos.mpr this

theorem limitSizeWithStrip_at_least_one_line_witness :
    1 ≤ ["ab".toList, "cd".toList].length ∧ limitSizeWithStrip runeWidth [] 4 = some [[]] :=
  limitSizeWithStrip_at_least_one_line runeWidth "ab cd".toList 4 ["ab".toList, "cd".toList]
    (by decide)

/-- C5 (as amended): for non-empty words `u` and `v`, a run of `n ≥ 1` spaces
between them and a budget `W` that holds the line, a space being one column
wide, `limitSizeWithStrip` returns the single line `u`, the `n` spaces, `v`:
the run of spaces is kept as it is. -/
theorem limitSizeWithStrip_keeps_space_run (rw : Char → Nat) (u v : Str) (n : Nat) (W : Int)
    (hsp : rw ' ' = 1) (hu : IsWord u) (hu0 : u ≠ []) (hv : IsWord v) (hv0 : v ≠ [])
    (hn : 1 ≤ n)
    (hW : (StringWidth rw (u ++ List.replicate n ' ' ++ v) : Int) ≤ W) :
    limitSizeWithStrip rw (u ++ List.replicate n ' ' ++ v) W
      = some [u ++ List.replicate n ' ' ++ v] := by
  obtain ⟨k, rfl⟩ : ∃ k, n = k + 1 := ⟨n - 1, by omega⟩
  obtain ⟨c, cs, rfl, hc1, hc2⟩ := hu.head_ne hu0
  obtain ⟨d, ds, rfl, hd1, hd2⟩ := hv.head_ne hv0
  have hsplit := splitWords_space_run (c :: cs) (d :: ds) k hu hu0 hv hv0
  simp only [StringWidth_append, StringWidth_cons, StringWidth_replicate, hsp] at hW
  push_cast at hW
  have hloop : lineLoop rw W { line := [], currentSize := 0, lines := [], hasContent := false }
      [c :: (cs ++ List.replicate k ' '), d :: ds]
      = some { line := c :: (cs ++ List.replicate k ' ') ++ [' '] ++ (d :: ds),
               currentSize := 0 + StringWidth rw (c :: (cs ++ List.replicate k ' ')) + 1
                 + StringWidth rw (d :: ds),
               lines := [], hasContent := true } := by
    rw [lineLoop, lineStep_fit_first rw W 0 [] false c _ hc1 hc2, Option.some_bind, lineLoop,
      lineStep_fit_join rw W _ _ [] d ds hd1 hd2 (by simp), Option.some_bind, lineLoop]
    · simp only [StringWidth_append, StringWidth_cons, StringWidth_replicate, hsp]
      push_cast
      omega
    · simp only [StringWidth_append, StringWidth_cons, StringWidth_replicate, hsp]
      push_cast
      omega
  simp only [List.cons_append] at hsplit ⊢
  rw [limitSizeWithStrip_of_words hsplit hloop]
  simp [finishLines, List.replicate_succ']

theorem limitSizeWithStrip_keeps_space_run_witness :
    limitSizeWithStrip runeWidth ("a".toList ++ List.replicate 3 ' ' ++ "b".toList) 80
      = some ["a".toList ++ List.replicate 3 ' ' ++ "b".toList] :=
  limitSizeWithStrip_keeps_space_run runeWidth "a".toList "b".toList 3 80 (by decide)
    (by decide) (by decide) (by decide) (by decide) (by decide) (by decide)

/-- C5 (counterexample): two spaces between the words `a` and `b` are not
turned into one joining space, whatever room the budget leaves. -/
theorem limitSizeWithStrip_space_run_not_collapsed :
    limitSizeWithStrip runeWidth ("a".toList ++ List.replicate 2 ' ' ++ "b".toList) 80
      ≠ some ["a".toList ++ " ".toList ++ "b".toList] := by
  decide

/-- C7: a single word wider than the budget is not cut. On its own it comes
back whole (after an empty first line); between two other words it stands on
a line of its own, the words before and after it on the neighbouring lines. -/
theorem limitSizeWithStrip_long_word_uncut (rw : Char → Nat) (u w v : Str) (W : Int)
    (hw : IsWord w) (hw0 : w ≠ []) (hlong : W < (StringWidth rw w : Int))
    (hu : IsWord u) (hu0 : u ≠ []) (hv : IsWord v) (hv0 : v ≠ []) :
    limitSizeWithStrip rw w W = some [[], w]
      ∧ ∃ pre, limitSizeWithStrip rw (u ++ [' '] ++ w ++ [' '] ++ v) W
          = some (pre ++ [u, w, v]) := by
  have hsplit1 := splitWords_word w hw hw0
  have hsplit3 := splitWords_three u w v hu hu0 hw hw0 hv hv0
  obtain ⟨a, as, rfl, ha1, ha2⟩ := hu.head_ne hu0
  obtain ⟨c, cs, rfl, hc1, hc2⟩ := hw.head_ne hw0
  obtain ⟨d, ds, rfl, hd1, hd2⟩ := hv.head_ne hv0
  constructor
  · have hloop : lineLoop rw W { line := [], currentSize := 0, lines := [], hasContent := false }
        [c :: cs]
        = some { line := c :: cs, currentSize := StringWidth rw (c :: cs),
                 lines := [] ++ [[]], hasContent := true } := by
      rw [lineLoop, lineStep_overflow rw W [] 0 [] false c cs hc1 hc2 (by push_cast; omega),
        Option.some_bind, lineLoop]
    rw [limitSizeWithStrip_of_words hsplit1 hloop]
    simp [finishLines]
  · have key : ∀ (lines : List Str),
        lineLoop rw W { line := a :: as, currentSize := StringWidth rw (a :: as),
                        lines := lines, hasContent := true } [c :: cs, d :: ds]
          = some { line := d :: ds, currentSize := StringWidth rw (d :: ds),
                   lines := lines ++ [a :: as] ++ [c :: cs], hasContent := true } := by
      intro lines
      rw [lineLoop, lineStep_overflow rw W _ _ lines true c cs hc1 hc2 (by omega),
        Option.some_bind, lineLoop,
        lineStep_overflow rw W _ _ _ true d ds hd1 hd2 (by omega), Option.some_bind, lineLoop]
    by_cases hfit : (0 : Int) + StringWidth rw (a :: as) + 1 ≤ W
    · refine ⟨[], ?_⟩
      have hloop : lineLoop rw W
          { line := [], currentSize := 0, lines := [], hasContent := false }
          [a :: as, c :: cs, d :: ds]
          = some { line := d :: ds, currentSize := StringWidth rw (d :: ds),
                   lines := [] ++ [a :: as] ++ [c :: cs], hasContent := true } := by
        rw [lineLoop, lineStep_fit_first rw W 0 [] false a as ha1 ha2 (by exact_mod_cast hfit),
          Option.some_bind, Nat.zero_add, key]
      rw [limitSizeWithStrip_of_words hsplit3 hloop]
      simp [finishLines]
    · refine ⟨[[]], ?_⟩
      have hloop : lineLoop rw W
          { line := [], currentSize := 0, lines := [], hasContent := false }
          [a :: as, c :: cs, d :: ds]
          = some { line := d :: ds, currentSize := StringWidth rw (d :: ds),
                   lines := [] ++ [[]] ++ [a :: as] ++ [c :: cs], hasContent := true } := by
        rw [lineLoop, lineStep_overflow rw W [] 0 [] false a as ha1 ha2
            (by push_cast at hfit ⊢; omega),
          Option.some_bind, key]
      rw [limitSizeWithStrip_of_words hsplit3 hloop]
      simp [finishLines]

theorem limitSizeWithStrip_long_word_uncut_witness :
    limitSizeWithStrip runeWidth "longword".toList 4 = some [[], "longword".toList]
      ∧ ∃ pre, limitSizeWithStrip runeWidth
          ("x".toList ++ [' '] ++ "longword".toList ++ [' '] ++ "y".toList) 4
          = some (pre ++ ["x".toList, "longword".toList, "y".toList]) :=
  limitSizeWithStrip_long_word_uncut runeWidth "x".toList "longword".toList "y".toList 4
    (by decide) (by decide) (by decide) (by decide) (by decide) (by decide) (by decide)

/-- C6 (the code at the failing input): a line break followed by a space does
not close the line. The space is appended to the break token, which is then no
longer recognised as a break, and the single returned line holds the text
before the break, the line break rune itself and the text after it. -/
theorem limitSizeWithStrip_break_then_space :
    limitSizeWithStrip runeWidth "a\n b".toList 80 = some ["a \n  b".toList] := by
  decide

/-- C2 (the code at the failing input): spaces that follow a markup token are
appended to the token and never counted. With the budget 3 and the words `a`
and `c`, one column each, the single returned line is 6 columns wide once its
markup is removed. -/
theorem limitSizeWithStrip_uncounted_spaces :
    limitSizeWithStrip runeWidth "a<b>   c".toList 3 = some ["a<b>    c".toList]
      ∧ StringWidth runeWidth (stripTags "a<b>    c".toList) = 6 := by
  decide

/-! ## Markup tokens are kept whole -/

theorem markupTokensFrom_plain (s : Str) (h : '<' ∉ s) : markupTokensFrom none s = [] := by
  induction s with
  | nil => rfl
  | cons c cs ih =>
    have hc : c ≠ '<' := fun e => h (e ▸ List.mem_cons_self _ _)
    have hcs : '<' ∉ cs := fun e => h (List.mem_cons_of_mem _ e)
    simp [markupTokensFrom, hc, ih hcs]

theorem wellFormedFrom_plain (s : Str) (h : '<' ∉ s) : wellFormedFrom false s = true := by
  induction s with
  | nil => rfl
  | cons c cs ih =>
    have hc : c ≠ '<' := fun e => h (e ▸ List.mem_cons_self _ _)
    have hcs : '<' ∉ cs := fun e => h (List.mem_cons_of_mem _ e)
    simp [wellFormedFrom, hc, ih hcs]

theorem scan_append (a b : Str) (cur : Option Str) (inside : Bool)
    (hwf : wellFormedFrom inside a = true) (hcur : cur.isSome = inside) :
    markupTokensFrom cur (a ++ b) = markupTokensFrom cur a ++ markupTokensFrom none b
      ∧ wellFormedFrom inside (a ++ b) = wellFormedFrom false b := by
  induction a generalizing cur inside with
  | nil =>
    cases inside with
    | true => simp [wellFormedFrom] at hwf
    | false =>
      cases cur with
      | none => simp [markupTokensFrom]
      | some t => simp at hcur
  | cons c cs ih =>
    cases inside with
    | false =>
      cases cur with
      | some t => simp at hcur
      | none =>
        by_cases hc : c = '<'
        · subst hc
          simp only [wellFormedFrom, if_true] at hwf
          have := ih (some ['<']) true hwf rfl
          simpa [markupTokensFrom, wellFormedFrom] using this
        · simp only [wellFormedFrom, hc, if_false] at hwf
          have := ih none false hwf rfl
          simpa [markupTokensFrom, wellFormedFrom, hc] using this
    | true =>
      cases cur with
      | none => simp at hcur
      | some t =>
        by_cases hc : c = '<'
        · subst hc
          simp [wellFormedFrom] at hwf
        · by_cases hg : c = '>'
          · subst hg
            simp only [wellFormedFrom, hc, if_false, if_true] at hwf
            have := ih none false hwf rfl
            simpa [markupTokensFrom, wellFormedFrom] using this
          · simp only [wellFormedFrom, hc, hg, if_false] at hwf
            have := ih (some (t ++ [c])) true hwf rfl
            simpa [markupTokensFrom, wellFormedFrom, hc, hg] using this

theorem markupTokens_append (a b : Str) (ha : wellFormedMarkup a = true) :
    markupTokens (a ++ b) = markupTokens a ++ markupTokens b :=
  (scan_append a b none false ha rfl).1

theorem wellFormedMarkup_append (a b : Str) (ha : wellFormedMarkup a = true)
    (hb : wellFormedMarkup b = true) : wellFormedMarkup (a ++ b) = true := by
  unfold wellFormedMarkup at *
  rw [(scan_append a b none false ha rfl).2, hb]

theorem scan_tag (t : Str) (cur : Str) (ht : ∀ x ∈ t, x ≠ '<' ∧ x ≠ '>') :
    markupTokensFrom (some cur) (t ++ ['>']) = [cur ++ t ++ ['>']]
      ∧ wellFormedFrom true (t ++ ['>']) = true := by
  induction t generalizing cur with
  | nil => simp [markupTokensFrom, wellFormedFrom]
  | cons c cs ih =>
    have hc := ht c (List.mem_cons_self _ _)
    have hcs : ∀ x ∈ cs, x ≠ '<' ∧ x ≠ '>' := fun x hx => ht x (List.mem_cons_of_mem _ hx)
    have := ih (cur ++ [c]) hcs
    simpa [markupTokensFrom, wellFormedFrom, hc.1, hc.2] using this

theorem markupTokens_tag (t : Str) (ht : ∀ x ∈ t, x ≠ '<' ∧ x ≠ '>') :
    markupTokens ('<' :: t ++ ['>']) = ['<' :: t ++ ['>']]
      ∧ wellFormedMarkup ('<' :: t ++ ['>']) = true := by
  have := scan_tag t ['<'] ht
  simpa [markupTokens, wellFormedMarkup, markupTokensFrom, wellFormedFrom] using this

theorem flatMap_pushWord_plain (ws : List Str) (w : Str) (h : '<' ∉ w) :
    (pushWord ws w).flatMap markupTokens = ws.flatMap markupTokens := by
  unfold pushWord
  split
  · simp [markupTokens, markupTokensFrom_plain w h]
  · rfl

theorem wellFormed_pushWord (ws : List Str) (w : Str)
    (hws : ∀ x ∈ ws, wellFormedMarkup x = true) (hw : wellFormedMarkup w = true) :
    ∀ x ∈ pushWord ws w, wellFormedMarkup x = true := by
  unfold pushWord
  split
  · intro x hx
    rcases List.mem_append.mp hx with h | h
    · exact hws x h
    · rw [List.mem_singleton.mp h]; exact hw
  · exact hws

theorem wordLoop_tokens (q : Str) (st st2 : WordState) (h : wordLoop st q = some st2)
    (hwf : wellFormedFrom st.inTag q = true)
    (hws : ∀ w ∈ st.words, wellFormedMarkup w = true)
    (hout : st.inTag = false → '<' ∉ st.word)
    (hin : st.inTag = true → ∃ t, st.word = '<' :: t ∧ ∀ x ∈ t, x ≠ '<' ∧ x ≠ '>') :
    (∀ w ∈ st2.words, wellFormedMarkup w = true) ∧ '<' ∉ st2.word
      ∧ st2.words.flatMap markupTokens
          = st.words.flatMap markupTokens
            ++ markupTokensFrom (if st.inTag then some st.word else none) q := by
  induction q generalizing st with
  | nil =>
    obtain ⟨word, words, inTag⟩ := st
    cases inTag with
    | true => simp [wellFormedFrom] at hwf
    | false =>
      simp only [wordLoop, Option.some.injEq] at h
      subst h
      exact ⟨hws, hout rfl, by simp [markupTokensFrom]⟩
  | cons c q ih =>
    obtain ⟨word, words, inTag⟩ := st
    rw [wordLoop] at h
    cases hstep : wordStep { word := word, words := words, inTag := inTag } c with
    | none => simp [hstep] at h
    | some st1 =>
      rw [hstep, Option.some_bind] at h
      cases inTag with
      | true =>
        obtain ⟨t, hword, ht⟩ := hin rfl
        simp only at hword
        subst hword
        by_cases hc : c = '<'
        · subst hc
          simp [wellFormedFrom] at hwf
        · by_cases hg : c = '>'
          · subst hg
            simp only [wellFormedFrom, hc, if_false, if_true] at hwf
            simp only [wordStep, if_true, Option.some.injEq] at hstep
            subst hstep
            have htag := markupTokens_tag t ht
            have hpush : pushWord words ('<' :: t ++ ['>']) = words ++ ['<' :: t ++ ['>']] := by
              simp [pushWord]
            have := ih { word := [], words := pushWord words ('<' :: t ++ ['>']), inTag := false }
              h hwf (wellFormed_pushWord words _ hws htag.2) (fun _ => by simp)
              (fun e => by simp at e)
            refine ⟨this.1, this.2.1, ?_⟩
            have htag1 := htag.1
            simp only [List.cons_append] at htag1
            rw [this.2.2, hpush]
            simp [markupTokensFrom, htag1]
          · simp only [wellFormedFrom, hc, hg, if_false] at hwf
            simp only [wordStep, if_true, hg, if_false, Option.some.injEq] at hstep
            subst hstep
            have := ih { word := '<' :: t ++ [c], words := words, inTag := true } h hwf hws
              (fun e => by simp at e)
              (fun _ => ⟨t ++ [c], by simp, by
                intro x hx
                rcases List.mem_append.mp hx with h1 | h1
                · exact ht x h1
                · rw [List.mem_singleton.mp h1]; exact ⟨hc, hg⟩⟩)
            refine ⟨this.1, this.2.1, ?_⟩
            rw [this.2.2]
            simp [markupTokensFrom, hg]
      | false =>
        have hword := hout rfl
        simp only at hword
        by_cases hc : c = '<'
        · subst hc
          simp only [wellFormedFrom, if_true] at hwf
          simp only [wordStep, Bool.false_eq_true, if_false, if_true, Option.some.injEq] at hstep
          subst hstep
          have := ih { word := ['<'], words := pushWord words word, inTag := true } h hwf
            (wellFormed_pushWord words _ hws (wellFormedFrom_plain word hword))
            (fun e => by simp at e)
            (fun _ => ⟨[], rfl, by simp⟩)
          refine ⟨this.1, this.2.1, ?_⟩
          rw [this.2.2, flatMap_pushWord_plain words word hword]
          simp [markupTokensFrom]
        · simp only [wellFormedFrom, hc, if_false] at hwf
          have hgoal : markupTokensFrom (if false = true then some word else none) (c :: q)
              = markupTokensFrom none q := by
            simp [markupTokensFrom, hc]
          rw [hgoal]
          by_cases hsp : c = ' '
          · subst hsp
            by_cases hw0 : word = []
            · subst hw0
              simp only [wordStep, Bool.false_eq_true, if_false, hc, ne_eq, not_true_eq_false,
                if_true, Option.map_eq_some'] at hstep
              obtain ⟨ws2, happ, rfl⟩ := hstep
              obtain ⟨pre, w, rfl, rfl⟩ := appendLast_eq_some happ
              have hw : wellFormedMarkup w = true := hws w (by simp)
              have hsp1 : wellFormedMarkup [' '] = true := by decide
              have := ih { word := [], words := pre ++ [w ++ [' ']], inTag := false } h hwf
                (by
                  intro x hx
                  rcases List.mem_append.mp hx with h1 | h1
                  · exact hws x (List.mem_append_left _ h1)
                  · rw [List.mem_singleton.mp h1]
                    exact wellFormedMarkup_append w _ hw hsp1)
                (fun _ => by simp) (fun e => by simp at e)
              refine ⟨this.1, this.2.1, ?_⟩
              rw [this.2.2]
              have e1 : markupTokens [' '] = [] := by decide
              simp [markupTokens_append w _ hw, e1]
            · simp only [wordStep, Bool.false_eq_true, if_false, hc, ne_eq, hw0,
                not_false_eq_true, if_true, Option.some.injEq] at hstep
              subst hstep
              have := ih { word := [], words := words ++ [word], inTag := false } h hwf
                (by
                  intro x hx
                  rcases List.mem_append.mp hx with h1 | h1
                  · exact hws x h1
                  · rw [List.mem_singleton.mp h1]
                    exact wellFormedFrom_plain word hword)
                (fun _ => by simp) (fun e => by simp at e)
              refine ⟨this.1, this.2.1, ?_⟩
              rw [this.2.2]
              simp [markupTokens, markupTokensFrom_plain word hword]
          · by_cases hnl : c = '\n'
            · subst hnl
              simp only [wordStep, Bool.false_eq_true, if_false, hc, hsp, if_true,
                Option.some.injEq] at hstep
              subst hstep
              have hnl1 : wellFormedMarkup ['\n'] = true := by decide
              have := ih { word := [], words := pushWord words word ++ [['\n']], inTag := false }
                h hwf
                (by
                  intro x hx
                  rcases List.mem_append.mp hx with h1 | h1
                  · exact wellFormed_pushWord words _ hws (wellFormedFrom_plain word hword) x h1
                  · rw [List.mem_singleton.mp h1]; exact hnl1)
                (fun _ => by simp) (fun e => by simp at e)
              refine ⟨this.1, this.2.1, ?_⟩
              rw [this.2.2]
              have e1 : markupTokens ['\n'] = [] := by decide
              simp [flatMap_pushWord_plain words word hword, e1]
            · simp only [wordStep, Bool.false_eq_true, if_false, hc, hsp, hnl,
                Option.some.injEq] at hstep
              subst hstep
              have := ih { word := word ++ [c], words := words, inTag := false } h hwf hws
                (fun _ => by
                  intro hx
                  rcases List.mem_append.mp hx with h1 | h1
                  · exact hword h1
                  · exact hc (List.mem_singleton.mp h1).symm)
                (fun e => by simp at e)
              refine ⟨this.1, this.2.1, ?_⟩
              rw [this.2.2]
              simp

theorem lineStep_shape {rw : Char → Nat} {size : Int} {st st2 : LineState} {w : Str}
    (h : lineStep rw size st w = some st2) :
    (st2.lines = st.lines ++ [st.line] ∧ ((w = ['\n'] ∧ st2.line = []) ∨ st2.line = w))
      ∨ (st2.lines = st.lines
          ∧ (st2.line = st.line ++ w ∨ st2.line = st.line ++ [' '] ++ w)) := by
  unfold lineStep at h
  split at h
  · rename_i hnl
    simp only [Option.some.injEq] at h
    subst h
    exact Or.inl ⟨rfl, Or.inl ⟨hnl, rfl⟩⟩
  · split at h
    · simp at h
    · split at h
      · simp only [Option.some.injEq] at h
        subst h
        exact Or.inr ⟨rfl, Or.inl rfl⟩
      · split at h
        · simp only [Option.some.injEq] at h
          subst h
          exact Or.inl ⟨rfl, Or.inr rfl⟩
        · split at h
          · simp only [Option.some.injEq] at h
            subst h
            exact Or.inr ⟨rfl, Or.inr rfl⟩
          · simp only [Option.some.injEq] at h
            subst h
            exact Or.inr ⟨rfl, Or.inl rfl⟩

theorem lineLoop_tokens (rw : Char → Nat) (size : Int) (ws : List Str) (st st2 : LineState)
    (h : lineLoop rw size st ws = some st2)
    (hws : ∀ w ∈ ws, wellFormedMarkup w = true)
    (hlines : ∀ l ∈ st.lines, wellFormedMarkup l = true)
    (hline : wellFormedMarkup st.line = true) :
    (∀ l ∈ st2.lines, wellFormedMarkup l = true) ∧ wellFormedMarkup st2.line = true
      ∧ st2.lines.flatMap markupTokens ++ markupTokens st2.line
          = st.lines.flatMap markupTokens ++ markupTokens st.line ++ ws.flatMap markupTokens := by
  induction ws generalizing st with
  | nil =>
    simp only [lineLoop, Option.some.injEq] at h
    subst h
    exact ⟨hlines, hline, by simp⟩
  | cons w rest ih =>
    rw [lineLoop] at h
    cases hstep : lineStep rw size st w with
    | none => simp [hstep] at h
    | some st1 =>
      rw [hstep, Option.some_bind] at h
      have hw : wellFormedMarkup w = true := hws w (List.mem_cons_self _ _)
      have hrest : ∀ x ∈ rest, wellFormedMarkup x = true :=
        fun x hx => hws x (List.mem_cons_of_mem _ hx)
      have hsp : wellFormedMarkup [' '] = true := by decide
      have esp : markupTokens [' '] = [] := by decide
      have enl : markupTokens ['\n'] = [] := by decide
      have enil : markupTokens [] = [] := by decide
      have hclosed : ∀ l ∈ st.lines ++ [st.line], wellFormedMarkup l = true := by
        intro l hl
        rcases List.mem_append.mp hl with h1 | h1
        · exact hlines l h1
        · rw [List.mem_singleton.mp h1]; exact hline
      rcases lineStep_shape hstep with ⟨e1, ⟨e2, e3⟩ | e2⟩ | ⟨e1, e2 | e2⟩
      · have := ih st1 h hrest (by rw [e1]; exact hclosed) (by rw [e3]; decide)
        refine ⟨this.1, this.2.1, ?_⟩
        rw [this.2.2, e1, e3, e2]
        simp [enl, enil]
      · have := ih st1 h hrest (by rw [e1]; exact hclosed) (by rw [e2]; exact hw)
        refine ⟨this.1, this.2.1, ?_⟩
        rw [this.2.2, e1, e2]
        simp
      · have := ih st1 h hrest (by rw [e1]; exact hlines)
          (by rw [e2]; exact wellFormedMarkup_append _ _ hline hw)
        refine ⟨this.1, this.2.1, ?_⟩
        rw [this.2.2, e1, e2, markupTokens_append _ _ hline]
        simp
      · have h1 : wellFormedMarkup (st.line ++ [' ']) = true :=
          wellFormedMarkup_append _ _ hline hsp
        have := ih st1 h hrest (by rw [e1]; exact hlines)
          (by rw [e2]; exact wellFormedMarkup_append _ _ h1 hw)
        refine ⟨this.1, this.2.1, ?_⟩
        rw [this.2.2, e1, e2, markupTokens_append _ _ h1, markupTokens_append _ _ hline, esp]
        simp

theorem finishLines_tokens (st : LineState)
    (hlines : ∀ l ∈ st.lines, wellFormedMarkup l = true)
    (hline : wellFormedMarkup st.line = true) :
    (finishLines st).flatMap markupTokens
        = st.lines.flatMap markupTokens ++ markupTokens st.line
      ∧ ∀ l ∈ finishLines st, wellFormedMarkup l = true := by
  have enil : markupTokens [] = [] := by decide
  unfold finishLines
  by_cases h : st.line = []
  · cases hl : st.lines with
    | nil => simp [h, enil]; decide
    | cons a t =>
      rw [hl] at hlines
      simpa [h, enil] using hlines
  · have hne : st.lines ++ [st.line] ≠ [] := by simp
    simp only [ne_eq, h, not_false_eq_true, if_true, List.length_eq_zero, hne, if_false]
    refine ⟨by simp, ?_⟩
    intro l hl
    rcases List.mem_append.mp hl with h1 | h1
    · exact hlines l h1
    · rw [List.mem_singleton.mp h1]; exact hline

/-- C3: on an input whose markup tokens are well formed, `limitSizeWithStrip`
never splits a token. The tokens of the returned lines, read line after line,
are exactly the tokens of the input in their order, so that every token lies
whole within one line, and the markup of every returned line is itself well
formed, so that no line holds a part of a token. -/
theorem limitSizeWithStrip_keeps_tokens_whole (rw : Char → Nat) (input : Str) (W : Int)
    (lines : List Str) (hwf : wellFormedMarkup input = true)
    (h : limitSizeWithStrip rw input W = some lines) :
    lines.flatMap markupTokens = markupTokens input
      ∧ ∀ l ∈ lines, wellFormedMarkup l = true := by
  obtain ⟨words, st, hsplit, hloop, rfl⟩ := limitSizeWithStrip_eq_some h
  unfold splitWords at hsplit
  cases hw : wordLoop { word := [], words := [], inTag := false } input with
  | none => simp [hw] at hsplit
  | some wst =>
    rw [hw] at hsplit
    simp only [Option.map_some', Option.some.injEq] at hsplit
    have htok := wordLoop_tokens input _ wst hw hwf (by simp) (by simp) (by simp)
    have hwords : ∀ w ∈ words, wellFormedMarkup w = true := by
      rw [← hsplit]
      exact wellFormed_pushWord _ _ htok.1 (wellFormedFrom_plain _ htok.2.1)
    have hwtok : words.flatMap markupTokens = markupTokens input := by
      rw [← hsplit, flatMap_pushWord_plain _ _ htok.2.1, htok.2.2]
      simp [markupTokens]
    have hl := lineLoop_tokens rw W words _ st hloop hwords (by simp) (by decide)
    have hf := finishLines_tokens st hl.1 hl.2.1
    refine ⟨?_, hf.2⟩
    rw [hf.1, hl.2.2, hwtok]
    simp
    decide

theorem limitSizeWithStrip_keeps_tokens_whole_witness :
    ["<blue>hello".toList, "wide".toList, "world</blue>".toList].flatMap markupTokens
        = markupTokens "<blue>hello wide world</blue>".toList
      ∧ ∀ l ∈ ["<blue>hello".toList, "wide".toList, "world</blue>".toList],
          wellFormedMarkup l = true :=
  limitSizeWithStrip_keeps_tokens_whole runeWidth "<blue>hello wide world</blue>".toList 8
    ["<blue>hello".toList, "wide".toList, "world</blue>".toList] (by decide) (by decide)

/-! ## Text without markup comes back on one line -/

theorem intercalate_cons_cons (sep a b : Str) (t : List Str) :
    sep.intercalate (a :: b :: t) = a ++ sep ++ sep.intercalate (b :: t) := by
  simp [List.intercalate, List.intersperse]

theorem intercalate_singleton (sep a : Str) : sep.intercalate [a] = a := by
  simp [List.intercalate, List.intersperse]

theorem intercalate_concat (sep : Str) (ws : List Str) (w : Str) (h : ws ≠ []) :
    sep.intercalate (ws ++ [w]) = sep.intercalate ws ++ sep ++ w := by
  induction ws with
  | nil => exact absurd rfl h
  | cons a t ih =>
    cases t with
    | nil => simp [intercalate_cons_cons, intercalate_singleton]
    | cons b t2 =>
      have := ih (by simp)
      simp only [List.cons_append] at this ⊢
      rw [intercalate_cons_cons, this, intercalate_cons_cons]
      simp

theorem intercalate_concat_append (sep : Str) (ws : List Str) (w x : Str) :
    sep.intercalate (ws ++ [w ++ x]) = sep.intercalate (ws ++ [w]) ++ x := by
  by_cases h : ws = []
  · subst h
    simp [intercalate_singleton]
  · rw [intercalate_concat sep ws _ h, intercalate_concat sep ws _ h]
    simp

theorem intercalate_cons_flatMap (w : Str) (rest : List Str) :
    [' '].intercalate (w :: rest) = w ++ rest.flatMap (fun x => ' ' :: x) := by
  induction rest generalizing w with
  | nil => simp [intercalate_singleton]
  | cons a t ih =>
    rw [intercalate_cons_cons, ih]
    simp

theorem wordLoop_text (q : Str) (word : Str) (words : List Str)
    (hq : ∀ c ∈ q, c ≠ '<' ∧ c ≠ '\n')
    (hstart : word ≠ [] ∨ words ≠ [] ∨ q.head? ≠ some ' ')
    (hwords : ∀ w ∈ words, ∃ c cs, w = c :: cs ∧ c ≠ '<' ∧ c ≠ '\n')
    (hword : ∀ c ∈ word, c ≠ ' ' ∧ c ≠ '<' ∧ c ≠ '\n') :
    ∃ word2 words2, wordLoop { word := word, words := words, inTag := false } q
        = some { word := word2, words := words2, inTag := false }
      ∧ (∀ w ∈ words2, ∃ c cs, w = c :: cs ∧ c ≠ '<' ∧ c ≠ '\n')
      ∧ (∀ c ∈ word2, c ≠ ' ' ∧ c ≠ '<' ∧ c ≠ '\n')
      ∧ (word2 = [] → words2 = [] → q = [] ∧ word = [] ∧ words = [])
      ∧ (word2 = [] → q.getLast? ≠ some ' ' → q = [] ∧ word = [])
      ∧ [' '].intercalate (words2 ++ [word2]) = [' '].intercalate (words ++ [word]) ++ q := by
  induction q generalizing word words with
  | nil =>
    exact ⟨word, words, rfl, hwords, hword, fun h1 h2 => ⟨rfl, h1, h2⟩,
      fun h1 _ => ⟨rfl, h1⟩, by simp⟩
  | cons c q ih =>
    have hc := hq c (List.mem_cons_self _ _)
    have hq2 : ∀ x ∈ q, x ≠ '<' ∧ x ≠ '\n' := fun x hx => hq x (List.mem_cons_of_mem _ hx)
    have hlast : ∀ (x : Char), (c :: q).getLast? ≠ some x → q ≠ [] → q.getLast? ≠ some x := by
      intro x h1 h2
      cases q with
      | nil => exact absurd rfl h2
      | cons d q2 => simpa [List.getLast?_cons_cons] using h1
    by_cases hsp : c = ' '
    · subst hsp
      by_cases hw0 : word = []
      · subst hw0
        have hne : words ≠ [] := by
          rcases hstart with h | h | h
          · exact absurd rfl h
          · exact h
          · simp at h
        obtain ⟨pre, w, rfl⟩ : ∃ pre w, words = pre ++ [w] := by
          rcases List.eq_nil_or_concat words with h | ⟨pre, w, h⟩
          · exact absurd h hne
          · exact ⟨pre, w, by simpa using h⟩
        obtain ⟨word2, words2, h1, h2, h3, h4, h5, h6⟩ := ih [] (pre ++ [w ++ [' ']]) hq2
          (Or.inr (Or.inl (by simp)))
          (by
            intro x hx
            rcases List.mem_append.mp hx with hx1 | hx1
            · exact hwords x (List.mem_append_left _ hx1)
            · rw [List.mem_singleton.mp hx1]
              obtain ⟨a, as, ha, ha1, ha2⟩ := hwords w (by simp)
              exact ⟨a, as ++ [' '], by simp [ha], ha1, ha2⟩)
          (by simp)
        refine ⟨word2, words2, ?_, h2, h3, ?_, ?_, ?_⟩
        · rw [wordLoop, wordStep_space_empty, Option.some_bind, h1]
        · intro e1 e2
          have := (h4 e1 e2).2.2
          simp at this
        · intro e1 e2
          by_cases hq0 : q = []
          · subst hq0
            simp at e2
          · exact absurd (h5 e1 (hlast _ e2 hq0)).1 hq0
        · rw [h6, intercalate_concat _ (pre ++ [w ++ [' ']]) [] (by simp),
            intercalate_concat _ (pre ++ [w]) [] (by simp), intercalate_concat_append]
          simp
      · obtain ⟨a, as, ha⟩ := List.exists_cons_of_ne_nil hw0
        have hwa := hword a (by rw [ha]; exact List.mem_cons_self _ _)
        obtain ⟨word2, words2, h1, h2, h3, h4, h5, h6⟩ := ih [] (words ++ [word]) hq2
          (Or.inr (Or.inl (by simp)))
          (by
            intro x hx
            rcases List.mem_append.mp hx with hx1 | hx1
            · exact hwords x hx1
            · rw [List.mem_singleton.mp hx1]
              exact ⟨a, as, ha, hwa.2.1, hwa.2.2⟩)
          (by simp)
        refine ⟨word2, words2, ?_, h2, h3, ?_, ?_, ?_⟩
        · rw [wordLoop, wordStep_space_word words word hw0, Option.some_bind, h1]
        · intro e1 e2
          have := (h4 e1 e2).2.2
          simp at this
        · intro e1 e2
          by_cases hq0 : q = []
          · subst hq0
            simp at e2
          · exact absurd (h5 e1 (hlast _ e2 hq0)).1 hq0
        · rw [h6, intercalate_concat _ (words ++ [word]) [] (by simp)]
          simp
    · obtain ⟨word2, words2, h1, h2, h3, h4, h5, h6⟩ := ih (word ++ [c]) words hq2
        (Or.inl (by simp)) hwords
        (by
          intro x hx
          rcases List.mem_append.mp hx with hx1 | hx1
          · exact hword x hx1
          · rw [List.mem_singleton.mp hx1]; exact ⟨hsp, hc.1, hc.2⟩)
      refine ⟨word2, words2, ?_, h2, h3, ?_, ?_, ?_⟩
      · rw [wordLoop, wordStep_plain word words c ⟨hsp, hc.1, hc.2⟩, Option.some_bind, h1]
      · intro e1 e2
        have := (h4 e1 e2).2.1
        simp at this
      · intro e1 e2
        by_cases hq0 : q = []
        · subst hq0
          simp only [wordLoop, Option.some.injEq, WordState.mk.injEq] at h1
          rw [← h1.1] at e1
          simp at e1
        · have := (h5 e1 (hlast _ e2 hq0)).2
          simp at this
      · rw [h6, intercalate_concat_append]
        simp

theorem lineLoop_join (rw : Char → Nat) (W : Int) (rest : List Str) (line : Str) (n : Nat)
    (hline : line ≠ [])
    (hrest : ∀ w ∈ rest, ∃ c cs, w = c :: cs ∧ c ≠ '<' ∧ c ≠ '\n')
    (hW : (n : Int) + ((rest.map (fun w => 1 + StringWidth rw w)).sum : Nat) ≤ W) :
    lineLoop rw W { line := line, currentSize := n, lines := [], hasContent := true } rest
      = some { line := line ++ rest.flatMap (fun x => ' ' :: x),
               currentSize := n + (rest.map (fun w => 1 + StringWidth rw w)).sum,
               lines := [], hasContent := true } := by
  induction rest generalizing line n with
  | nil => simp [lineLoop]
  | cons w t ih =>
    obtain ⟨c, cs, rfl, hc1, hc2⟩ := hrest _ (List.mem_cons_self _ _)
    have ht : ∀ x ∈ t, ∃ c cs, x = c :: cs ∧ c ≠ '<' ∧ c ≠ '\n' :=
      fun x hx => hrest x (List.mem_cons_of_mem _ hx)
    simp only [List.map_cons, List.sum_cons] at hW
    rw [lineLoop, lineStep_fit_join rw W line n [] c cs hc1 hc2 hline (by omega),
      Option.some_bind, ih _ _ (by simp) ht (by omega)]
    simp only [List.map_cons, List.sum_cons, List.flatMap_cons, List.append_assoc,
      List.singleton_append, Option.some.injEq, LineState.mk.injEq, and_true, true_and]
    omega

theorem StringWidth_flatMap_space (rw : Char → Nat) (rest : List Str) (hsp : rw ' ' = 1) :
    StringWidth rw (rest.flatMap (fun x => ' ' :: x))
      = (rest.map (fun w => 1 + StringWidth rw w)).sum := by
  induction rest with
  | nil => simp [StringWidth]
  | cons w t ih =>
    simp only [List.flatMap_cons, StringWidth_append, StringWidth_cons, hsp, ih, List.map_cons,
      List.sum_cons]

theorem matchAt_rgxHtml_ne (prev : Option Char) (c : Char) (rest : Str) (h : c ≠ '<') :
    matchAt rgxHtml prev (c :: rest) = none := by
  simp [matchAt, rgxHtml, Rgx.cat, Rgx.run, h]

theorem replaceFrom_rgxHtml_plain (s : Str) (prev : Option Char) (h : '<' ∉ s) :
    replaceFrom rgxHtml (fun _ => []) 0 prev s = s := by
  induction s generalizing prev with
  | nil => rfl
  | cons c cs ih =>
    have hc : c ≠ '<' := fun e => h (e ▸ List.mem_cons_self _ _)
    have hcs : '<' ∉ cs := fun e => h (List.mem_cons_of_mem _ e)
    rw [replaceFrom, matchAt_rgxHtml_ne prev c cs hc]
    simp [ih _ hcs]

theorem stripTags_plain (s : Str) (h : '<' ∉ s) : stripTags s = s :=
  replaceFrom_rgxHtml_plain s none h

/-- C4 (counterexample): two short inputs that do not come back as one line
equal to the input. The styled text `a<b>c`, two columns wide, comes back at
the budget 80 with a space that the input does not have, put before the word
that follows the token; and the word `ab`, exactly as wide as the budget 2,
comes back as two lines, an empty one and the word. -/
theorem limitSizeWithStrip_short_input_changed :
    (StringWidth runeWidth (stripTags "a<b>c".toList) = 2
        ∧ limitSizeWithStrip runeWidth "a<b>c".toList 80 = some ["a<b> c".toList])
      ∧ (StringWidth runeWidth (stripTags "ab".toList) = 2
        ∧ limitSizeWithStrip runeWidth "ab".toList 2 = some [[], "ab".toList]) := by
  decide

/-! ## The raw splitter on single-byte, single-column text -/

theorem utf8EncodeChar_ascii (c : Char) (h : c.toNat < 128) :
    String.utf8EncodeChar c = [c.val.toUInt8] := by
  have h1 : c.val ≤ 0x7f := by
    have : c.val.toNat ≤ 127 := by simpa [Char.toNat] using Nat.le_of_lt_succ h
    exact UInt32.le_def.mpr (by simpa using this)
  simp [String.utf8EncodeChar, h1]

theorem toUInt8_toNat_ascii (c : Char) (h : c.toNat < 128) :
    (c.val.toUInt8).toNat = c.toNat := by
  simp only [UInt32.toUInt8, Nat.toUInt8, UInt8.ofNat, UInt8.toNat, BitVec.toNat_ofNat,
    Char.toNat] at h ⊢
  omega

theorem utf8_ascii_byte (rw : Char → Nat) (s : Str)
    (hs : ∀ c ∈ s, c.toNat < 128 ∧ rw c = 1) :
    ∀ x ∈ utf8 s, x.toNat < 128 ∧ rw (Char.ofNat x.toNat) = 1 := by
  intro x hx
  simp only [utf8, List.mem_flatMap] at hx
  obtain ⟨c, hc, hxc⟩ := hx
  have h := hs c hc
  rw [utf8EncodeChar_ascii c h.1, List.mem_singleton] at hxc
  subst hxc
  rw [toUInt8_toNat_ascii c h.1, Char.ofNat_toNat]
  exact h

theorem widthBytes_ascii (rw : Char → Nat) (b : Bytes)
    (hb : ∀ x ∈ b, x.toNat < 128 ∧ rw (Char.ofNat x.toNat) = 1) :
    widthBytes rw b = b.length := by
  induction b with
  | nil => rfl
  | cons x t ih =>
    have hx := hb x (List.mem_cons_self _ _)
    have ht := ih (fun y hy => hb y (List.mem_cons_of_mem _ hy))
    simp only [widthBytes, decodeRunes] at ht ⊢
    simp [decodeFrom, decodeRune, hx.1, StringWidth_cons, hx.2, ht]
    omega

theorem chunkLoop_ascii (rw : Char → Nat) (W : Nat) (hW : 1 ≤ W) (fuel : Nat) (line : Bytes)
    (output : List Bytes) (hfuel : line.length < fuel)
    (hb : ∀ x ∈ line, x.toNat < 128 ∧ rw (Char.ofNat x.toNat) = 1) :
    ∃ full rem, chunkLoop rw W fuel line output = some (rem, output ++ full)
      ∧ (∀ ch ∈ full, widthBytes rw ch = W) ∧ widthBytes rw rem ≤ W
      ∧ rem.length ≤ W ∧ full.flatten ++ rem = line := by
  induction fuel generalizing line output with
  | zero => omega
  | succ n ih =>
    rw [chunkLoop, widthBytes_ascii rw line hb]
    by_cases hlen : (line.length : Int) > W
    · have hlen2 : W < line.length := by omega
      have htake : ∀ x ∈ line.take W, x.toNat < 128 ∧ rw (Char.ofNat x.toNat) = 1 :=
        fun x hx => hb x (List.mem_of_mem_take hx)
      have hdrop : ∀ x ∈ line.drop W, x.toNat < 128 ∧ rw (Char.ofNat x.toNat) = 1 :=
        fun x hx => hb x (List.mem_of_mem_drop hx)
      obtain ⟨full, rem, h1, h2, h3, h4, h5⟩ := ih (line.drop W) (output ++ [line.take W])
        (by rw [List.length_drop]; omega) hdrop
      refine ⟨line.take W :: full, rem, ?_, ?_, h3, h4, ?_⟩
      · rw [if_pos hlen, if_pos ⟨by omega, by omega⟩]
        simp only [Int.toNat_ofNat]
        rw [h1]
        simp
      · intro ch hch
        rcases List.mem_cons.mp hch with e | e
        · rw [e, widthBytes_ascii rw _ htake, List.length_take]
          omega
        · exact h2 ch e
      · rw [List.flatten_cons, List.append_assoc, h5, List.take_append_drop]
    · refine ⟨[], line, ?_, by simp, ?_, by omega, by simp⟩
      · rw [if_neg hlen]
        simp
      · rw [widthBytes_ascii rw line hb]
        omega

theorem limitSizeLine_ascii (rw : Char → Nat) (W : Nat) (hW : 1 ≤ W) (output : List Bytes)
    (l : Str) (hl : ∀ c ∈ TrimSpace l, c.toNat < 128 ∧ rw c = 1) :
    ∃ cs, limitSizeLine rw W output l = some (output ++ cs)
      ∧ cs ≠ [] ∧ cs.flatten = utf8 (TrimSpace l)
      ∧ (∀ ch ∈ cs.dropLast, widthBytes rw ch = W)
      ∧ (∀ ch ∈ cs.getLast?, widthBytes rw ch ≤ W)
      ∧ (TrimSpace l = [] → cs = [[]]) := by
  obtain ⟨full, rem, h1, h2, h3, h4, h5⟩ := chunkLoop_ascii rw W hW
    ((utf8 (TrimSpace l)).length + 1) (utf8 (TrimSpace l)) output (by omega)
    (utf8_ascii_byte rw _ hl)
  refine ⟨full ++ [rem], ?_, by simp, by simpa using h5, by simpa using h2, by simpa using h3, ?_⟩
  · unfold limitSizeLine
    rw [h1, Option.some_bind]
    by_cases e1 : (W : Int) > (rem.length : Int)
    · simp only [e1, if_true]
      rw [if_neg (by omega)]
      simp
    · simp only [e1, if_false]
      rw [if_neg (by omega)]
      simp only [Int.toNat_ofNat]
      rw [List.take_of_length_le h4]
      simp
  · intro hnil
    rw [hnil] at h5
    simp only [utf8, List.flatMap_nil, List.append_eq_nil, List.flatten_eq_nil_iff] at h5
    have hfull : full = [] := by
      cases full with
      | nil => rfl
      | cons a t =>
        have ha : a = [] := h5.1 a (List.mem_cons_self _ _)
        have hwa := h2 a (List.mem_cons_self _ _)
        rw [ha] at hwa
        simp [widthBytes, decodeRunes, decodeFrom, StringWidth] at hwa
        omega
    rw [hfull, h5.2]
    rfl

theorem limitSizeLoop_ascii (rw : Char → Nat) (W : Nat) (hW : 1 ≤ W) (ls : List Str)
    (output : List Bytes)
    (hl : ∀ l ∈ ls, ∀ c ∈ TrimSpace l, c.toNat < 128 ∧ rw c = 1) :
    ∃ css : List (List Bytes), limitSizeLoop rw W output ls = some (output ++ css.flatten)
      ∧ List.Forall₂ (fun l cs => cs ≠ [] ∧ cs.flatten = utf8 (TrimSpace l)
          ∧ (∀ ch ∈ cs.dropLast, widthBytes rw ch = W)
          ∧ (∀ ch ∈ cs.getLast?, widthBytes rw ch ≤ W)
          ∧ (TrimSpace l = [] → cs = [[]])) ls css := by
  induction ls generalizing output with
  | nil => exact ⟨[], by simp [limitSizeLoop], List.Forall₂.nil⟩
  | cons l t ih =>
    obtain ⟨cs, h1, h2⟩ := limitSizeLine_ascii rw W hW output l (hl l (List.mem_cons_self _ _))
    obtain ⟨css, h3, h4⟩ := ih (output ++ cs) (fun x hx => hl x (List.mem_cons_of_mem _ hx))
    refine ⟨cs :: css, ?_, List.Forall₂.cons h2 h4⟩
    rw [limitSizeLoop, h1, Option.some_bind, h3]
    simp

/-- On a text whose trimmed lines hold only single-byte runes of display width
1 (printable ASCII), where a byte offset is a column offset, and for every
`W ≥ 1`, `limitSize` returns, and its result is, line after line of the input
split at the line breaks, the trimmed line cut into chunks: every chunk but
the last is exactly `W` columns wide, the last at most `W`, the chunks put
together give the trimmed line, and an empty line gives one empty chunk. -/
theorem limitSize_ascii_chunks (rw : Char → Nat) (text : Str) (W : Nat) (hW : 1 ≤ W)
    (hascii : ∀ l ∈ splitLines text, ∀ c ∈ TrimSpace l, c.toNat < 128 ∧ rw c = 1) :
    ∃ css : List (List Bytes), limitSize rw text W = some css.flatten
      ∧ List.Forall₂ (fun l cs => cs ≠ [] ∧ cs.flatten = utf8 (TrimSpace l)
          ∧ (∀ ch ∈ cs.dropLast, widthBytes rw ch = W)
          ∧ (∀ ch ∈ cs.getLast?, widthBytes rw ch ≤ W)
          ∧ (TrimSpace l = [] → cs = [[]])) (splitLines text) css := by
  obtain ⟨css, h1, h2⟩ := limitSizeLoop_ascii rw W hW (splitLines text) [] hascii
  exact ⟨css, by simpa [limitSize] using h1, h2⟩

theorem limitSize_ascii_chunks_witness :
    ∃ css : List (List Bytes), limitSize runeWidth "abcdefg\n  hi ".toList (3 : Nat)
        = some css.flatten
      ∧ List.Forall₂ (fun l cs => cs ≠ [] ∧ cs.flatten = utf8 (TrimSpace l)
          ∧ (∀ ch ∈ cs.dropLast, widthBytes runeWidth ch = 3)
          ∧ (∀ ch ∈ cs.getLast?, widthBytes runeWidth ch ≤ 3)
          ∧ (TrimSpace l = [] → cs = [[]])) (splitLines "abcdefg\n  hi ".toList) css :=
  limitSize_ascii_chunks runeWidth "abcdefg\n  hi ".toList 3 (by decide) (by decide)

/-- C9 (the code at the failing input): the line of three `é`, each two bytes
long and one column wide, is cut at `W = 2` by byte offsets. Its first chunk,
which is not the last, is one `é`, one column wide and not two, and the third
`é` is not in the result. -/
theorem limitSize_two_byte_chunk_narrow :
    limitSize runeWidth "ééé".toList 2 = some [utf8 "é".toList, utf8 "é".toList]
      ∧ widthBytes runeWidth (utf8 "é".toList) = 1 := by
  decide

/-! ## When `limitSizeWithStrip` returns -/

theorem pushWord_ne_nil (ws : List Str) (w : Str) (hws : ∀ x ∈ ws, x ≠ []) :
    ∀ x ∈ pushWord ws w, x ≠ [] := by
  unfold pushWord
  split
  · rename_i h
    intro x hx
    rcases List.mem_append.mp hx with h1 | h1
    · exact hws x h1
    · rw [List.mem_singleton.mp h1]; exact h
  · exact hws

theorem wordLoop_returns (q : Str) (st : WordState)
    (hstart : st.word ≠ [] ∨ st.words ≠ [] ∨ q.head? ≠ some ' ')
    (hws : ∀ w ∈ st.words, w ≠ []) :
    ∃ st2, wordLoop st q = some st2 ∧ ∀ w ∈ st2.words, w ≠ [] := by
  induction q generalizing st with
  | nil => exact ⟨st, rfl, hws⟩
  | cons c q ih =>
    obtain ⟨word, words, inTag⟩ := st
    simp only at hstart hws
    rw [wordLoop]
    cases inTag with
    | true =>
      by_cases hg : c = '>'
      · subst hg
        obtain ⟨st2, h1, h2⟩ := ih
          { word := [], words := pushWord words (word ++ ['>']), inTag := false }
          (Or.inr (Or.inl (by simp [pushWord]))) (pushWord_ne_nil _ _ hws)
        exact ⟨st2, by simpa [wordStep] using h1, h2⟩
      · obtain ⟨st2, h1, h2⟩ := ih { word := word ++ [c], words := words, inTag := true }
          (Or.inl (by simp)) hws
        exact ⟨st2, by simpa [wordStep, hg] using h1, h2⟩
    | false =>
      by_cases hc : c = '<'
      · subst hc
        obtain ⟨st2, h1, h2⟩ := ih { word := ['<'], words := pushWord words word, inTag := true }
          (Or.inl (by simp)) (pushWord_ne_nil _ _ hws)
        exact ⟨st2, by simpa [wordStep] using h1, h2⟩
      · by_cases hsp : c = ' '
        · subst hsp
          by_cases hw0 : word = []
          · subst hw0
            have hne : words ≠ [] := by
              rcases hstart with h | h | h
              · exact absurd rfl h
              · exact h
              · simp at h
            obtain ⟨pre, w, rfl⟩ : ∃ pre w, words = pre ++ [w] := by
              rcases List.eq_nil_or_concat words with h | ⟨pre, w, h⟩
              · exact absurd h hne
              · exact ⟨pre, w, by simpa using h⟩
            obtain ⟨st2, h1, h2⟩ := ih
              { word := [], words := pre ++ [w ++ [' ']], inTag := false }
              (Or.inr (Or.inl (by simp)))
              (by
                intro x hx
                rcases List.mem_append.mp hx with hx1 | hx1
                · exact hws x (List.mem_append_left _ hx1)
                · rw [List.mem_singleton.mp hx1]; simp)
            exact ⟨st2, by rw [wordStep_space_empty, Option.some_bind, h1], h2⟩
          · obtain ⟨st2, h1, h2⟩ := ih { word := [], words := words ++ [word], inTag := false }
              (Or.inr (Or.inl (by simp)))
              (by
                intro x hx
                rcases List.mem_append.mp hx with hx1 | hx1
                · exact hws x hx1
                · rw [List.mem_singleton.mp hx1]; exact hw0)
            exact ⟨st2, by rw [wordStep_space_word words word hw0, Option.some_bind, h1], h2⟩
        · by_cases hnl : c = '\n'
          · subst hnl
            obtain ⟨st2, h1, h2⟩ := ih
              { word := [], words := pushWord words word ++ [['\n']], inTag := false }
              (Or.inr (Or.inl (by simp)))
              (by
                intro x hx
                rcases List.mem_append.mp hx with hx1 | hx1
                · exact pushWord_ne_nil _ _ hws x hx1
                · rw [List.mem_singleton.mp hx1]; simp)
            exact ⟨st2, by simpa [wordStep] using h1, h2⟩
          · obtain ⟨st2, h1, h2⟩ := ih { word := word ++ [c], words := words, inTag := false }
              (Or.inl (by simp)) hws
            exact ⟨st2, by rw [wordStep_plain word words c ⟨hsp, hc, hnl⟩, Option.some_bind, h1],
              h2⟩

theorem lineLoop_returns (rw : Char → Nat) (size : Int) (ws : List Str) (st : LineState)
    (hws : ∀ w ∈ ws, w ≠ []) : ∃ st2, lineLoop rw size st ws = some st2 := by
  induction ws generalizing st with
  | nil => exact ⟨st, rfl⟩
  | cons w t ih =>
    have hw := hws w (List.mem_cons_self _ _)
    have hstep : ∃ st1, lineStep rw size st w = some st1 := by
      unfold lineStep
      split
      · exact ⟨_, rfl⟩
      · cases w with
        | nil => exact absurd rfl hw
        | cons c cs =>
          simp only
          split
          · exact ⟨_, rfl⟩
          · split
            · exact ⟨_, rfl⟩
            · split
              · exact ⟨_, rfl⟩
              · exact ⟨_, rfl⟩
    obtain ⟨st1, h1⟩ := hstep
    obtain ⟨st2, h2⟩ := ih st1 (fun x hx => hws x (List.mem_cons_of_mem _ hx))
    exact ⟨st2, by rw [lineLoop, h1, Option.some_bind, h2]⟩

theorem limitSizeWithStrip_returns (rw : Char → Nat) (input : Str) (W : Int)
    (h : input.head? ≠ some ' ') : ∃ lines, limitSizeWithStrip rw input W = some lines := by
  obtain ⟨st2, h1, h2⟩ := wordLoop_returns input { word := [], words := [], inTag := false }
    (Or.inr (Or.inr h)) (by simp)
  obtain ⟨st3, h3⟩ := lineLoop_returns rw W (pushWord st2.words st2.word)
    { line := [], currentSize := 0, lines := [], hasContent := false } (pushWord_ne_nil _ _ h2)
  exact ⟨finishLines st3, limitSizeWithStrip_of_words (by simp [splitWords, h1]) h3⟩

/-! ## When `limitSize` returns -/

theorem toNat_ofNat_ascii (n : Nat) (h : n < 128) : (Char.ofNat n).toNat = n := by
  have hv : n.isValidChar := Or.inl (by omega)
  simp only [Char.ofNat, hv, dite_true, Char.ofNatAux, Char.toNat]
  simp [UInt32.toNat]

theorem decodeRune_width (rw : Char → Nat) (hrw : PanelWidths rw) (b0 : UInt8) (t0 : Bytes) :
    rw (decodeRune b0 t0).1 ≤ (decodeRune b0 t0).2 ∧ 1 ≤ (decodeRune b0 t0).2
      ∧ (decodeRune b0 t0).2 - 1 ≤ t0.length := by
  have hrep := hrw.replacement
  have h2 := hrw.le_two
  by_cases hascii : b0.toNat < 0x80
  · have e : decodeRune b0 t0 = (Char.ofNat b0.toNat, 1) := by simp [decodeRune, hascii]
    rw [e]
    exact ⟨hrw.ascii _ (by rw [toNat_ofNat_ascii _ hascii]; exact hascii), by simp, by simp⟩
  · unfold decodeRune
    rw [if_neg hascii]
    split_ifs <;> (try split) <;> (try split_ifs) <;>
      (refine ⟨?_, ?_, ?_⟩ <;> simp only [List.length_cons] <;>
        first
          | exact hrep
          | omega
          | exact le_trans (h2 _) (by omega))

theorem decodeFrom_width (rw : Char → Nat) (hrw : PanelWidths rw) (b : Bytes) (k : Nat)
    (hk : k ≤ b.length) : StringWidth rw (decodeFrom k b) + k ≤ b.length := by
  induction b generalizing k with
  | nil =>
    simp only [List.length_nil, Nat.le_zero] at hk
    subst hk
    simp [decodeFrom, StringWidth]
  | cons x rest ih =>
    cases k with
    | succ k =>
      have := ih k (by simpa using hk)
      simp only [decodeFrom, List.length_cons]
      omega
    | zero =>
      obtain ⟨h1, h2, h3⟩ := decodeRune_width rw hrw x rest
      have := ih _ h3
      simp only [decodeFrom, StringWidth_cons, List.length_cons]
      omega

theorem widthBytes_le_length (rw : Char → Nat) (hrw : PanelWidths rw) (b : Bytes) :
    widthBytes rw b ≤ b.length := by
  have := decodeFrom_width rw hrw b 0 (by omega)
  simpa [widthBytes, decodeRunes] using this

theorem chunkLoop_returns (rw : Char → Nat) (hrw : PanelWidths rw) (W : Int) (hW : 1 ≤ W)
    (fuel : Nat) (line : Bytes) (output : List Bytes) (hfuel : line.length < fuel) :
    ∃ full rem, chunkLoop rw W fuel line output = some (rem, output ++ full)
      ∧ (∀ ch ∈ full, (ch.length : Int) ≤ W) ∧ (widthBytes rw rem : Int) ≤ W := by
  induction fuel generalizing line output with
  | zero => omega
  | succ n ih =>
    rw [chunkLoop]
    have hwl := widthBytes_le_length rw hrw line
    by_cases hlen : (widthBytes rw line : Int) > W
    · obtain ⟨full, rem, h1, h2, h3⟩ := ih (line.drop W.toNat) (output ++ [line.take W.toNat])
        (by rw [List.length_drop]; omega)
      refine ⟨line.take W.toNat :: full, rem, ?_, ?_, h3⟩
      · rw [if_pos hlen, if_pos ⟨by omega, by omega⟩, h1]
        simp
      · intro ch hch
        rcases List.mem_cons.mp hch with e | e
        · rw [e, List.length_take]
          omega
        · exact h2 ch e
    · exact ⟨[], line, by rw [if_neg hlen]; simp, by simp, by omega⟩

theorem limitSizeLine_returns (rw : Char → Nat) (hrw : PanelWidths rw) (W : Int) (hW : 1 ≤ W)
    (output : List Bytes) (l : Str) (hout : ∀ ch ∈ output, (widthBytes rw ch : Int) ≤ W) :
    ∃ out2, limitSizeLine rw W output l = some out2
      ∧ ∀ ch ∈ out2, (widthBytes rw ch : Int) ≤ W := by
  obtain ⟨full, rem, h1, h2, h3⟩ := chunkLoop_returns rw hrw W hW
    ((utf8 (TrimSpace l)).length + 1) (utf8 (TrimSpace l)) output (by omega)
  have hmin : 0 ≤ (if W > (rem.length : Int) then (rem.length : Int) else W) := by
    split <;> omega
  refine ⟨output ++ full
    ++ [rem.take (if W > (rem.length : Int) then (rem.length : Int) else W).toNat], ?_, ?_⟩
  · unfold limitSizeLine
    rw [h1, Option.some_bind]
    simp only
    rw [if_neg (by omega)]
  · intro ch hch
    rcases List.mem_append.mp hch with e | e
    · rcases List.mem_append.mp e with e1 | e1
      · exact hout ch e1
      · have := widthBytes_le_length rw hrw ch
        have := h2 ch e1
        omega
    · rw [List.mem_singleton.mp e]
      have hk : (((if W > (rem.length : Int) then (rem.length : Int) else W).toNat : Nat) : Int)
          ≤ W := by
        split <;> omega
      have h4 := widthBytes_le_length rw hrw
        (rem.take (if W > (rem.length : Int) then (rem.length : Int) else W).toNat)
      rw [List.length_take] at h4
      have h5 := Nat.min_le_left
        ((if W > (rem.length : Int) then (rem.length : Int) else W).toNat) rem.length
      omega

theorem limitSizeLoop_returns (rw : Char → Nat) (hrw : PanelWidths rw) (W : Int) (hW : 1 ≤ W)
    (ls : List Str) (output : List Bytes) (hout : ∀ ch ∈ output, (widthBytes rw ch : Int) ≤ W) :
    ∃ out2, limitSizeLoop rw W output ls = some out2
      ∧ ∀ ch ∈ out2, (widthBytes rw ch : Int) ≤ W := by
  induction ls generalizing output with
  | nil => exact ⟨output, rfl, hout⟩
  | cons l t ih =>
    obtain ⟨o1, h1, h2⟩ := limitSizeLine_returns rw hrw W hW output l hout
    obtain ⟨o2, h3, h4⟩ := ih o1 h2
    exact ⟨o2, by rw [limitSizeLoop, h1, Option.some_bind, h3], h4⟩

theorem limitSize_returns (rw : Char → Nat) (hrw : PanelWidths rw) (W : Int) (hW : 1 ≤ W)
    (input : Str) :
    ∃ chunks, limitSize rw input W = some chunks
      ∧ ∀ ch ∈ chunks, (widthBytes rw ch : Int) ≤ W :=
  limitSizeLoop_returns rw hrw W hW (splitLines input) [] (by simp)

/-! ## The width of the written lines -/

theorem StringWidth_safeRepeat (rw : Char → Nat) (g : Char) (n : Int) :
    StringWidth rw (safeRepeat [g] n) = n.toNat * rw g := by
  unfold safeRepeat
  split
  · rename_i h
    have : n.toNat = 0 := by omega
    simp [this, StringWidth]
  · induction n.toNat with
    | zero => simp [StringWidth]
    | succ k ih =>
      simp only [List.replicate_succ, List.flatten_cons, StringWidth_append, ih]
      simp [StringWidth]
      ring

theorem panelWidths_runeWidth : PanelWidths runeWidth where
  space := by decide
  topLeft := by decide
  topRight := by decide
  bottomLeft := by decide
  bottomRight := by decide
  vertical := by decide
  horizontal := by decide
  leftT := by decide
  rightT := by decide
  le_two := by
    intro c
    unfold runeWidth
    simp only
    split_ifs <;> omega
  ascii := by
    intro c hc
    unfold runeWidth
    simp only
    split_ifs <;> omega
  replacement := by decide

/-! ## The matcher on `rgxHtmlContent` -/

theorem mem_run_chr (c : Char) (m m2 : Cursor) :
    m2 ∈ (Rgx.chr c).run m
      ↔ ∃ xs, m.rest = c :: xs ∧ m2 = { caps := m.caps, prev := some c, rest := xs } := by
  obtain ⟨caps, prev, rest⟩ := m
  cases rest with
  | nil => simp [Rgx.run]
  | cons x xs =>
    by_cases h : x = c
    · subst h
      simp [Rgx.run]
    · have h2 : ¬ c = x := fun e => h e.symm
      simp [Rgx.run, h, h2]

theorem mem_run_cls (p : Char → Bool) (m m2 : Cursor) :
    m2 ∈ (Rgx.cls p).run m
      ↔ ∃ x xs, m.rest = x :: xs ∧ p x = true
          ∧ m2 = { caps := m.caps, prev := some x, rest := xs } := by
  obtain ⟨caps, prev, rest⟩ := m
  cases rest with
  | nil => simp [Rgx.run]
  | cons x xs =>
    by_cases h : p x = true
    · simp only [Rgx.run, h, if_true, List.mem_singleton, List.cons.injEq]
      constructor
      · intro e
        exact ⟨x, xs, ⟨rfl, rfl⟩, h, e⟩
      · rintro ⟨y, ys, ⟨rfl, rfl⟩, -, e⟩
        exact e
    · rw [Rgx.run]
      simp only [if_neg h, List.not_mem_nil, List.cons.injEq, false_iff]
      rintro ⟨y, ys, ⟨rfl, rfl⟩, hy, -⟩
      exact h hy

theorem mem_run_seq (a b : Rgx) (m m2 : Cursor) :
    m2 ∈ (Rgx.seq a b).run m ↔ ∃ m1, m1 ∈ a.run m ∧ m2 ∈ b.run m1 := by
  simp [Rgx.run, List.mem_flatMap]

theorem mem_run_alt (a b : Rgx) (m m2 : Cursor) :
    m2 ∈ (Rgx.alt a b).run m ↔ m2 ∈ a.run m ∨ m2 ∈ b.run m := by
  simp [Rgx.run]

theorem mem_starRun (p : Char → Bool) (caps : List (Nat × Str)) (prev : Option Char) (s : Str)
    (m2 : Cursor) :
    m2 ∈ starRun p caps prev s
      ↔ ∃ taken rest, s = taken ++ rest ∧ (∀ x ∈ taken, p x = true)
          ∧ m2 = { caps := caps, prev := lastOr prev taken, rest := rest } := by
  induction s generalizing prev with
  | nil =>
    simp only [starRun, List.mem_singleton]
    constructor
    · intro e
      exact ⟨[], [], rfl, by simp, e⟩
    · rintro ⟨taken, rest, h1, -, h3⟩
      have ht : taken = [] := by
        cases taken with
        | nil => rfl
        | cons a t => simp at h1
      subst ht
      have hr : rest = [] := by simpa using h1.symm
      subst hr
      exact h3
  | cons x xs ih =>
    have hstay : ∀ m2, m2 = ({ caps := caps, prev := prev, rest := x :: xs } : Cursor)
        → ∃ taken rest, x :: xs = taken ++ rest ∧ (∀ y ∈ taken, p y = true)
          ∧ m2 = { caps := caps, prev := lastOr prev taken, rest := rest } :=
      fun m2 e => ⟨[], x :: xs, rfl, by simp, e⟩
    by_cases hp : p x = true
    · rw [starRun, if_pos hp, List.mem_append, List.mem_singleton, ih]
      constructor
      · rintro (⟨taken, rest, h1, h2, h3⟩ | e)
        · refine ⟨x :: taken, rest, by simp [h1], ?_, h3⟩
          intro y hy
          rcases List.mem_cons.mp hy with e | e
          · rw [e]; exact hp
          · exact h2 y e
        · exact hstay m2 e
      · rintro ⟨taken, rest, h1, h2, h3⟩
        cases taken with
        | nil =>
          right
          simp only [List.nil_append] at h1
          subst h1
          exact h3
        | cons a t =>
          left
          simp only [List.cons_append, List.cons.injEq] at h1
          obtain ⟨rfl, rfl⟩ := h1
          exact ⟨t, rest, rfl, fun y hy => h2 y (List.mem_cons_of_mem _ hy), h3⟩
    · rw [starRun, if_neg hp, List.mem_singleton]
      constructor
      · exact hstay m2
      · rintro ⟨taken, rest, h1, h2, h3⟩
        cases taken with
        | nil =>
          simp only [List.nil_append] at h1
          subst h1
          exact h3
        | cons a t =>
          simp only [List.cons_append, List.cons.injEq] at h1
          obtain ⟨rfl, rfl⟩ := h1
          exact absurd (h2 _ (List.mem_cons_self _ _)) hp

theorem mem_run_star (p : Char → Bool) (m m2 : Cursor) :
    m2 ∈ (Rgx.star p).run m
      ↔ ∃ taken rest, m.rest = taken ++ rest ∧ (∀ x ∈ taken, p x = true)
          ∧ m2 = { caps := m.caps, prev := lastOr m.prev taken, rest := rest } := by
  simp only [Rgx.run]
  exact mem_starRun p m.caps m.prev m.rest m2

theorem mem_run_str (name : Str) (m m2 : Cursor) :
    m2 ∈ (Rgx.str name).run m
      ↔ ∃ xs, m.rest = name ++ xs
          ∧ m2 = { caps := m.caps, prev := lastOr m.prev name, rest := xs } := by
  induction name generalizing m with
  | nil =>
    obtain ⟨caps, prev, rest⟩ := m
    simp [Rgx.str, Rgx.run, lastOr]
  | cons c cs ih =>
    simp only [Rgx.str, mem_run_seq, mem_run_chr, ih]
    constructor
    · rintro ⟨m1, ⟨xs, h1, rfl⟩, ys, h2, h3⟩
      simp only at h2 h3
      subst h2
      exact ⟨ys, by simp [h1], h3⟩
    · rintro ⟨xs, h1, h2⟩
      exact ⟨{ caps := m.caps, prev := some c, rest := cs ++ xs }, ⟨cs ++ xs, by simp [h1], rfl⟩,
        xs, rfl, h2⟩

theorem mem_run_alts (rs : List Rgx) (hrs : rs ≠ []) (m m2 : Cursor) :
    m2 ∈ (Rgx.alts rs).run m ↔ ∃ r ∈ rs, m2 ∈ r.run m := by
  induction rs with
  | nil => exact absurd rfl hrs
  | cons r t ih =>
    cases t with
    | nil => simp [Rgx.alts]
    | cons r2 t2 =>
      have := ih (by simp)
      simp only [Rgx.alts, mem_run_alt, this]
      simp

theorem mem_run_wordBoundary (m m2 : Cursor) :
    m2 ∈ Rgx.wordBoundary.run m ↔ optWord m.prev ≠ optWord m.rest.head? ∧ m2 = m := by
  by_cases h : optWord m.prev = optWord m.rest.head?
  · simp [Rgx.run, h]
  · simp [Rgx.run, h]

theorem isDigit16_iff (d : Char) :
    isDigit16 d = true ↔ d = '1' ∨ d = '2' ∨ d = '3' ∨ d = '4' ∨ d = '5' ∨ d = '6' := by
  constructor
  · intro h
    simp only [isDigit16, Bool.and_eq_true, decide_eq_true_eq] at h
    have h1 : 49 ≤ d.toNat := by
      have := h.1
      rw [Char.le_def] at this
      exact this
    have h2 : d.toNat ≤ 54 := by
      have := h.2
      rw [Char.le_def] at this
      exact this
    have key : ∀ n, d.toNat = n → d = Char.ofNat n := fun n e => by rw [← e, Char.ofNat_toNat]
    have : d.toNat = 49 ∨ d.toNat = 50 ∨ d.toNat = 51 ∨ d.toNat = 52 ∨ d.toNat = 53
        ∨ d.toNat = 54 := by
      omega
    rcases this with e | e | e | e | e | e
    · exact Or.inl (key _ e)
    · exact Or.inr (Or.inl (key _ e))
    · exact Or.inr (Or.inr (Or.inl (key _ e)))
    · exact Or.inr (Or.inr (Or.inr (Or.inl (key _ e))))
    · exact Or.inr (Or.inr (Or.inr (Or.inr (Or.inl (key _ e)))))
    · exact Or.inr (Or.inr (Or.inr (Or.inr (Or.inr (key _ e)))))
  · rintro (rfl | rfl | rfl | rfl | rfl | rfl) <;> decide

theorem mem_run_hdigit (m m2 : Cursor) :
    m2 ∈ (Rgx.seq (.chr 'h') (.cls isDigit16)).run m
      ↔ ∃ d, isDigit16 d = true ∧ ∃ xs, m.rest = ['h', d] ++ xs
          ∧ m2 = { caps := m.caps, prev := lastOr m.prev ['h', d], rest := xs } := by
  simp only [mem_run_seq, mem_run_chr, mem_run_cls]
  constructor
  · rintro ⟨m1, ⟨xs, h1, rfl⟩, d, ys, h2, h3, h4⟩
    simp only at h2 h4
    subst h2
    exact ⟨d, h3, ys, by simp [h1], h4⟩
  · rintro ⟨d, h3, xs, h1, h2⟩
    exact ⟨{ caps := m.caps, prev := some 'h', rest := d :: xs }, ⟨d :: xs, by simpa using h1, rfl⟩,
      d, xs, rfl, h3, h2⟩

theorem mem_run_names (m m2 : Cursor) :
    m2 ∈ (Rgx.alts rgxHtmlContentNames).run m
      ↔ ∃ name ∈ tagWhitelist, ∃ xs, m.rest = name ++ xs
          ∧ m2 = { caps := m.caps, prev := lastOr m.prev name, rest := xs } := by
  rw [mem_run_alts _ (by simp [rgxHtmlContentNames])]
  constructor
  · rintro ⟨r, hr, hm⟩
    simp only [rgxHtmlContentNames, List.mem_cons, List.mem_singleton, List.not_mem_nil,
      or_false] at hr
    rcases hr with rfl | rfl | rfl | rfl | rfl | rfl | rfl | rfl | rfl | rfl | rfl | rfl | rfl
      | rfl | rfl | rfl
    case inr.inr.inr.inr.inr.inr.inr.inr.inr.inr.inr.inr.inr.inl =>
      rw [mem_run_hdigit] at hm
      obtain ⟨d, hd, xs, h1, h2⟩ := hm
      rcases (isDigit16_iff d).mp hd with rfl | rfl | rfl | rfl | rfl | rfl
      all_goals exact ⟨_, by decide, xs, h1, h2⟩
    all_goals
      rw [mem_run_str] at hm
      obtain ⟨xs, h1, h2⟩ := hm
      exact ⟨_, by decide, xs, h1, h2⟩
  · rintro ⟨name, hn, xs, h1, h2⟩
    simp only [tagWhitelist, List.mem_cons, List.mem_singleton, List.not_mem_nil,
      or_false] at hn
    have hstr : ∀ n : Str, Rgx.str n ∈ rgxHtmlContentNames → name = n
        → ∃ r ∈ rgxHtmlContentNames, m2 ∈ r.run m := by
      intro n hmem e
      subst e
      exact ⟨_, hmem, (mem_run_str _ m m2).mpr ⟨xs, h1, h2⟩⟩
    have hdig : ∀ d : Char, isDigit16 d = true → name = ['h', d]
        → ∃ r ∈ rgxHtmlContentNames, m2 ∈ r.run m := by
      intro d hd e
      subst e
      exact ⟨_, by simp [rgxHtmlContentNames],
        (mem_run_hdigit m m2).mpr ⟨d, hd, xs, h1, h2⟩⟩
    rcases hn with e | e | e | e | e | e | e | e | e | e | e | e | e | e | e | e | e | e | e
      | e | e
    case inr.inr.inr.inr.inr.inr.inr.inr.inr.inr.inr.inr.inr.inl =>
      exact hdig '1' (by decide) e
    case inr.inr.inr.inr.inr.inr.inr.inr.inr.inr.inr.inr.inr.inr.inl =>
      exact hdig '2' (by decide) e
    case inr.inr.inr.inr.inr.inr.inr.inr.inr.inr.inr.inr.inr.inr.inr.inl =>
      exact hdig '3' (by decide) e
    case inr.inr.inr.inr.inr.inr.inr.inr.inr.inr.inr.inr.inr.inr.inr.inr.inl =>
      exact hdig '4' (by decide) e
    case inr.inr.inr.inr.inr.inr.inr.inr.inr.inr.inr.inr.inr.inr.inr.inr.inr.inl =>
      exact hdig '5' (by decide) e
    case inr.inr.inr.inr.inr.inr.inr.inr.inr.inr.inr.inr.inr.inr.inr.inr.inr.inr.inl =>
      exact hdig '6' (by decide) e
    all_goals exact hstr _ (by simp [rgxHtmlContentNames]) e

theorem optWord_lastOr_name (prev : Option Char) (name : Str) (h : name ∈ tagWhitelist) :
    optWord (lastOr prev name) = true := by
  simp only [tagWhitelist, List.mem_cons, List.mem_singleton, List.not_mem_nil, or_false] at h
  rcases h with rfl | rfl | rfl | rfl | rfl | rfl | rfl | rfl | rfl | rfl | rfl | rfl | rfl
    | rfl | rfl | rfl | rfl | rfl | rfl | rfl | rfl <;> rfl

theorem matchAt_isSome_iff (r : Rgx) (prev : Option Char) (s : Str) :
    (matchAt r prev s).isSome = true ↔ ∃ m2, m2 ∈ r.run { caps := [], prev := prev, rest := s } := by
  unfold matchAt
  cases r.run { caps := [], prev := prev, rest := s } with
  | nil => simp
  | cons a t => simp

theorem matchAt_rgxHtmlContent (prev : Option Char) (s : Str) :
    (matchAt rgxHtmlContent prev s).isSome = true
      ↔ ∃ ws name attrs post, s = '<' :: (ws ++ (name ++ (attrs ++ '>' :: post)))
          ∧ (∀ x ∈ ws, isReSpace x = true) ∧ name ∈ tagWhitelist
          ∧ (∀ x ∈ attrs, x ≠ '>') ∧ (∀ x ∈ attrs.head?, isWordChar x = false) := by
  rw [matchAt_isSome_iff]
  have hdef : rgxHtmlContent = .seq (.chr '<') (.seq (.star isReSpace)
      (.seq (Rgx.alts rgxHtmlContentNames) (.seq .wordBoundary
        (.seq (.star notGt) (.chr '>'))))) := rfl
  rw [hdef]
  simp only [mem_run_seq, mem_run_chr, mem_run_star, mem_run_names, mem_run_wordBoundary]
  constructor
  · rintro ⟨m6, m1, ⟨r1, h1, rfl⟩, m2, ⟨ws, r2, h2, hws, rfl⟩, m3,
      ⟨name, hname, r3, h3, rfl⟩, m4, ⟨hb, rfl⟩, m5, ⟨attrs, r4, h4, hattrs, rfl⟩, post, h5, -⟩
    simp only at h1 h2 h3 h4 h5 hb
    subst h1 h2 h3 h4 h5
    refine ⟨ws, name, attrs, post, rfl, hws, hname, ?_, ?_⟩
    · intro x hx
      have := hattrs x hx
      simpa [notGt] using this
    · rw [optWord_lastOr_name _ name hname] at hb
      intro x hx
      cases attrs with
      | nil => simp at hx
      | cons a t =>
        simp only [List.head?_cons, Option.mem_def, Option.some.injEq] at hx
        subst hx
        simpa [optWord] using hb
  · rintro ⟨ws, name, attrs, post, rfl, hws, hname, hattrs, hhead⟩
    refine ⟨_, _, ⟨_, rfl, rfl⟩, _, ⟨ws, _, rfl, hws, rfl⟩, _, ⟨name, hname, _, rfl, rfl⟩, _,
      ⟨?_, rfl⟩, _, ⟨attrs, _, rfl, ?_, rfl⟩, post, rfl, rfl⟩
    · simp only
      rw [optWord_lastOr_name _ name hname]
      cases attrs with
      | nil => simp [optWord, isWordChar]
      | cons a t =>
        have := hhead a (by simp)
        simp [optWord, this]
    · intro x hx
      simpa [notGt] using hattrs x hx

theorem matchFrom_iff (r : Rgx) (prev : Option Char) (s : Str) :
    matchFrom r prev s = true
      ↔ ∃ pre post, s = pre ++ post ∧ (matchAt r (lastOr prev pre) post).isSome = true := by
  induction s generalizing prev with
  | nil =>
    simp only [matchFrom]
    constructor
    · intro h
      exact ⟨[], [], rfl, h⟩
    · rintro ⟨pre, post, h1, h2⟩
      have hp : pre = [] := by
        cases pre with
        | nil => rfl
        | cons a t => simp at h1
      subst hp
      have hq : post = [] := by simpa using h1.symm
      subst hq
      exact h2
  | cons c rest ih =>
    simp only [matchFrom, Bool.or_eq_true, ih]
    constructor
    · rintro (h | ⟨pre, post, h1, h2⟩)
      · exact ⟨[], c :: rest, rfl, h⟩
      · exact ⟨c :: pre, post, by simp [h1], h2⟩
    · rintro ⟨pre, post, h1, h2⟩
      cases pre with
      | nil =>
        left
        simp only [List.nil_append] at h1
        subst h1
        exact h2
      | cons a t =>
        right
        simp only [List.cons_append, List.cons.injEq] at h1
        obtain ⟨rfl, rfl⟩ := h1
        exact ⟨t, post, rfl, h2⟩

theorem MatchString_rgxHtmlContent (c : Str) :
    MatchString rgxHtmlContent c = true ↔ HasListedTag c := by
  unfold MatchString HasListedTag
  rw [matchFrom_iff]
  constructor
  · rintro ⟨pre, post, h1, h2⟩
    obtain ⟨ws, name, attrs, rest, rfl, h3⟩ := (matchAt_rgxHtmlContent _ post).mp h2
    exact ⟨pre, ws, name, attrs, rest, h1, h3⟩
  · rintro ⟨pre, ws, name, attrs, rest, h1, h3⟩
    exact ⟨pre, _, h1, (matchAt_rgxHtmlContent _ _).mpr ⟨ws, name, attrs, rest, rfl, h3⟩⟩

/-! ## The entity count and the declarations of `isHTMLContent` -/

theorem occurrences_nil (sub : Str) (h : sub ≠ []) : occurrences sub [] = 0 := by
  cases sub with
  | nil => exact absurd rfl h
  | cons a t => simp [occurrences, List.isPrefixOf]

theorem occurrences_cons (sub : Str) (c : Char) (rest : Str) :
    occurrences sub (c :: rest)
      = (if sub.isPrefixOf (c :: rest) = true then 1 else 0) + occurrences sub rest := by
  simp only [occurrences, List.tails, List.filter_cons]
  split
  · simp
    omega
  · simp

theorem countFrom_amp (s : Str) : countFrom ['&'] 0 s = occurrences ['&'] s := by
  induction s with
  | nil => simp [countFrom, occurrences_nil]
  | cons c rest ih =>
    rw [countFrom, occurrences_cons]
    split
    · simp [ih]
    · simp [ih]

theorem countFrom_ampHash (n : Nat) (s : Str) (h : s.length ≤ n) :
    countFrom ['&', '#'] 0 s = occurrences ['&', '#'] s := by
  induction n generalizing s with
  | zero =>
    have : s = [] := List.length_eq_zero.mp (by omega)
    subst this
    simp [countFrom, occurrences_nil]
  | succ k ih =>
    cases s with
    | nil => simp [countFrom, occurrences_nil]
    | cons c rest =>
      rw [countFrom, occurrences_cons]
      by_cases hp : List.isPrefixOf ['&', '#'] (c :: rest) = true
      · rw [if_pos hp, if_pos hp]
        cases rest with
        | nil => simp [List.isPrefixOf] at hp
        | cons d rest2 =>
          have hd : d = '#' := by
            simp [List.isPrefixOf] at hp
            exact hp.2.symm
          subst hd
          have hno : ¬ (List.isPrefixOf ['&', '#'] ('#' :: rest2) = true) := by
            simp [List.isPrefixOf]
          rw [occurrences_cons, if_neg hno]
          simp only [List.length_cons, Nat.add_one_sub_one, countFrom, Nat.zero_add]
          rw [ih rest2 (by simp only [List.length_cons] at h; omega)]
      · rw [if_neg hp, if_neg hp, ih rest (by simp only [List.length_cons] at h; omega)]
        simp

theorem Count_amp (s : Str) : Count s "&".toList = occurrences "&".toList s := by
  rw [show "&".toList = ['&'] from rfl]
  simp [Count, countFrom_amp]

theorem Count_ampHash (s : Str) : Count s "&#".toList = occurrences "&#".toList s := by
  rw [show "&#".toList = ['&', '#'] from rfl]
  simp [Count, countFrom_ampHash s.length s (le_refl _)]

theorem Contains_iff (s sub : Str) :
    Contains s sub = true ↔ ∃ pre post, s = pre ++ (sub ++ post) := by
  induction s with
  | nil =>
    simp only [Contains, List.isPrefixOf_iff_prefix]
    constructor
    · rintro ⟨t, ht⟩
      exact ⟨[], t, by simpa using ht.symm⟩
    · rintro ⟨pre, post, h⟩
      have hp : pre = [] := by
        cases pre with
        | nil => rfl
        | cons a t => simp at h
      subst hp
      exact ⟨post, by simpa using h.symm⟩
  | cons c rest ih =>
    simp only [Contains, Bool.or_eq_true, List.isPrefixOf_iff_prefix, ih]
    constructor
    · rintro (⟨t, ht⟩ | ⟨pre, post, h⟩)
      · exact ⟨[], t, by simpa using ht.symm⟩
      · exact ⟨c :: pre, post, by simp [h]⟩
    · rintro ⟨pre, post, h⟩
      cases pre with
      | nil =>
        left
        exact ⟨post, by simpa using h.symm⟩
      | cons a t =>
        right
        simp only [List.cons_append, List.cons.injEq] at h
        exact ⟨t, post, h.2⟩

theorem Contains_ToLower_iff (c pat : Str) :
    Contains (ToLower c) pat = true ↔ ContainsIgnoreCase c pat := by
  rw [Contains_iff]
  unfold ContainsIgnoreCase ToLower
  constructor
  · rintro ⟨pre, post, h⟩
    obtain ⟨a, b, rfl, rfl, hb⟩ := List.map_eq_append_iff.mp h
    obtain ⟨m, p2, rfl, rfl, rfl⟩ := List.map_eq_append_iff.mp hb
    exact ⟨a, m, p2, rfl, rfl⟩
  · rintro ⟨pre, mid, post, rfl, rfl⟩
    exact ⟨pre.map unicodeToLower, post.map unicodeToLower, by simp⟩

/-- C10 (as amended): `isHTMLContent` is true exactly when one of these holds:
the text contains a `<`, white space if any, a name of the whitelist in lower
case that is not continued by a letter, digit or underscore, and any runes
other than `>` up to a closing `>`; the number of `&` in the text and the
number of `&#` in it, added up, are three or more; or the text contains, up
to the case of the letters, the exact text `<!doctype html>` or the text
`<html`. When it is false, `PrintEmail` takes the body as it is. -/
theorem isHTMLContent_iff_signal (c : Str) (unescape : Str → Str) (p : Printer)
    (email : Email) :
    (isHTMLContent c = true
        ↔ HasListedTag c
          ∨ 3 ≤ occurrences "&".toList c + occurrences "&#".toList c
          ∨ ContainsIgnoreCase c "<!doctype html>".toList
          ∨ ContainsIgnoreCase c "<html".toList)
      ∧ (isHTMLContent email.Body = false → bodyContent unescape p email = email.Body) := by
  constructor
  · rw [← MatchString_rgxHtmlContent, ← Count_amp, ← Count_ampHash, ← Contains_ToLower_iff,
      ← Contains_ToLower_iff]
    unfold isHTMLContent
    by_cases h1 : MatchString rgxHtmlContent c = true
    · simp [h1]
    · by_cases h2 : Count c "&".toList + Count c "&#".toList ≥ 3
      · simp [h1, h2]
      · have h2' : ¬ (3 ≤ Count c "&".toList + Count c "&#".toList) := h2
        simp only [h1, h2, h2', if_false, false_or, Bool.false_eq_true]
        split <;> simp_all
  · intro h
    simp [bodyContent, h]

theorem isHTMLContent_iff_signal_witness :
    (isHTMLContent "x &amp; y &#38; z".toList = true
        ↔ HasListedTag "x &amp; y &#38; z".toList
          ∨ 3 ≤ occurrences "&".toList "x &amp; y &#38; z".toList
              + occurrences "&#".toList "x &amp; y &#38; z".toList
          ∨ ContainsIgnoreCase "x &amp; y &#38; z".toList "<!doctype html>".toList
          ∨ ContainsIgnoreCase "x &amp; y &#38; z".toList "<html".toList)
      ∧ bodyContent id { width := 80, htmlOptions := defaultOptions }
          { ID := "42".toList, Subject := "Hi".toList, From := "a@b.com".toList,
            Timestamp := [], Body := "plain text, no tags".toList }
        = "plain text, no tags".toList :=
  ⟨(isHTMLContent_iff_signal "x &amp; y &#38; z".toList id
      { width := 80, htmlOptions := defaultOptions }
      { ID := "42".toList, Subject := "Hi".toList, From := "a@b.com".toList,
        Timestamp := [], Body := "plain text, no tags".toList }).1,
   (isHTMLContent_iff_signal "x &amp; y &#38; z".toList id
      { width := 80, htmlOptions := defaultOptions }
      { ID := "42".toList, Subject := "Hi".toList, From := "a@b.com".toList,
        Timestamp := [], Body := "plain text, no tags".toList }).2 (by decide)⟩

/-! ## `stripTags` on a text between markup tokens -/

theorem starRun_greedy (p : Char → Bool) (caps : List (Nat × Str)) (prev : Option Char)
    (t : Str) (x : Char) (rest : Str) (ht : ∀ c ∈ t, p c = true) (hx : p x = false) :
    ∃ more, starRun p caps prev (t ++ x :: rest)
      = { caps := caps, prev := lastOr prev t, rest := x :: rest } :: more := by
  induction t generalizing prev with
  | nil => exact ⟨[], by simp [starRun, hx, lastOr]⟩
  | cons c cs ih =>
    have hc := ht c (List.mem_cons_self _ _)
    obtain ⟨more, hm⟩ := ih (some c) (fun y hy => ht y (List.mem_cons_of_mem _ hy))
    refine ⟨more ++ [{ caps := caps, prev := prev, rest := c :: (cs ++ x :: rest) }], ?_⟩
    rw [List.cons_append, starRun, if_pos hc, hm]
    simp [lastOr]

theorem matchAt_rgxHtml_token (prev : Option Char) (i0 : Char) (is rest : Str)
    (h0 : i0 ≠ '>') (his : ∀ c ∈ is, c ≠ '>') :
    matchAt rgxHtml prev ('<' :: i0 :: (is ++ '>' :: rest))
      = some { caps := [], prev := some '>', rest := rest } := by
  obtain ⟨more, hm⟩ := starRun_greedy notGt [] (some i0) is '>' rest
    (fun c hc => by simpa [notGt] using his c hc) (by simp [notGt])
  have hn : notGt i0 = true := by simpa [notGt] using h0
  simp [matchAt, rgxHtml, Rgx.cat, Rgx.run, hn, hm]

theorem replaceFrom_skip (r : Rgx) (repl : Cursor → Str) (a b : Str) (prev : Option Char)
    (ha : a ≠ []) :
    replaceFrom r repl a.length prev (a ++ b) = replaceFrom r repl 0 (lastOr prev a) b := by
  induction a generalizing prev with
  | nil => exact absurd rfl ha
  | cons c cs ih =>
    cases cs with
    | nil => simp [replaceFrom, lastOr]
    | cons d ds =>
      have := ih (some c) (by simp)
      simp only [List.length_cons, List.cons_append] at this ⊢
      rw [replaceFrom, this]
      simp [lastOr]

theorem stripTags_token (prev : Option Char) (inner rest : Str) (h0 : inner ≠ [])
    (hin : ∀ c ∈ inner, c ≠ '<' ∧ c ≠ '>') :
    replaceFrom rgxHtml (fun _ => []) 0 prev (markupToken inner ++ rest)
      = replaceFrom rgxHtml (fun _ => []) 0 (some '>') rest := by
  obtain ⟨i0, is, rfl⟩ := List.exists_cons_of_ne_nil h0
  have h1 := (hin i0 (List.mem_cons_self _ _)).2
  have h2 : ∀ c ∈ is, c ≠ '>' := fun c hc => (hin c (List.mem_cons_of_mem _ hc)).2
  have hm := matchAt_rgxHtml_token prev i0 is rest h1 h2
  have hskip := replaceFrom_skip rgxHtml (fun _ => []) (i0 :: (is ++ ['>'])) rest (some '<')
    (by simp)
  have hlast : lastOr (some '<') (i0 :: (is ++ ['>'])) = some '>' := by
    have : ∀ (q : Option Char) (l : Str), lastOr q (l ++ ['>']) = some '>' := by
      intro q l
      induction l generalizing q with
      | nil => rfl
      | cons a t ih => exact ih (some a)
    exact this (some i0) is
  rw [hlast] at hskip
  simp only [markupToken, List.cons_append, List.append_assoc, List.singleton_append,
    List.nil_append] at hskip ⊢
  rw [replaceFrom, hm]
  simp only [List.length_cons, List.length_append, List.nil_append]
  rw [if_neg (by omega)]
  have e : is.length + (rest.length + 1) + 1 + 1 - rest.length - 1
      = (i0 :: (is ++ ['>'])).length := by
    simp only [List.length_cons, List.length_append, List.length_nil]
    omega
  rw [e]
  simpa using hskip

theorem stripTags_tokens (prev : Option Char) (toks : List Str) (rest : Str)
    (htok : ∀ n ∈ toks, n ≠ [] ∧ ∀ c ∈ n, c ≠ '<' ∧ c ≠ '>') (h0 : toks ≠ []) :
    replaceFrom rgxHtml (fun _ => []) 0 prev (toks.flatMap markupToken ++ rest)
      = replaceFrom rgxHtml (fun _ => []) 0 (some '>') rest := by
  induction toks generalizing prev with
  | nil => exact absurd rfl h0
  | cons n t ih =>
    have hn := htok n (List.mem_cons_self _ _)
    rw [List.flatMap_cons, List.append_assoc, stripTags_token prev n _ hn.1 hn.2]
    by_cases ht : t = []
    · subst ht
      simp
    · exact ih (some '>') (fun x hx => htok x (List.mem_cons_of_mem _ hx)) ht

theorem replaceFrom_rgxHtml_plain_append (s rest : Str) (prev : Option Char) (h : '<' ∉ s)
    (hs : s ≠ []) :
    replaceFrom rgxHtml (fun _ => []) 0 prev (s ++ rest)
      = s ++ replaceFrom rgxHtml (fun _ => []) 0 (lastOr prev s) rest := by
  induction s generalizing prev with
  | nil => exact absurd rfl hs
  | cons c cs ih =>
    have hc : c ≠ '<' := fun e => h (e ▸ List.mem_cons_self _ _)
    have hcs : '<' ∉ cs := fun e => h (List.mem_cons_of_mem _ e)
    rw [List.cons_append, replaceFrom, matchAt_rgxHtml_ne prev c _ hc]
    by_cases h0 : cs = []
    · subst h0
      simp [lastOr]
    · simp [ih _ hcs h0, lastOr]

theorem stripTags_between_tokens (opens closes : List Str) (body : Str)
    (htok : ∀ n ∈ opens ++ closes, n ≠ [] ∧ ∀ c ∈ n, c ≠ '<' ∧ c ≠ '>')
    (hlt : '<' ∉ body) :
    stripTags (opens.flatMap markupToken ++ body ++ closes.flatMap markupToken) = body := by
  have hopen : ∀ n ∈ opens, n ≠ [] ∧ ∀ c ∈ n, c ≠ '<' ∧ c ≠ '>' :=
    fun n hn => htok n (List.mem_append_left _ hn)
  have hclose : ∀ n ∈ closes, n ≠ [] ∧ ∀ c ∈ n, c ≠ '<' ∧ c ≠ '>' :=
    fun n hn => htok n (List.mem_append_right _ hn)
  have hend : ∀ prev, replaceFrom rgxHtml (fun _ => []) 0 prev (closes.flatMap markupToken)
      = [] := by
    intro prev
    by_cases hc : closes = []
    · subst hc
      rfl
    · have := stripTags_tokens prev closes [] hclose hc
      simpa [replaceFrom] using this
  have hmid : ∀ prev, replaceFrom rgxHtml (fun _ => []) 0 prev
      (body ++ closes.flatMap markupToken) = body := by
    intro prev
    by_cases hb : body = []
    · subst hb
      simpa using hend prev
    · rw [replaceFrom_rgxHtml_plain_append body _ prev hlt hb, hend]
      simp
  unfold stripTags ReplaceAllString
  rw [List.append_assoc]
  by_cases ho : opens = []
  · subst ho
    simpa using hmid none
  · rw [stripTags_tokens none opens _ hopen ho, hmid]

/-! ## A short text between markup tokens comes back on one line -/

theorem wordLoop_inTag (n : Str) (w : Str) (ws : List Str) (hn : ∀ c ∈ n, c ≠ '>') :
    wordLoop { word := w, words := ws, inTag := true } (n ++ ['>'])
      = some { word := [], words := ws ++ [w ++ n ++ ['>']], inTag := false } := by
  induction n generalizing w with
  | nil => simp [wordLoop, wordStep, pushWord]
  | cons c cs ih =>
    have hc := hn c (List.mem_cons_self _ _)
    have := ih (w ++ [c]) (fun x hx => hn x (List.mem_cons_of_mem _ hx))
    rw [List.cons_append, wordLoop]
    simp only [wordStep, if_true, hc, if_false, Option.some_bind]
    rw [this]
    simp

theorem wordLoop_token (n : Str) (w : Str) (ws : List Str) (hn : ∀ c ∈ n, c ≠ '>') :
    wordLoop { word := w, words := ws, inTag := false } (markupToken n)
      = some { word := [], words := pushWord ws w ++ [markupToken n], inTag := false } := by
  unfold markupToken
  rw [wordLoop]
  simp only [wordStep, Bool.false_eq_true, if_false, if_true, Option.some_bind]
  rw [wordLoop_inTag n ['<'] _ hn]
  simp

theorem wordLoop_tokens_list (toks : List Str) (ws : List Str)
    (htok : ∀ n ∈ toks, ∀ c ∈ n, c ≠ '>') :
    wordLoop { word := [], words := ws, inTag := false } (toks.flatMap markupToken)
      = some { word := [], words := ws ++ toks.map markupToken, inTag := false } := by
  induction toks generalizing ws with
  | nil => simp [wordLoop]
  | cons n t ih =>
    rw [List.flatMap_cons, wordLoop_append,
      wordLoop_token n [] ws (htok n (List.mem_cons_self _ _)), Option.some_bind,
      ih _ (fun x hx => htok x (List.mem_cons_of_mem _ hx))]
    simp [pushWord]

theorem wordLoop_tokens_push (toks : List Str) (w : Str) (ws : List Str)
    (htok : ∀ n ∈ toks, ∀ c ∈ n, c ≠ '>') :
    ∃ st, wordLoop { word := w, words := ws, inTag := false } (toks.flatMap markupToken) = some st
      ∧ pushWord st.words st.word = pushWord ws w ++ toks.map markupToken := by
  cases toks with
  | nil => exact ⟨_, rfl, by simp⟩
  | cons n t =>
    refine ⟨{ word := [], words := pushWord ws w ++ [markupToken n] ++ t.map markupToken,
              inTag := false }, ?_, by simp [pushWord]⟩
    rw [List.flatMap_cons, wordLoop_append,
      wordLoop_token n w ws (htok n (List.mem_cons_self _ _)), Option.some_bind,
      wordLoop_tokens_list t _ (fun x hx => htok x (List.mem_cons_of_mem _ hx))]

theorem pushWord_prepend (pre ws : List Str) (w : Str) :
    pushWord (pre ++ ws) w = pre ++ pushWord ws w := by
  unfold pushWord
  split <;> simp

theorem wordStep_prepend (pre : List Str) (st st2 : WordState) (c : Char)
    (h : wordStep st c = some st2) :
    wordStep { st with words := pre ++ st.words } c
      = some { st2 with words := pre ++ st2.words } := by
  obtain ⟨word, words, inTag⟩ := st
  unfold wordStep at h ⊢
  simp only at h ⊢
  split at h
  · split at h
    · simp only [Option.some.injEq] at h
      subst h
      simp_all [pushWord_prepend]
    · simp only [Option.some.injEq] at h
      subst h
      simp_all
  · split at h
    · simp only [Option.some.injEq] at h
      subst h
      simp_all [pushWord_prepend]
    · split at h
      · split at h
        · simp only [Option.some.injEq] at h
          subst h
          simp_all
        · simp only [Option.map_eq_some'] at h
          obtain ⟨ws2, happ, rfl⟩ := h
          obtain ⟨p2, w, rfl, rfl⟩ := appendLast_eq_some happ
          have := appendLast_concat (pre ++ p2) w [' ']
          simp only [List.append_assoc] at this
          simp_all
      · split at h
        · simp only [Option.some.injEq] at h
          subst h
          simp_all [pushWord_prepend]
        · simp only [Option.some.injEq] at h
          subst h
          simp_all

theorem wordLoop_prepend (pre : List Str) (q : Str) (st st2 : WordState)
    (h : wordLoop st q = some st2) :
    wordLoop { st with words := pre ++ st.words } q
      = some { st2 with words := pre ++ st2.words } := by
  induction q generalizing st with
  | nil =>
    simp only [wordLoop, Option.some.injEq] at h ⊢
    rw [h]
  | cons c cs ih =>
    rw [wordLoop] at h ⊢
    cases hs : wordStep st c with
    | none => simp [hs] at h
    | some st1 =>
      rw [hs, Option.some_bind] at h
      rw [wordStep_prepend pre st st1 c hs, Option.some_bind]
      exact ih st1 h

theorem lineLoop_append (rw : Char → Nat) (size : Int) (a b : List Str) (st : LineState) :
    lineLoop rw size st (a ++ b) = (lineLoop rw size st a).bind (fun st2 => lineLoop rw size st2 b) := by
  induction a generalizing st with
  | nil => simp [lineLoop]
  | cons w t ih =>
    rw [List.cons_append, lineLoop, lineLoop]
    cases lineStep rw size st w with
    | none => simp
    | some st1 => simp [ih]

theorem lineLoop_tokens_list (rw : Char → Nat) (size : Int) (toks : List Str) (st : LineState) :
    lineLoop rw size st (toks.map markupToken)
      = some { st with line := st.line ++ toks.flatMap markupToken } := by
  induction toks generalizing st with
  | nil => simp [lineLoop]
  | cons n t ih =>
    have hstep : lineStep rw size st (markupToken n)
        = some { st with line := st.line ++ markupToken n } := by
      have h3 : ¬ (markupToken n = ['\n']) := by
        simp [markupToken]
      simp [lineStep, h3, markupToken]
    rw [List.map_cons, lineLoop, hstep, Option.some_bind, ih]
    simp

theorem lineStep_fit_noContent (rw : Char → Nat) (size : Int) (line : Str) (n : Nat)
    (lines : List Str) (c : Char) (cs : Str) (h1 : c ≠ '<') (h2 : c ≠ '\n')
    (h : (n : Int) + StringWidth rw (c :: cs) + 1 ≤ size) :
    lineStep rw size { line := line, currentSize := n, lines := lines, hasContent := false }
        (c :: cs)
      = some { line := line ++ (c :: cs), currentSize := n + StringWidth rw (c :: cs),
               lines := lines, hasContent := true } := by
  rw [lineStep_plainHead rw size _ c cs h1 h2, if_neg, if_neg]
  · simp
  · push_cast
    omega

theorem lineLoop_body (rw : Char → Nat) (W : Int) (L : Str) (c : Char) (cs : Str)
    (rest : List Str) (hc1 : c ≠ '<') (hc2 : c ≠ '\n')
    (hrest : ∀ w ∈ rest, ∃ c cs, w = c :: cs ∧ c ≠ '<' ∧ c ≠ '\n')
    (hfirst : (StringWidth rw (c :: cs) : Int) + 1 ≤ W)
    (hall : ((StringWidth rw (c :: cs) + (rest.map (fun w => 1 + StringWidth rw w)).sum : Nat)
      : Int) ≤ W) :
    lineLoop rw W { line := L, currentSize := 0, lines := [], hasContent := false }
        ((c :: cs) :: rest)
      = some { line := L ++ (c :: cs) ++ rest.flatMap (fun x => ' ' :: x),
               currentSize := 0 + StringWidth rw (c :: cs)
                 + (rest.map (fun w => 1 + StringWidth rw w)).sum,
               lines := [], hasContent := true } := by
  rw [lineLoop, lineStep_fit_noContent rw W L 0 [] c cs hc1 hc2 (by omega), Option.some_bind,
    lineLoop_join rw W rest _ _ (by simp) hrest (by omega)]

/-- C4 (as amended): let `s` be a text without markup, without line break and
without a space at either end, standing between markup tokens (any number of
tokens before it and after it, as in `<blue>text</blue>`). When the display
width of `s` with its markup removed is at most the budget `W`, and less than
`W` when the text is a single word, `limitSizeWithStrip` returns exactly one
line, and that line is `s` itself, its runs of spaces unchanged (a space
being one column wide). -/
theorem limitSizeWithStrip_short_styled_one_line (rw : Char → Nat) (opens closes : List Str)
    (body : Str) (W : Int) (hsp : rw ' ' = 1)
    (htok : ∀ n ∈ opens ++ closes, n ≠ [] ∧ ∀ c ∈ n, c ≠ '<' ∧ c ≠ '>')
    (hlt : '<' ∉ body) (hnl : '\n' ∉ body)
    (hhead : body.head? ≠ some ' ') (hlast : body.getLast? ≠ some ' ')
    (hW : (StringWidth rw
        (stripTags (opens.flatMap markupToken ++ body ++ closes.flatMap markupToken)) : Int) ≤ W)
    (hW1 : ' ' ∉ body → (StringWidth rw
        (stripTags (opens.flatMap markupToken ++ body ++ closes.flatMap markupToken)) : Int) < W) :
    limitSizeWithStrip rw (opens.flatMap markupToken ++ body ++ closes.flatMap markupToken) W
      = some [opens.flatMap markupToken ++ body ++ closes.flatMap markupToken] := by
  rw [stripTags_between_tokens opens closes body htok hlt] at hW hW1
  have hopen : ∀ n ∈ opens, ∀ c ∈ n, c ≠ '>' :=
    fun n hn c hc => ((htok n (List.mem_append_left _ hn)).2 c hc).2
  have hclose : ∀ n ∈ closes, ∀ c ∈ n, c ≠ '>' :=
    fun n hn c hc => ((htok n (List.mem_append_right _ hn)).2 c hc).2
  have hq : ∀ c ∈ body, c ≠ '<' ∧ c ≠ '\n' :=
    fun c hc => ⟨fun e => hlt (e ▸ hc), fun e => hnl (e ▸ hc)⟩
  obtain ⟨word2, words2, h1, h2, h3, h4, h5, h6⟩ :=
    wordLoop_text body [] [] hq (Or.inr (Or.inr hhead)) (by simp) (by simp)
  have h1p := wordLoop_prepend (opens.map markupToken) body _ _ h1
  simp only [List.append_nil] at h1p
  obtain ⟨st3, h7, h8⟩ := wordLoop_tokens_push closes word2 (opens.map markupToken ++ words2)
    hclose
  have hsplit : splitWords (opens.flatMap markupToken ++ body ++ closes.flatMap markupToken)
      = some (opens.map markupToken ++ pushWord words2 word2 ++ closes.map markupToken) := by
    unfold splitWords
    rw [List.append_assoc, wordLoop_append, wordLoop_tokens_list opens [] hopen,
      Option.some_bind, wordLoop_append, List.nil_append, h1p, Option.some_bind, h7]
    simp [h8, pushWord_prepend]
  simp only [List.nil_append, intercalate_singleton] at h6
  have hopens : lineLoop rw W { line := [], currentSize := 0, lines := [], hasContent := false }
      (opens.map markupToken)
      = some { line := opens.flatMap markupToken, currentSize := 0, lines := [],
               hasContent := false } := by
    rw [lineLoop_tokens_list]
    simp
  by_cases hb : body = []
  · subst hb
    simp only [wordLoop, Option.some.injEq, WordState.mk.injEq] at h1
    obtain ⟨rfl, rfl, -⟩ := h1
    have hloop : lineLoop rw W
        { line := [], currentSize := 0, lines := [], hasContent := false }
        (opens.map markupToken ++ pushWord [] [] ++ closes.map markupToken)
        = some { line := opens.flatMap markupToken ++ closes.flatMap markupToken,
                 currentSize := 0, lines := [], hasContent := false } := by
      rw [show pushWord ([] : List Str) [] = [] from rfl, List.append_nil, lineLoop_append,
        hopens, Option.some_bind, lineLoop_tokens_list]
    rw [limitSizeWithStrip_of_words hsplit hloop]
    simp only [finishLines, List.append_nil, List.nil_append, ne_eq, ite_not,
      List.length_eq_zero]
    by_cases he : opens.flatMap markupToken ++ closes.flatMap markupToken = []
    · simp [he]
    · simp [he]
  have hword2 : word2 ≠ [] := fun e => hb (h5 e hlast).1
  obtain ⟨d, ds, hd⟩ := List.exists_cons_of_ne_nil hword2
  have hd1 := h3 d (by rw [hd]; exact List.mem_cons_self _ _)
  have hpush : pushWord words2 word2 = words2 ++ [word2] := by simp [pushWord, hword2]
  rw [hpush] at hsplit
  have hfinish : ∀ (n : Nat),
      finishLines { line := opens.flatMap markupToken ++ body ++ closes.flatMap markupToken,
                    currentSize := n, lines := [], hasContent := true }
        = [opens.flatMap markupToken ++ body ++ closes.flatMap markupToken] := by
    intro n
    simp [finishLines, hb]
  cases words2 with
  | nil =>
    simp only [List.nil_append, intercalate_singleton] at h6 hsplit
    subst h6
    have hnosp : ' ' ∉ word2 := fun e => (h3 _ e).1 rfl
    have hlt2 := hW1 hnosp
    subst hd
    have hloop : lineLoop rw W
        { line := [], currentSize := 0, lines := [], hasContent := false }
        (opens.map markupToken ++ [d :: ds] ++ closes.map markupToken)
        = some { line := opens.flatMap markupToken ++ (d :: ds) ++ closes.flatMap markupToken,
                 currentSize := 0 + StringWidth rw (d :: ds) + 0, lines := [],
                 hasContent := true } := by
      have hbody := lineLoop_body rw W (opens.flatMap markupToken) d ds [] hd1.2.1 hd1.2.2
        (by simp) (by omega) (by simp only [List.map_nil, List.sum_nil]; omega)
      simp only [List.flatMap_nil, List.append_nil, List.map_nil, List.sum_nil] at hbody
      rw [lineLoop_append, lineLoop_append, hopens, Option.some_bind, hbody, Option.some_bind,
        lineLoop_tokens_list]
    rw [limitSizeWithStrip_of_words hsplit hloop]
    exact congrArg some (hfinish _)
  | cons a t =>
    obtain ⟨c, cs, rfl, hc1, hc2⟩ := h2 a (List.mem_cons_self _ _)
    have hrest : ∀ w ∈ t ++ [word2], ∃ c cs, w = c :: cs ∧ c ≠ '<' ∧ c ≠ '\n' := by
      intro w hw
      rcases List.mem_append.mp hw with hw1 | hw1
      · exact h2 w (List.mem_cons_of_mem _ hw1)
      · rw [List.mem_singleton.mp hw1]
        exact ⟨d, ds, hd, hd1.2.1, hd1.2.2⟩
    rw [List.cons_append, intercalate_cons_flatMap] at h6
    have hsum : StringWidth rw body = StringWidth rw (c :: cs)
        + ((t ++ [word2]).map (fun w => 1 + StringWidth rw w)).sum := by
      rw [← h6, StringWidth_append, StringWidth_flatMap_space rw _ hsp]
    have hpos : 1 ≤ ((t ++ [word2]).map (fun w => 1 + StringWidth rw w)).sum := by
      simp only [List.map_append, List.map_cons, List.map_nil, List.sum_append, List.sum_cons,
        List.sum_nil]
      omega
    rw [hsum] at hW
    have hloop : lineLoop rw W
        { line := [], currentSize := 0, lines := [], hasContent := false }
        (opens.map markupToken ++ ((c :: cs) :: t ++ [word2]) ++ closes.map markupToken)
        = some { line := opens.flatMap markupToken ++ body ++ closes.flatMap markupToken,
                 currentSize := 0 + StringWidth rw (c :: cs)
                   + ((t ++ [word2]).map (fun w => 1 + StringWidth rw w)).sum,
                 lines := [], hasContent := true } := by
      have hbody := lineLoop_body rw W (opens.flatMap markupToken) c cs (t ++ [word2]) hc1 hc2
        hrest (by omega) (by omega)
      rw [lineLoop_append, lineLoop_append, hopens, Option.some_bind, List.cons_append, hbody,
        Option.some_bind, lineLoop_tokens_list, ← h6]
      simp
    rw [limitSizeWithStrip_of_words hsplit hloop]
    exact congrArg some (hfinish _)

theorem limitSizeWithStrip_short_styled_one_line_witness :
    limitSizeWithStrip runeWidth
        (["blue".toList].flatMap markupToken ++ "two  words".toList
          ++ ["/blue".toList].flatMap markupToken) 10
      = some [["blue".toList].flatMap markupToken ++ "two  words".toList
          ++ ["/blue".toList].flatMap markupToken] :=
  limitSizeWithStrip_short_styled_one_line runeWidth ["blue".toList] ["/blue".toList]
    "two  words".toList 10 (by decide) (by decide) (by decide) (by decide) (by decide)
    (by decide) (by decide) (by decide)

/-! ## The raw splitter on a line of two-byte runes -/

/-- C20 (the code at the failing input): the line of two `é`, each two bytes
long and one column wide, is two columns wide, so at `W = 2` the loop of
`limitSize` does not run and the line is cut at byte 2: the only chunk is one
`é`, and the chunks put together are not the line. -/
theorem limitSize_drops_text :
    limitSize runeWidth "éé".toList 2 = some [utf8 "é".toList]
      ∧ TrimSpace "éé".toList = "éé".toList
      ∧ (limitSize runeWidth "éé".toList 2).map List.flatten ≠ some (utf8 "éé".toList) := by
  decide

/-! ## Detection is kept when text is appended -/

theorem HasListedTag_append (s t : Str) (h : HasListedTag s) : HasListedTag (s ++ t) := by
  obtain ⟨pre, ws, name, attrs, post, rfl, h2⟩ := h
  exact ⟨pre, ws, name, attrs, post ++ t, by simp, h2⟩

theorem isPrefixOf_append_right (sub s t : Str) (h : sub.isPrefixOf s = true) :
    sub.isPrefixOf (s ++ t) = true := by
  rw [List.isPrefixOf_iff_prefix] at h ⊢
  exact h.trans (List.prefix_append s t)

theorem occurrences_append_le (sub s t : Str) :
    occurrences sub s ≤ occurrences sub (s ++ t) + (if sub = [] then 1 else 0) := by
  induction s with
  | nil =>
    cases sub with
    | nil => simp [occurrences]
    | cons a u => simp [occurrences_nil]
  | cons c rest ih =>
    rw [List.cons_append, occurrences_cons, occurrences_cons]
    by_cases hp : sub.isPrefixOf (c :: rest) = true
    · have hp2 := isPrefixOf_append_right sub (c :: rest) t hp
      rw [List.cons_append] at hp2
      rw [if_pos hp, if_pos hp2]
      omega
    · rw [if_neg hp]
      split <;> omega

theorem Contains_append (s t sub : Str) (h : Contains s sub = true) :
    Contains (s ++ t) sub = true := by
  rw [Contains_iff] at h ⊢
  obtain ⟨pre, post, rfl⟩ := h
  exact ⟨pre, post ++ t, by simp⟩

theorem isHTMLContent_eq_true_iff (c : Str) :
    isHTMLContent c = true
      ↔ MatchString rgxHtmlContent c = true
        ∨ 3 ≤ Count c "&".toList + Count c "&#".toList
        ∨ Contains (ToLower c) "<!doctype html>".toList = true
        ∨ Contains (ToLower c) "<html".toList = true := by
  unfold isHTMLContent
  by_cases h1 : MatchString rgxHtmlContent c = true
  · simp [h1]
  · by_cases h2 : Count c "&".toList + Count c "&#".toList ≥ 3
    · simp [h1, h2]
    · have h2' : ¬ (3 ≤ Count c "&".toList + Count c "&#".toList) := h2
      simp only [h1, h2, h2', if_false, false_or, Bool.false_eq_true]
      split <;> simp_all

/-- C11: detection is monotonic under appending. For all texts `s` and `t`, if
`isHTMLContent s` is true then `isHTMLContent (s ++ t)` is true. -/
theorem isHTMLContent_append (s t : Str) (h : isHTMLContent s = true) :
    isHTMLContent (s ++ t) = true := by
  rw [isHTMLContent_eq_true_iff] at h ⊢
  have e : ToLower (s ++ t) = ToLower s ++ ToLower t := by simp [ToLower]
  rcases h with h | h | h | h
  · exact Or.inl ((MatchString_rgxHtmlContent _).mpr
      (HasListedTag_append s t ((MatchString_rgxHtmlContent _).mp h)))
  · right; left
    have ha := occurrences_append_le "&".toList s t
    have hb := occurrences_append_le "&#".toList s t
    rw [if_neg (by decide)] at ha hb
    rw [Count_amp, Count_ampHash] at h ⊢
    omega
  · right; right; left
    rw [e]
    exact Contains_append _ _ _ h
  · right; right; right
    rw [e]
    exact Contains_append _ _ _ h

theorem isHTMLContent_append_witness :
    isHTMLContent "<p>Hello".toList = true
      ∧ isHTMLContent ("<p>Hello".toList ++ " world".toList) = true :=
  ⟨by decide, isHTMLContent_append "<p>Hello".toList " world".toList (by decide)⟩

/-! ## The replacement scan -/

theorem replaceFrom_match (r : Rgx) (repl : Cursor → Str) (prev : Option Char) (a : Str)
    (m : Cursor) (ha : a ≠ []) (hm : matchAt r prev (a ++ m.rest) = some m) :
    replaceFrom r repl 0 prev (a ++ m.rest)
      = repl m ++ replaceFrom r repl 0 (lastOr prev a) m.rest := by
  obtain ⟨c, a2, rfl⟩ := List.exists_cons_of_ne_nil ha
  rw [List.cons_append] at hm ⊢
  rw [replaceFrom, hm]
  simp only [List.length_cons, List.length_append]
  rw [if_neg (by omega)]
  have e : a2.length + m.rest.length + 1 - m.rest.length - 1 = a2.length := by omega
  rw [e]
  by_cases h2 : a2 = []
  · subst h2
    simp [lastOr]
  · rw [replaceFrom_skip r repl a2 m.rest (some c) h2]
    simp [lastOr]

theorem replaceFrom_noMatch (r : Rgx) (repl : Cursor → Str) (prev : Option Char) (c : Char)
    (rest : Str) (hm : matchAt r prev (c :: rest) = none) :
    replaceFrom r repl 0 prev (c :: rest) = c :: replaceFrom r repl 0 (some c) rest := by
  rw [replaceFrom, hm]

/-! ## The matcher on `rgxMultiNewlines` -/

theorem matchAt_multi_ne (prev : Option Char) (c : Char) (rest : Str) (h : c ≠ '\n') :
    matchAt rgxMultiNewlines prev (c :: rest) = none := by
  simp [matchAt, rgxMultiNewlines, Rgx.cat, Rgx.run, h]

theorem starRun_then_newline (caps : List (Nat × Str)) (prev : Option Char) (s : Str) :
    ((starRun isReSpace caps prev s).flatMap (fun m => (Rgx.chr '\n').run m)).head?.map
        Cursor.rest
      = afterLastNL s := by
  induction s generalizing prev with
  | nil => simp [starRun, Rgx.run, afterLastNL]
  | cons x xs ih =>
    by_cases hx : isReSpace x = true
    · rw [starRun, if_pos hx, List.flatMap_append, List.head?_append, afterLastNL, if_pos hx,
        ← ih (some x)]
      cases h : ((starRun isReSpace caps (some x) xs).flatMap
          (fun m => (Rgx.chr '\n').run m)).head? with
      | some a => simp
      | none =>
        by_cases hn : x = '\n'
        · simp [Rgx.run, hn]
        · simp [Rgx.run, hn]
    · have hn : x ≠ '\n' := by
        intro e
        rw [e] at hx
        exact hx (by decide)
      rw [starRun, if_neg hx, afterLastNL, if_neg hx]
      simp [Rgx.run, hn]

theorem matchAt_multi_nl (prev : Option Char) (rest : Str) :
    (matchAt rgxMultiNewlines prev ('\n' :: rest)).map Cursor.rest = afterLastNL rest := by
  rw [← starRun_then_newline [] (some '\n') rest]
  simp [matchAt, rgxMultiNewlines, Rgx.cat, Rgx.run]

theorem afterLastNL_eq_none (s : Str) : afterLastNL s = none ↔ blankAhead s = false := by
  induction s with
  | nil => simp [afterLastNL, blankAhead]
  | cons x xs ih =>
    rw [afterLastNL, blankAhead]
    by_cases hx : isReSpace x = true
    · rw [if_pos hx]
      cases h : afterLastNL xs with
      | some r =>
        have : blankAhead xs = true := by
          cases hb : blankAhead xs with
          | true => rfl
          | false => rw [ih.mpr hb] at h; cases h
        simp [hx, this]
      | none =>
        have hb := ih.mp h
        by_cases hn : x = '\n'
        · subst hn
          simp [hx]
        · simp [hx, hb, hn]
    · rw [if_neg hx]
      simp [hx]

theorem afterLastNL_eq_some (s r : Str) (h : afterLastNL s = some r) :
    (∃ w, s = w ++ '\n' :: r) ∧ blankAhead r = false := by
  induction s with
  | nil => simp [afterLastNL] at h
  | cons x xs ih =>
    rw [afterLastNL] at h
    by_cases hx : isReSpace x = true
    · rw [if_pos hx] at h
      cases h2 : afterLastNL xs with
      | some r2 =>
        rw [h2] at h
        simp only [Option.some.injEq] at h
        subst h
        obtain ⟨⟨w, hw⟩, hb⟩ := ih h2
        exact ⟨⟨x :: w, by simp [hw]⟩, hb⟩
      | none =>
        rw [h2] at h
        by_cases hn : x = '\n'
        · rw [if_pos hn] at h
          simp only [Option.some.injEq] at h
          subst h
          exact ⟨⟨[], by simp [hn]⟩, (afterLastNL_eq_none _).mp h2⟩
        · rw [if_neg hn] at h
          cases h
    · rw [if_neg hx] at h
      cases h

theorem blankAhead_head (s : Str) (h : blankAhead s = false) : s.head? ≠ some '\n' := by
  cases s with
  | nil => simp
  | cons x xs =>
    intro e
    simp only [List.head?_cons, Option.some.injEq] at e
    subst e
    simp [blankAhead, isReSpace] at h

/-! ## The collapse of the blank lines -/

theorem collapse_nil (repl : Cursor → Str) (prev : Option Char) :
    replaceFrom rgxMultiNewlines repl 0 prev [] = [] := rfl

theorem collapse_ne (repl : Cursor → Str) (prev : Option Char) (c : Char) (rest : Str)
    (h : c ≠ '\n') :
    replaceFrom rgxMultiNewlines repl 0 prev (c :: rest)
      = c :: replaceFrom rgxMultiNewlines repl 0 (some c) rest :=
  replaceFrom_noMatch _ _ _ _ _ (matchAt_multi_ne prev c rest h)

theorem collapse_single (repl : Cursor → Str) (prev : Option Char) (rest : Str)
    (h : afterLastNL rest = none) :
    replaceFrom rgxMultiNewlines repl 0 prev ('\n' :: rest)
      = '\n' :: replaceFrom rgxMultiNewlines repl 0 (some '\n') rest := by
  apply replaceFrom_noMatch
  have := matchAt_multi_nl prev rest
  rw [h] at this
  simpa using this

theorem collapse_run (repl : Cursor → Str) (prev : Option Char) (rest r : Str)
    (h : afterLastNL rest = some r) :
    ∃ m prev2, replaceFrom rgxMultiNewlines repl 0 prev ('\n' :: rest)
      = repl m ++ replaceFrom rgxMultiNewlines repl 0 prev2 r := by
  have hm := matchAt_multi_nl prev rest
  rw [h] at hm
  obtain ⟨m, hm1, hm2⟩ := Option.map_eq_some'.mp hm
  obtain ⟨⟨w, hw⟩, -⟩ := afterLastNL_eq_some rest r h
  have e : '\n' :: rest = ('\n' :: (w ++ ['\n'])) ++ m.rest := by simp [hw, hm2]
  rw [e] at hm1 ⊢
  refine ⟨m, lastOr prev ('\n' :: (w ++ ['\n'])), ?_⟩
  rw [replaceFrom_match _ _ _ _ m (by simp) hm1, hm2]

/-! ## No two blank lines in a row after the conversion -/

theorem TrimSpace_within (s : Str) : TrimSpace s <:+: s := by
  unfold TrimSpace
  have h1 : s.dropWhile isSpace <:+ s := List.dropWhile_suffix _
  have h2 : ((s.dropWhile isSpace).reverse.dropWhile isSpace).reverse
      <+: s.dropWhile isSpace := by
    have h3 : ((s.dropWhile isSpace).reverse).dropWhile isSpace
        <:+ (s.dropWhile isSpace).reverse :=
      List.dropWhile_suffix isSpace
    rw [← List.reverse_prefix] at h3
    simpa using h3
  exact h2.isInfix.trans h1.isInfix

theorem noTriple_cons_ne (c : Char) (o : Str) (hc : c ≠ '\n')
    (ho : ¬ ['\n', '\n', '\n'] <:+: o) : ¬ ['\n', '\n', '\n'] <:+: c :: o := by
  rw [List.infix_cons_iff]
  rintro (h | h)
  · rw [List.cons_prefix_cons] at h
    exact hc h.1.symm
  · exact ho h

theorem noTriple_cons_nl (o : Str) (hh : o.head? ≠ some '\n')
    (ho : ¬ ['\n', '\n', '\n'] <:+: o) :
    ¬ ['\n', '\n', '\n'] <:+: '\n' :: o ∧ ¬ ['\n', '\n', '\n'] <:+: '\n' :: '\n' :: o := by
  have h1 : ¬ ['\n', '\n', '\n'] <:+: '\n' :: o := by
    rw [List.infix_cons_iff]
    rintro (h | h)
    · rw [List.cons_prefix_cons] at h
      cases o with
      | nil => simp at h
      | cons a t =>
        rw [List.cons_prefix_cons] at h
        exact hh (by simp [← h.2.1])
    · exact ho h
  refine ⟨h1, ?_⟩
  rw [List.infix_cons_iff]
  rintro (h | h)
  · rw [List.cons_prefix_cons, List.cons_prefix_cons] at h
    cases o with
    | nil => simp at h
    | cons a t =>
      rw [List.cons_prefix_cons] at h
      exact hh (by simp [← h.2.2.1])
  · exact h1 h

theorem collapse_noTriple (n : Nat) : ∀ (s : Str) (prev : Option Char), s.length ≤ n →
    ¬ ['\n', '\n', '\n'] <:+: replaceFrom rgxMultiNewlines (fun _ => ['\n', '\n']) 0 prev s
      ∧ (s.head? ≠ some '\n'
          → (replaceFrom rgxMultiNewlines (fun _ => ['\n', '\n']) 0 prev s).head? ≠ some '\n') := by
  induction n with
  | zero =>
    intro s prev hs
    have : s = [] := List.length_eq_zero.mp (by omega)
    subst this
    simp [replaceFrom]
  | succ k ih =>
    intro s prev hs
    cases s with
    | nil => simp [replaceFrom]
    | cons c rest =>
      have hr : rest.length ≤ k := by simp only [List.length_cons] at hs; omega
      by_cases hc : c = '\n'
      · subst hc
        cases h : afterLastNL rest with
        | none =>
          rw [collapse_single _ _ _ h]
          have hb := blankAhead_head rest ((afterLastNL_eq_none _).mp h)
          obtain ⟨i1, i2⟩ := ih rest (some '\n') hr
          exact ⟨(noTriple_cons_nl _ (i2 hb) i1).1, by simp⟩
        | some r =>
          obtain ⟨m, prev2, e⟩ := collapse_run (fun _ => ['\n', '\n']) prev rest r h
          rw [e]
          obtain ⟨⟨w, hw⟩, hb⟩ := afterLastNL_eq_some rest r h
          have hlen : r.length ≤ k := by
            rw [hw] at hr
            simp only [List.length_append, List.length_cons] at hr
            omega
          obtain ⟨i1, i2⟩ := ih r prev2 hlen
          exact ⟨(noTriple_cons_nl _ (i2 (blankAhead_head r hb)) i1).2, by simp⟩
      · rw [collapse_ne _ _ _ _ hc]
        obtain ⟨i1, -⟩ := ih rest (some c) hr
        refine ⟨noTriple_cons_ne c _ hc i1, ?_⟩
        intro _
        simp [hc]

/-- C17: the text returned by the conversion never holds three line breaks in
a row, that is two blank lines in a row, whatever the input, the options and
the decoding of the entities: this holds of `cleanupText` on every text, so
whatever the earlier stages and the decoder put in, and hence of
`convertHTMLToText`. -/
theorem convertHTMLToText_no_three_line_breaks (unescape : Str → Str) :
    (∀ text, ¬ ['\n', '\n', '\n'] <:+: cleanupText unescape text)
      ∧ ∀ x o, ¬ ['\n', '\n', '\n'] <:+: convertHTMLToText unescape x o := by
  have h : ∀ text, ¬ ['\n', '\n', '\n'] <:+: cleanupText unescape text := by
    intro text hin
    unfold cleanupText at hin
    exact (collapse_noTriple _ _ none (le_refl _)).1 (hin.trans (TrimSpace_within _))
  exact ⟨h, fun x o => h _⟩

/-! ## The tag stages piece by piece -/

theorem Maps_nil (r : Rgx) (repl : Cursor → Str) : Maps r repl [] [] := by
  intro rest o h prev
  simpa using h prev

theorem Maps_append {r : Rgx} {repl : Cursor → Str} {p1 o1 p2 o2 : Str}
    (h1 : Maps r repl p1 o1) (h2 : Maps r repl p2 o2) : Maps r repl (p1 ++ p2) (o1 ++ o2) := by
  intro rest o h prev
  rw [List.append_assoc, List.append_assoc]
  exact h1 (p2 ++ rest) (o2 ++ o) (fun q => h2 rest o h q) prev

theorem Maps_flatMap {r : Rgx} {repl : Cursor → Str} (f g : Str → Str) (items : List Str)
    (h : ∀ a ∈ items, Maps r repl (f a) (g a)) :
    Maps r repl (items.flatMap f) (items.flatMap g) := by
  induction items with
  | nil => exact Maps_nil r repl
  | cons a t ih =>
    rw [List.flatMap_cons, List.flatMap_cons]
    exact Maps_append (h a (List.mem_cons_self _ _))
      (ih (fun b hb => h b (List.mem_cons_of_mem _ hb)))

theorem Maps_apply {r : Rgx} {repl : Cursor → Str} {p out : Str} (h : Maps r repl p out)
    (prev : Option Char) : replaceFrom r repl 0 prev p = out := by
  have := h [] [] (fun _ => rfl) prev
  simpa using this

theorem Maps_char {r : Rgx} {repl : Cursor → Str} (c : Char)
    (h : ∀ prev rest, matchAt r prev (c :: rest) = none) : Maps r repl [c] [c] := by
  intro rest o ho prev
  rw [List.singleton_append, replaceFrom_noMatch _ _ _ _ _ (h prev rest), ho]
  rfl

theorem Maps_plain {r : Rgx} {repl : Cursor → Str}
    (hr : ∀ prev c rest, c ≠ '<' → matchAt r prev (c :: rest) = none) (p : Str)
    (hp : '<' ∉ p) : Maps r repl p p := by
  induction p with
  | nil => exact Maps_nil r repl
  | cons c cs ih =>
    have hc : c ≠ '<' := fun e => hp (e ▸ List.mem_cons_self _ _)
    have hchar : Maps r repl [c] [c] := Maps_char c (fun prev rest => hr prev c rest hc)
    have := Maps_append hchar
      (ih (fun e => hp (List.mem_cons_of_mem _ e)))
    simpa using this

theorem Maps_skip {r : Rgx} {repl : Cursor → Str}
    (hr : ∀ prev c rest, c ≠ '<' → matchAt r prev (c :: rest) = none) (tail : Str)
    (hp : '<' ∉ tail) (h : ∀ prev rest, matchAt r prev ('<' :: (tail ++ rest)) = none) :
    Maps r repl ('<' :: tail) ('<' :: tail) := by
  intro rest o ho prev
  rw [List.cons_append, replaceFrom_noMatch _ _ _ _ _ (h prev rest),
    Maps_plain hr tail hp rest o ho]
  rfl

theorem Maps_hit {r : Rgx} {repl : Cursor → Str} (p out : Str) (hp : p ≠ [])
    (h : ∀ prev rest, ∃ m, matchAt r prev (p ++ rest) = some m ∧ m.rest = rest ∧ repl m = out) :
    Maps r repl p out := by
  intro rest o ho prev
  obtain ⟨m, h1, h2, h3⟩ := h prev rest
  subst h2
  rw [replaceFrom_match r repl prev p m hp h1, h3, ho]

theorem matchAt_tag_ne (r : Rgx) (hr : r ∈ rgxLink :: rgxAllTags :: structuralRgx)
    (prev : Option Char) (c : Char) (rest : Str) (h : c ≠ '<') :
    matchAt r prev (c :: rest) = none := by
  simp only [structuralRgx, List.mem_cons, List.mem_singleton, List.not_mem_nil, or_false] at hr
  rcases hr with rfl | rfl | rfl | rfl | rfl | rfl | rfl | rfl | rfl | rfl | rfl | rfl | rfl
  all_goals
    simp [matchAt, rgxLink, rgxAllTags, rgxBr, rgxP, rgxDiv, rgxHeading, rgxTable, rgxTr, rgxTd,
      rgxUl, rgxOl, rgxLi, rgxLiEnd, rgxOpenClose, Rgx.cat, Rgx.run, Rgx.str, h]

theorem matchAt_inline_b (r : Rgx) (hr : r ∈ rgxLink :: structuralRgx)
    (prev : Option Char) (rest : Str) :
    matchAt r prev ('<' :: ("b>".toList ++ rest)) = none
      ∧ matchAt r prev ('<' :: ("/b>".toList ++ rest)) = none := by
  simp only [structuralRgx, List.mem_cons, List.mem_singleton, List.not_mem_nil, or_false] at hr
  rcases hr with rfl | rfl | rfl | rfl | rfl | rfl | rfl | rfl | rfl | rfl | rfl | rfl
  all_goals
    simp [matchAt, rgxLink, rgxBr, rgxP, rgxDiv, rgxHeading, rgxTable, rgxTr, rgxTd,
      rgxUl, rgxOl, rgxLi, rgxLiEnd, rgxOpenClose, optSlash, Rgx.cat, Rgx.run, Rgx.str]

/-! ## Texts whose blank lines are collapsed already -/

theorem blankLinesCollapsed_cons (c : Char) (rest : Str) :
    blankLinesCollapsed (c :: rest)
      = ((c != '\n' || match rest with
          | [] => true
          | x :: r2 => !(isReSpace x && blankAhead r2)) && blankLinesCollapsed rest) := by
  cases rest <;> rfl

theorem collapse_id (n : Nat) : ∀ (s : Str) (prev : Option Char), s.length ≤ n →
    blankLinesCollapsed s = true →
    replaceFrom rgxMultiNewlines (fun _ => ['\n', '\n']) 0 prev s = s := by
  induction n with
  | zero =>
    intro s prev hs _
    have : s = [] := List.length_eq_zero.mp (by omega)
    subst this
    rfl
  | succ k ih =>
    intro s prev hs hb
    cases s with
    | nil => rfl
    | cons c rest =>
      have hr : rest.length ≤ k := by simp only [List.length_cons] at hs; omega
      rw [blankLinesCollapsed_cons, Bool.and_eq_true] at hb
      obtain ⟨hb1, hb2⟩ := hb
      by_cases hc : c = '\n'
      · subst hc
        cases rest with
        | nil => rw [collapse_single _ _ _ (by simp [afterLastNL])]; rfl
        | cons x r2 =>
          simp only [bne_self_eq_false, Bool.false_or, Bool.not_eq_true', Bool.and_eq_false_imp]
            at hb1
          by_cases hx : isReSpace x = true
          · have hba := hb1 hx
            have hnone := (afterLastNL_eq_none r2).mpr hba
            by_cases hn : x = '\n'
            · subst hn
              have hsome : afterLastNL ('\n' :: r2) = some r2 := by
                rw [afterLastNL, if_pos hx, hnone]
                simp
              obtain ⟨m, prev2, e⟩ := collapse_run (fun _ => ['\n', '\n']) prev _ _ hsome
              rw [e]
              rw [blankLinesCollapsed_cons, Bool.and_eq_true] at hb2
              rw [ih r2 prev2 (by simp only [List.length_cons] at hr; omega) hb2.2]
              rfl
            · have hnone2 : afterLastNL (x :: r2) = none := by
                rw [afterLastNL, if_pos hx, hnone]
                simp [hn]
              rw [collapse_single _ _ _ hnone2, ih _ _ hr hb2]
          · have hnone2 : afterLastNL (x :: r2) = none := by
              rw [afterLastNL, if_neg hx]
            rw [collapse_single _ _ _ hnone2, ih _ _ hr hb2]
      · rw [collapse_ne _ _ _ _ hc, ih _ _ hr hb2]

theorem blankLinesCollapsed_plain (a b : Str) (ha : '\n' ∉ a) :
    blankLinesCollapsed (a ++ b) = blankLinesCollapsed b := by
  induction a with
  | nil => rfl
  | cons c cs ih =>
    have hc : c ≠ '\n' := fun e => ha (e ▸ List.mem_cons_self _ _)
    rw [List.cons_append, blankLinesCollapsed_cons, ih (fun e => ha (List.mem_cons_of_mem _ e))]
    simp [hc]

theorem blankLinesCollapsed_break (x : Char) (r : Str) (hx : isReSpace x = false) :
    blankLinesCollapsed ('\n' :: x :: r) = blankLinesCollapsed (x :: r) := by
  rw [blankLinesCollapsed_cons]
  simp [hx]

theorem isReSpace_isSpace (c : Char) (h : isReSpace c = true) : isSpace c = true := by
  simp only [isReSpace, Bool.or_eq_true, beq_iff_eq] at h
  rcases h with (((h | h) | h) | h) | h <;> subst h <;> decide

/-! ## `strings.TrimSpace` -/

theorem dropWhile_all (p : Char → Bool) (a b : Str) (ha : ∀ c ∈ a, p c = true) :
    (a ++ b).dropWhile p = b.dropWhile p := by
  induction a with
  | nil => rfl
  | cons c cs ih =>
    rw [List.cons_append, List.dropWhile_cons, if_pos (ha c (List.mem_cons_self _ _))]
    exact ih (fun x hx => ha x (List.mem_cons_of_mem _ hx))

theorem dropWhile_head (p : Char → Bool) (s : Str) (h : ∀ c ∈ s.head?, p c = false) :
    s.dropWhile p = s := by
  cases s with
  | nil => rfl
  | cons c cs =>
    have := h c (by simp)
    simp [List.dropWhile_cons, this]

theorem TrimSpace_strip (a core b : Str) (ha : ∀ c ∈ a, isSpace c = true)
    (hb : ∀ c ∈ b, isSpace c = true) (hh : ∀ c ∈ core.head?, isSpace c = false)
    (hl : ∀ c ∈ core.getLast?, isSpace c = false) (h0 : core ≠ []) :
    TrimSpace (a ++ core ++ b) = core := by
  unfold TrimSpace
  rw [List.append_assoc, dropWhile_all isSpace a _ ha]
  have h1 : (core ++ b).dropWhile isSpace = core ++ b := by
    apply dropWhile_head
    intro c hc
    apply hh c
    cases core with
    | nil => exact absurd rfl h0
    | cons x xs => simpa using hc
  rw [h1, List.reverse_append, dropWhile_all isSpace b.reverse _ (by simpa using hb)]
  rw [dropWhile_head isSpace core.reverse (by simpa [List.head?_reverse] using hl)]
  simp

/-! ## A paragraph with an inline tag -/

theorem Maps_tag_plain (r : Rgx) (hr : r ∈ rgxLink :: rgxAllTags :: structuralRgx)
    (repl : Cursor → Str) (p : Str) (hp : '<' ∉ p) : Maps r repl p p :=
  Maps_plain (fun prev c rest h => matchAt_tag_ne r hr prev c rest h) p hp

theorem mem_tag_of_mem (r : Rgx) (hr : r ∈ rgxLink :: structuralRgx) :
    r ∈ rgxLink :: rgxAllTags :: structuralRgx := by
  rcases List.mem_cons.mp hr with h | h
  · exact h ▸ List.mem_cons_self _ _
  · exact List.mem_cons_of_mem _ (List.mem_cons_of_mem _ h)

theorem Maps_inline (r : Rgx) (hr : r ∈ rgxLink :: structuralRgx) (repl : Cursor → Str)
    (s t : Str) (hs : '<' ∉ s) (ht : '<' ∉ t) :
    Maps r repl (s ++ "<b>".toList ++ t ++ "</b>".toList)
      (s ++ "<b>".toList ++ t ++ "</b>".toList) := by
  have hr2 := mem_tag_of_mem r hr
  have hfirst : ∀ prev c rest, c ≠ '<' → matchAt r prev (c :: rest) = none :=
    fun prev c rest h => matchAt_tag_ne r hr2 prev c rest h
  have h1 : Maps r repl "<b>".toList "<b>".toList :=
    Maps_skip hfirst "b>".toList (by decide) (fun prev rest => (matchAt_inline_b r hr prev rest).1)
  have h2 : Maps r repl "</b>".toList "</b>".toList :=
    Maps_skip hfirst "/b>".toList (by decide) (fun prev rest => (matchAt_inline_b r hr prev rest).2)
  exact Maps_append (Maps_append (Maps_append (Maps_plain hfirst s hs) h1) (Maps_plain hfirst t ht))
    h2

theorem matchAt_rgxBr_p (prev : Option Char) (rest : Str) :
    matchAt rgxBr prev ('<' :: ("p>".toList ++ rest)) = none
      ∧ matchAt rgxBr prev ('<' :: ("/p>".toList ++ rest)) = none := by
  simp [matchAt, rgxBr, Rgx.cat, Rgx.run, Rgx.str]

theorem matchAt_rgxP_p (prev : Option Char) (rest : Str) :
    (∃ m, matchAt rgxP prev ("<p>".toList ++ rest) = some m ∧ m.rest = rest)
      ∧ ∃ m, matchAt rgxP prev ("</p>".toList ++ rest) = some m ∧ m.rest = rest := by
  simp [matchAt, rgxP, rgxOpenClose, optSlash, Rgx.cat, Rgx.run, Rgx.str, starRun, notGt]

theorem matchAt_rgxAllTags_b (prev : Option Char) (rest : Str) :
    (∃ m, matchAt rgxAllTags prev ("<b>".toList ++ rest) = some m ∧ m.rest = rest)
      ∧ ∃ m, matchAt rgxAllTags prev ("</b>".toList ++ rest) = some m ∧ m.rest = rest := by
  simp [matchAt, rgxAllTags, Rgx.cat, Rgx.run, starRun, notGt]

theorem convertHTMLToText_of_stages (unescape : Str → Str) (x y z w : Str)
    (o : HTMLConvertOptions)
    (h1 : ∀ repl, ReplaceAllString rgxBr x repl = x)
    (h2 : ReplaceAllString rgxP x (fun _ => ['\n']) = y)
    (h3 : ∀ r ∈ rgxLink :: structuralRgx, ∀ repl, ReplaceAllString r y repl = y)
    (h4 : ReplaceAllString rgxAllTags y (fun _ => []) = z)
    (h5 : unescape z = z)
    (h6 : blankLinesCollapsed z = true)
    (h7 : TrimSpace z = w) :
    convertHTMLToText unescape x o = w := by
  have m : ∀ r, r ∈ structuralRgx → r ∈ rgxLink :: structuralRgx :=
    fun r h => List.mem_cons_of_mem _ h
  unfold convertHTMLToText processHTMLStructure processHTMLTables processHTMLLists
    processHTMLLinks cleanupText
  simp only [h1, h2, h3 rgxDiv (m _ (by simp [structuralRgx])),
    h3 rgxHeading (m _ (by simp [structuralRgx])), h3 rgxTable (m _ (by simp [structuralRgx])),
    h3 rgxTr (m _ (by simp [structuralRgx])), h3 rgxTd (m _ (by simp [structuralRgx])),
    h3 rgxUl (m _ (by simp [structuralRgx])), h3 rgxOl (m _ (by simp [structuralRgx])),
    h3 rgxLi (m _ (by simp [structuralRgx])), h3 rgxLiEnd (m _ (by simp [structuralRgx])),
    h3 rgxLink (List.mem_cons_self _ _), ite_self, h4, h5]
  rw [show ReplaceAllString rgxMultiNewlines z (fun _ => ['\n', '\n']) = z from
    collapse_id _ z none (le_refl _) h6]
  exact h7

theorem blankLinesCollapsed_wrapped (core : Str) (h0 : core ≠ []) (hn : '\n' ∉ core)
    (hh : ∀ c ∈ core.head?, isSpace c = false) :
    blankLinesCollapsed ('\n' :: (core ++ ['\n'])) = true := by
  obtain ⟨x, r, rfl⟩ := List.exists_cons_of_ne_nil h0
  have hx : isReSpace x = false := by
    have h1 := hh x (by simp)
    cases h2 : isReSpace x with
    | false => rfl
    | true => rw [isReSpace_isSpace x h2] at h1; cases h1
  rw [List.cons_append, blankLinesCollapsed_break x _ hx, ← List.cons_append,
    blankLinesCollapsed_plain _ _ hn]
  rfl

/-- C16: for all texts `s` and `t` free of `<`, `&` and line breaks, with
`s ++ t` non-empty and without white space at its ends, `isHTMLContent` is
true of `<p>` `s` `<b>` `t` `</b></p>` and `convertHTMLToText` returns exactly
`s ++ t` on it, with the default options as with any other: the paragraph
tags become line breaks that are trimmed away and the inline tag is removed,
its text being kept. The decoder is taken to return a text without `&` as it
is, as `html.UnescapeString` does. -/
theorem convertHTMLToText_paragraph_inline (unescape : Str → Str)
    (hun : ∀ x, '&' ∉ x → unescape x = x) (o : HTMLConvertOptions) (s t : Str)
    (hs : ∀ c ∈ s, c ≠ '<' ∧ c ≠ '&' ∧ c ≠ '\n') (ht : ∀ c ∈ t, c ≠ '<' ∧ c ≠ '&' ∧ c ≠ '\n')
    (h0 : s ++ t ≠ []) (hh : ∀ c ∈ (s ++ t).head?, isSpace c = false)
    (hl : ∀ c ∈ (s ++ t).getLast?, isSpace c = false) :
    isHTMLContent ("<p>".toList ++ s ++ "<b>".toList ++ t ++ "</b></p>".toList) = true
      ∧ convertHTMLToText unescape
          ("<p>".toList ++ s ++ "<b>".toList ++ t ++ "</b></p>".toList) o = s ++ t := by
  have hs1 : '<' ∉ s := fun h => (hs _ h).1 rfl
  have ht1 : '<' ∉ t := fun h => (ht _ h).1 rfl
  have hx : "<p>".toList ++ s ++ "<b>".toList ++ t ++ "</b></p>".toList
      = "<p>".toList ++ (s ++ "<b>".toList ++ t ++ "</b>".toList) ++ "</p>".toList := by
    rw [show "</b></p>".toList = "</b>".toList ++ "</p>".toList from rfl]
    simp only [List.append_assoc]
  constructor
  · rw [isHTMLContent_eq_true_iff]
    left
    rw [MatchString_rgxHtmlContent]
    refine ⟨[], [], "p".toList, [], s ++ "<b>".toList ++ t ++ "</b></p>".toList, ?_, by simp,
      by decide, by simp, by simp⟩
    simp
  · rw [hx]
    have hbr : ∀ prev c rest, c ≠ '<' → matchAt rgxBr prev (c :: rest) = none :=
      fun prev c rest h => matchAt_tag_ne rgxBr (by simp [structuralRgx]) prev c rest h
    apply convertHTMLToText_of_stages unescape _
      (['\n'] ++ (s ++ "<b>".toList ++ t ++ "</b>".toList) ++ ['\n'])
      (['\n'] ++ (s ++ t) ++ ['\n']) (s ++ t) o
    · intro repl
      exact Maps_apply (Maps_append (Maps_append
        (Maps_skip hbr "p>".toList (by decide) (fun prev rest => (matchAt_rgxBr_p prev rest).1))
        (Maps_inline rgxBr (by simp [structuralRgx]) repl s t hs1 ht1))
        (Maps_skip hbr "/p>".toList (by decide)
          (fun prev rest => (matchAt_rgxBr_p prev rest).2))) none
    · refine Maps_apply (Maps_append (Maps_append
        (Maps_hit "<p>".toList ['\n'] (by decide) ?_)
        (Maps_inline rgxP (by simp [structuralRgx]) _ s t hs1 ht1))
        (Maps_hit "</p>".toList ['\n'] (by decide) ?_)) none
      · intro prev rest
        obtain ⟨m, h1, h2⟩ := (matchAt_rgxP_p prev rest).1
        exact ⟨m, h1, h2, rfl⟩
      · intro prev rest
        obtain ⟨m, h1, h2⟩ := (matchAt_rgxP_p prev rest).2
        exact ⟨m, h1, h2, rfl⟩
    · intro r hr repl
      exact Maps_apply (Maps_append (Maps_append
        (Maps_tag_plain r (mem_tag_of_mem r hr) repl ['\n'] (by decide))
        (Maps_inline r hr repl s t hs1 ht1))
        (Maps_tag_plain r (mem_tag_of_mem r hr) repl ['\n'] (by decide))) none
    · have hall : rgxAllTags ∈ rgxLink :: rgxAllTags :: structuralRgx := by simp
      have hb1 : Maps rgxAllTags (fun _ => []) "<b>".toList [] :=
        Maps_hit _ _ (by decide) (fun prev rest => by
          obtain ⟨m, h1, h2⟩ := (matchAt_rgxAllTags_b prev rest).1
          exact ⟨m, h1, h2, rfl⟩)
      have hb2 : Maps rgxAllTags (fun _ => []) "</b>".toList [] :=
        Maps_hit _ _ (by decide) (fun prev rest => by
          obtain ⟨m, h1, h2⟩ := (matchAt_rgxAllTags_b prev rest).2
          exact ⟨m, h1, h2, rfl⟩)
      have := Maps_apply (Maps_append (Maps_append
        (Maps_tag_plain rgxAllTags hall (fun _ => []) ['\n'] (by decide))
        (Maps_append (Maps_append (Maps_append
          (Maps_tag_plain rgxAllTags hall (fun _ => []) s hs1) hb1)
          (Maps_tag_plain rgxAllTags hall (fun _ => []) t ht1)) hb2))
        (Maps_tag_plain rgxAllTags hall (fun _ => []) ['\n'] (by decide))) none
      simpa [ReplaceAllString] using this
    · apply hun
      simp only [List.mem_append, List.mem_singleton, not_or]
      exact ⟨⟨by decide, fun h => (hs _ h).2.1 rfl, fun h => (ht _ h).2.1 rfl⟩, by decide⟩
    · have hn : '\n' ∉ s ++ t := by
        simp only [List.mem_append, not_or]
        exact ⟨fun h => (hs _ h).2.2 rfl, fun h => (ht _ h).2.2 rfl⟩
      have := blankLinesCollapsed_wrapped (s ++ t) h0 hn hh
      simpa using this
    · exact TrimSpace_strip ['\n'] (s ++ t) ['\n'] (by decide) (by decide) hh hl h0

theorem UnescapeString_plain (s : Str) (h : '&' ∉ s) : UnescapeString s = s := by
  unfold UnescapeString
  induction s with
  | nil => rfl
  | cons c cs ih =>
    have hc : c ≠ '&' := fun e => h (e ▸ List.mem_cons_self _ _)
    have hc2 : ¬ '&' = c := fun e => hc e.symm
    have he : entityAt (c :: cs) = none := by
      simp [entityAt, List.isPrefixOf, hc2]
    rw [unescapeFrom, he]
    simp only
    rw [ih (fun e => h (List.mem_cons_of_mem _ e))]

theorem convertHTMLToText_paragraph_inline_witness :
    isHTMLContent ("<p>".toList ++ "Hello ".toList ++ "<b>".toList ++ "world".toList
        ++ "</b></p>".toList) = true
      ∧ convertHTMLToText UnescapeString ("<p>".toList ++ "Hello ".toList ++ "<b>".toList
          ++ "world".toList ++ "</b></p>".toList) defaultOptions
        = "Hello ".toList ++ "world".toList :=
  convertHTMLToText_paragraph_inline UnescapeString UnescapeString_plain defaultOptions
    "Hello ".toList "world".toList (by decide) (by decide) (by decide) (by decide) (by decide)

/-! ## An unordered list -/

theorem matchAt_list_tokens (r : Rgx)
    (hr : r ∈ [rgxBr, rgxP, rgxDiv, rgxHeading, rgxTable, rgxTr, rgxTd])
    (prev : Option Char) (rest : Str) :
    matchAt r prev ('<' :: ("ul>".toList ++ rest)) = none
      ∧ matchAt r prev ('<' :: ("/ul>".toList ++ rest)) = none
      ∧ matchAt r prev ('<' :: ("li>".toList ++ rest)) = none
      ∧ matchAt r prev ('<' :: ("/li>".toList ++ rest)) = none := by
  simp only [List.mem_cons, List.mem_singleton, List.not_mem_nil, or_false] at hr
  rcases hr with rfl | rfl | rfl | rfl | rfl | rfl | rfl
  all_goals
    simp [matchAt, rgxBr, rgxP, rgxDiv, rgxHeading, rgxTable, rgxTr, rgxTd, rgxOpenClose,
      optSlash, Rgx.cat, Rgx.run, Rgx.str]

theorem matchAt_item_tokens (r : Rgx) (hr : r ∈ [rgxUl, rgxOl])
    (prev : Option Char) (rest : Str) :
    matchAt r prev ('<' :: ("li>".toList ++ rest)) = none
      ∧ matchAt r prev ('<' :: ("/li>".toList ++ rest)) = none := by
  simp only [List.mem_cons, List.mem_singleton, List.not_mem_nil, or_false] at hr
  rcases hr with rfl | rfl
  all_goals
    simp [matchAt, rgxUl, rgxOl, rgxOpenClose, optSlash, Rgx.cat, Rgx.run, Rgx.str]

theorem matchAt_rgxUl_ul (prev : Option Char) (rest : Str) :
    (∃ m, matchAt rgxUl prev ("<ul>".toList ++ rest) = some m ∧ m.rest = rest)
      ∧ ∃ m, matchAt rgxUl prev ("</ul>".toList ++ rest) = some m ∧ m.rest = rest := by
  simp [matchAt, rgxUl, rgxOpenClose, optSlash, Rgx.cat, Rgx.run, Rgx.str, starRun, notGt]

theorem matchAt_rgxLi_li (prev : Option Char) (rest : Str) :
    (∃ m, matchAt rgxLi prev ("<li>".toList ++ rest) = some m ∧ m.rest = rest)
      ∧ matchAt rgxLi prev ('<' :: ("/li>".toList ++ rest)) = none := by
  simp [matchAt, rgxLi, Rgx.cat, Rgx.run, Rgx.str, starRun, notGt]

theorem matchAt_rgxLiEnd_li (prev : Option Char) (rest : Str) :
    ∃ m, matchAt rgxLiEnd prev ("</li>".toList ++ rest) = some m ∧ m.rest = rest := by
  simp [matchAt, rgxLiEnd, Rgx.run, Rgx.str]

theorem Maps_items {r : Rgx} {repl : Cursor → Str} (op cl op2 cl2 : Str) (items : List Str)
    (hfirst : ∀ prev c rest, c ≠ '<' → matchAt r prev (c :: rest) = none)
    (hop : Maps r repl op op2) (hcl : Maps r repl cl cl2) (hitems : ∀ a ∈ items, '<' ∉ a) :
    Maps r repl (items.flatMap (fun a => op ++ a ++ cl))
      (items.flatMap (fun a => op2 ++ a ++ cl2)) :=
  Maps_flatMap _ _ items
    (fun a ha => Maps_append (Maps_append hop (Maps_plain hfirst a (hitems a ha))) hcl)

theorem Maps_token_hit {r : Rgx} {repl : Cursor → Str} (p out : Str) (hp : p ≠ [])
    (hout : ∀ m, repl m = out)
    (h : ∀ prev rest, ∃ m, matchAt r prev (p ++ rest) = some m ∧ m.rest = rest) :
    Maps r repl p out :=
  Maps_hit p out hp (fun prev rest => by
    obtain ⟨m, h1, h2⟩ := h prev rest
    exact ⟨m, h1, h2, hout m⟩)

/-! ## Lines put one under the other -/

theorem blankAhead_of_head (x : Char) (r : Str) (hx : isSpace x = false) :
    blankAhead (x :: r) = false := by
  have h : isReSpace x = false := by
    cases h2 : isReSpace x with
    | false => rfl
    | true => rw [isReSpace_isSpace x h2] at hx; cases hx
  simp [blankAhead, h]

theorem blankLinesCollapsed_lines (ls : List Str)
    (hls : ∀ l ∈ ls, l ≠ [] ∧ '\n' ∉ l ∧ ∀ c ∈ l.head?, isSpace c = false) :
    blankLinesCollapsed (ls.flatMap (fun l => '\n' :: l) ++ ['\n']) = true := by
  induction ls with
  | nil => rfl
  | cons l t ih =>
    obtain ⟨h0, hn, hh⟩ := hls l (List.mem_cons_self _ _)
    obtain ⟨x, r, rfl⟩ := List.exists_cons_of_ne_nil h0
    have hx : isReSpace x = false := by
      have h1 := hh x (by simp)
      cases h2 : isReSpace x with
      | false => rfl
      | true => rw [isReSpace_isSpace x h2] at h1; cases h1
    rw [List.flatMap_cons, List.append_assoc, List.cons_append, List.cons_append,
      blankLinesCollapsed_break x _ hx, ← List.cons_append, blankLinesCollapsed_plain _ _ hn]
    exact ih (fun l2 h2 => hls l2 (List.mem_cons_of_mem _ h2))

theorem blankLinesCollapsed_block (ls : List Str) (h : ls ≠ [])
    (hls : ∀ l ∈ ls, l ≠ [] ∧ '\n' ∉ l ∧ ∀ c ∈ l.head?, isSpace c = false) :
    blankLinesCollapsed ('\n' :: (ls.flatMap (fun l => '\n' :: l) ++ ['\n'])) = true := by
  have h1 := blankLinesCollapsed_lines ls hls
  obtain ⟨l, t, rfl⟩ := List.exists_cons_of_ne_nil h
  obtain ⟨h0, -, hh⟩ := hls l (List.mem_cons_self _ _)
  obtain ⟨x, r, rfl⟩ := List.exists_cons_of_ne_nil h0
  have hb := blankAhead_of_head x (r ++ (t.flatMap (fun l => '\n' :: l) ++ ['\n']))
    (hh x (by simp))
  rw [blankLinesCollapsed_cons, h1]
  simp only [List.flatMap_cons, List.cons_append, List.append_assoc] at hb ⊢
  simp [hb]

theorem intercalate_lines_cons (l : Str) (t : List Str) :
    ['\n'].intercalate (l :: t) = l ++ t.flatMap (fun l2 => '\n' :: l2) := by
  induction t generalizing l with
  | nil => simp [List.intercalate]
  | cons b u ih =>
    have := ih b
    simp only [List.intercalate, List.intersperse_cons_cons, List.flatten_cons,
      List.flatMap_cons] at this ⊢
    rw [this]
    simp

theorem getLast?_append_ne (a b : Str) (hb : b ≠ []) : (a ++ b).getLast? = b.getLast? := by
  rw [List.getLast?_append, List.getLast?_eq_getLast b hb]
  rfl

theorem getLast?_lines (t : List Str) (l : Str) (c : Char)
    (hls : ∀ l2 ∈ l :: t, l2 ≠ [] ∧ ∀ c ∈ l2.getLast?, isSpace c = false)
    (hc : c ∈ (l ++ t.flatMap (fun l2 => '\n' :: l2)).getLast?) : isSpace c = false := by
  induction t generalizing l with
  | nil =>
    simp only [List.flatMap_nil, List.append_nil] at hc
    exact (hls l (List.mem_cons_self _ _)).2 c hc
  | cons b u ih =>
    rw [List.flatMap_cons, ← List.append_assoc] at hc
    have hb := (hls b (List.mem_cons_of_mem _ (List.mem_cons_self _ _))).1
    apply ih b (fun l2 h2 => hls l2 (List.mem_cons_of_mem _ h2))
    have e : (l ++ '\n' :: b ++ u.flatMap (fun l2 => '\n' :: l2)).getLast?
        = (b ++ u.flatMap (fun l2 => '\n' :: l2)).getLast? := by
      have : l ++ '\n' :: b ++ u.flatMap (fun l2 => '\n' :: l2)
          = (l ++ ['\n']) ++ (b ++ u.flatMap (fun l2 => '\n' :: l2)) := by simp
      rw [this, getLast?_append_ne _ _ (by simp [hb])]
    rw [← e]
    exact hc

theorem TrimSpace_block (ls : List Str) (h : ls ≠ [])
    (hls : ∀ l ∈ ls, l ≠ [] ∧ (∀ c ∈ l.head?, isSpace c = false)
      ∧ ∀ c ∈ l.getLast?, isSpace c = false) :
    TrimSpace ('\n' :: (ls.flatMap (fun l => '\n' :: l) ++ ['\n'])) = ['\n'].intercalate ls := by
  obtain ⟨l, t, rfl⟩ := List.exists_cons_of_ne_nil h
  obtain ⟨h0, hh, -⟩ := hls l (List.mem_cons_self _ _)
  have e : '\n' :: ((l :: t).flatMap (fun l => '\n' :: l) ++ ['\n'])
      = ['\n', '\n'] ++ ['\n'].intercalate (l :: t) ++ ['\n'] := by
    rw [intercalate_lines_cons]
    simp
  rw [e]
  apply TrimSpace_strip _ _ _ (by decide) (by decide)
  · rw [intercalate_lines_cons]
    intro c hc
    apply hh c
    obtain ⟨x, r, rfl⟩ := List.exists_cons_of_ne_nil h0
    simpa using hc
  · rw [intercalate_lines_cons]
    intro c hc
    exact getLast?_lines t l c (fun l2 h2 => ⟨(hls l2 h2).1, (hls l2 h2).2.2⟩) hc
  · rw [intercalate_lines_cons]
    simp [h0]

theorem convertHTMLToText_list_core (unescape : Str → Str)
    (hun : ∀ x, '&' ∉ x → unescape x = x) (o : HTMLConvertOptions) (bullet : Str)
    (hB : (o.UseListBullets = true ∧ bullet = ['•', ' '])
      ∨ (o.UseListBullets = false ∧ bullet = []))
    (items : List Str) (h0 : items ≠ [])
    (hitems : ∀ a ∈ items, a ≠ [] ∧ (∀ c ∈ a, c ≠ '<' ∧ c ≠ '&' ∧ c ≠ '\n')
      ∧ (∀ c ∈ a.head?, isSpace c = false) ∧ ∀ c ∈ a.getLast?, isSpace c = false) :
    convertHTMLToText unescape
        ("<ul>".toList ++ items.flatMap (fun a => "<li>".toList ++ a ++ "</li>".toList)
          ++ "</ul>".toList) o
      = ['\n'].intercalate (items.map (fun a => bullet ++ a)) := by
  have hlt : ∀ a ∈ items, '<' ∉ a := fun a ha h => ((hitems a ha).2.1 _ h).1 rfl
  have hbul : '<' ∉ bullet ∧ '&' ∉ bullet ∧ '\n' ∉ bullet
      ∧ (∀ c ∈ bullet.head?, isSpace c = false) := by
    rcases hB with ⟨-, rfl⟩ | ⟨-, rfl⟩
    · exact ⟨by decide, by decide, by decide, by decide⟩
    · exact ⟨by simp, by simp, by simp, by simp⟩
  have hfirst : ∀ r ∈ rgxLink :: rgxAllTags :: structuralRgx,
      ∀ prev c rest, c ≠ '<' → matchAt r prev (c :: rest) = none :=
    fun r hr prev c rest h => matchAt_tag_ne r hr prev c rest h
  -- the stages before the lists
  have e7 : ∀ r ∈ [rgxBr, rgxP, rgxDiv, rgxHeading, rgxTable, rgxTr, rgxTd], ∀ repl,
      ReplaceAllString r ("<ul>".toList
        ++ items.flatMap (fun a => "<li>".toList ++ a ++ "</li>".toList) ++ "</ul>".toList) repl
      = "<ul>".toList ++ items.flatMap (fun a => "<li>".toList ++ a ++ "</li>".toList)
        ++ "</ul>".toList := by
    intro r hr repl
    have hr2 : r ∈ rgxLink :: rgxAllTags :: structuralRgx := by
      simp only [List.mem_cons, List.mem_singleton, List.not_mem_nil, or_false] at hr
      rcases hr with rfl | rfl | rfl | rfl | rfl | rfl | rfl <;> simp [structuralRgx]
    have hf := hfirst r hr2
    exact Maps_apply (Maps_append (Maps_append
      (Maps_skip hf "ul>".toList (by decide)
        (fun prev rest => (matchAt_list_tokens r hr prev rest).1))
      (Maps_items _ _ _ _ items hf
        (Maps_skip hf "li>".toList (by decide)
          (fun prev rest => (matchAt_list_tokens r hr prev rest).2.2.1))
        (Maps_skip hf "/li>".toList (by decide)
          (fun prev rest => (matchAt_list_tokens r hr prev rest).2.2.2)) hlt))
      (Maps_skip hf "/ul>".toList (by decide)
        (fun prev rest => (matchAt_list_tokens r hr prev rest).2.1))) none
  have hUl := hfirst rgxUl (by simp [structuralRgx])
  have eUl : ReplaceAllString rgxUl ("<ul>".toList
        ++ items.flatMap (fun a => "<li>".toList ++ a ++ "</li>".toList) ++ "</ul>".toList)
        (fun _ => ['\n'])
      = ['\n'] ++ items.flatMap (fun a => "<li>".toList ++ a ++ "</li>".toList) ++ ['\n'] :=
    Maps_apply (Maps_append (Maps_append
      (Maps_token_hit "<ul>".toList ['\n'] (by decide) (fun _ => rfl)
        (fun prev rest => (matchAt_rgxUl_ul prev rest).1))
      (Maps_items _ _ _ _ items hUl
        (Maps_skip hUl "li>".toList (by decide)
          (fun prev rest => (matchAt_item_tokens rgxUl (by simp) prev rest).1))
        (Maps_skip hUl "/li>".toList (by decide)
          (fun prev rest => (matchAt_item_tokens rgxUl (by simp) prev rest).2)) hlt))
      (Maps_token_hit "</ul>".toList ['\n'] (by decide) (fun _ => rfl)
        (fun prev rest => (matchAt_rgxUl_ul prev rest).2))) none
  have hOl := hfirst rgxOl (by simp [structuralRgx])
  have eOl : ∀ repl, ReplaceAllString rgxOl
        (['\n'] ++ items.flatMap (fun a => "<li>".toList ++ a ++ "</li>".toList) ++ ['\n']) repl
      = ['\n'] ++ items.flatMap (fun a => "<li>".toList ++ a ++ "</li>".toList) ++ ['\n'] :=
    fun repl => Maps_apply (Maps_append (Maps_append
      (Maps_plain hOl ['\n'] (by decide))
      (Maps_items _ _ _ _ items hOl
        (Maps_skip hOl "li>".toList (by decide)
          (fun prev rest => (matchAt_item_tokens rgxOl (by simp) prev rest).1))
        (Maps_skip hOl "/li>".toList (by decide)
          (fun prev rest => (matchAt_item_tokens rgxOl (by simp) prev rest).2)) hlt))
      (Maps_plain hOl ['\n'] (by decide))) none
  have hLi := hfirst rgxLi (by simp [structuralRgx])
  have eLi0 : ReplaceAllString rgxLi
        (['\n'] ++ items.flatMap (fun a => "<li>".toList ++ a ++ "</li>".toList) ++ ['\n'])
        (fun _ => '\n' :: bullet)
      = ['\n'] ++ items.flatMap (fun a => ('\n' :: bullet) ++ a ++ "</li>".toList) ++ ['\n'] :=
    Maps_apply (Maps_append (Maps_append
      (Maps_plain hLi ['\n'] (by decide))
      (Maps_items _ _ _ _ items hLi
        (Maps_token_hit "<li>".toList ('\n' :: bullet) (by decide) (fun _ => rfl)
          (fun prev rest => (matchAt_rgxLi_li prev rest).1))
        (Maps_skip hLi "/li>".toList (by decide)
          (fun prev rest => (matchAt_rgxLi_li prev rest).2)) hlt))
      (Maps_plain hLi ['\n'] (by decide))) none
  have eLi : (if o.UseListBullets = true then ReplaceAllString rgxLi
        (['\n'] ++ items.flatMap (fun a => "<li>".toList ++ a ++ "</li>".toList) ++ ['\n'])
        (fun _ => ['\n', '•', ' '])
      else ReplaceAllString rgxLi
        (['\n'] ++ items.flatMap (fun a => "<li>".toList ++ a ++ "</li>".toList) ++ ['\n'])
        (fun _ => ['\n']))
      = ['\n'] ++ items.flatMap (fun a => ('\n' :: bullet) ++ a ++ "</li>".toList) ++ ['\n'] := by
    rcases hB with ⟨hb, rfl⟩ | ⟨hb, rfl⟩
    · rw [if_pos hb]
      exact eLi0
    · rw [hb, if_neg (by simp)]
      exact eLi0
  have hEnd := hfirst rgxLiEnd (by simp [structuralRgx])
  have hblt : '<' ∉ '\n' :: bullet := by
    simp only [List.mem_cons, not_or]
    exact ⟨by decide, hbul.1⟩
  have eEnd : ReplaceAllString rgxLiEnd
        (['\n'] ++ items.flatMap (fun a => ('\n' :: bullet) ++ a ++ "</li>".toList) ++ ['\n'])
        (fun _ => [])
      = ['\n'] ++ items.flatMap (fun a => ('\n' :: bullet) ++ a ++ []) ++ ['\n'] :=
    Maps_apply (Maps_append (Maps_append
      (Maps_plain hEnd ['\n'] (by decide))
      (Maps_items _ _ _ _ items hEnd
        (Maps_plain hEnd ('\n' :: bullet) hblt)
        (Maps_token_hit "</li>".toList [] (by decide) (fun _ => rfl)
          (fun prev rest => matchAt_rgxLiEnd_li prev rest)) hlt))
      (Maps_plain hEnd ['\n'] (by decide))) none
  have eY : ['\n'] ++ items.flatMap (fun a => ('\n' :: bullet) ++ a ++ []) ++ ['\n']
      = '\n' :: ((items.map (fun a => bullet ++ a)).flatMap (fun l => '\n' :: l) ++ ['\n']) := by
    have : items.flatMap (fun a => ('\n' :: bullet) ++ a ++ [])
        = (items.map (fun a => bullet ++ a)).flatMap (fun l => '\n' :: l) := by
      clear h0 hitems hlt e7 eUl eOl eLi0 eLi eEnd
      induction items with
      | nil => rfl
      | cons a t ih =>
        simp only [List.append_nil, List.cons_append] at ih
        simp [ih]
    rw [this]
    rfl
  rw [eY] at eEnd
  have hlines : ∀ l ∈ items.map (fun a => bullet ++ a),
      l ≠ [] ∧ (∀ c ∈ l, c ≠ '<' ∧ c ≠ '&' ∧ c ≠ '\n')
        ∧ (∀ c ∈ l.head?, isSpace c = false) ∧ ∀ c ∈ l.getLast?, isSpace c = false := by
    intro l hl
    obtain ⟨a, ha, rfl⟩ := List.mem_map.mp hl
    obtain ⟨a0, ha1, ha2, ha3⟩ := hitems a ha
    refine ⟨by simp [a0], ?_, ?_, ?_⟩
    · intro c hc
      rcases List.mem_append.mp hc with h | h
      · exact ⟨fun e => hbul.1 (e ▸ h), fun e => hbul.2.1 (e ▸ h), fun e => hbul.2.2.1 (e ▸ h)⟩
      · exact ha1 c h
    · intro c hc
      cases hbl : bullet with
      | nil =>
        rw [hbl] at hc
        exact ha2 c (by simpa using hc)
      | cons b bs =>
        rw [hbl] at hc
        exact hbul.2.2.2 c (by rw [hbl]; simpa using hc)
    · intro c hc
      rw [getLast?_append_ne _ _ a0] at hc
      exact ha3 c hc
  have hmap0 : items.map (fun a => bullet ++ a) ≠ [] := by simpa using h0
  have hplainY : '<' ∉ '\n' :: ((items.map (fun a => bullet ++ a)).flatMap (fun l => '\n' :: l)
      ++ ['\n']) ∧ '&' ∉ '\n' :: ((items.map (fun a => bullet ++ a)).flatMap
        (fun l => '\n' :: l) ++ ['\n']) := by
    constructor
    · simp only [List.mem_cons, List.mem_append, List.mem_flatMap, List.mem_singleton,
        List.not_mem_nil, or_false, not_or, not_exists, not_and]
      refine ⟨by decide, ?_, by decide⟩
      intro l hl
      exact ⟨by decide, fun h => ((hlines l hl).2.1 _ h).1 rfl⟩
    · simp only [List.mem_cons, List.mem_append, List.mem_flatMap, List.mem_singleton,
        List.not_mem_nil, or_false, not_or, not_exists, not_and]
      refine ⟨by decide, ?_, by decide⟩
      intro l hl
      exact ⟨by decide, fun h => ((hlines l hl).2.1 _ h).2.1 rfl⟩
  have eLink : ∀ repl, ReplaceAllString rgxLink ('\n' :: ((items.map (fun a => bullet ++ a)).flatMap
      (fun l => '\n' :: l) ++ ['\n'])) repl = '\n' :: ((items.map (fun a => bullet ++ a)).flatMap
      (fun l => '\n' :: l) ++ ['\n']) :=
    fun repl => Maps_apply (Maps_plain (hfirst rgxLink (by simp)) _ hplainY.1) none
  have eAll : ∀ repl, ReplaceAllString rgxAllTags ('\n' :: ((items.map (fun a => bullet ++ a)).flatMap
      (fun l => '\n' :: l) ++ ['\n'])) repl = '\n' :: ((items.map (fun a => bullet ++ a)).flatMap
      (fun l => '\n' :: l) ++ ['\n']) :=
    fun repl => Maps_apply (Maps_plain (hfirst rgxAllTags (by simp)) _ hplainY.1) none
  have eCol : ReplaceAllString rgxMultiNewlines ('\n' :: ((items.map (fun a => bullet ++ a)).flatMap
      (fun l => '\n' :: l) ++ ['\n'])) (fun _ => ['\n', '\n'])
      = '\n' :: ((items.map (fun a => bullet ++ a)).flatMap (fun l => '\n' :: l) ++ ['\n']) :=
    collapse_id _ _ none (le_refl _) (blankLinesCollapsed_block _ hmap0
      (fun l hl => ⟨(hlines l hl).1, fun h => ((hlines l hl).2.1 _ h).2.2 rfl,
        (hlines l hl).2.2.1⟩))
  unfold convertHTMLToText processHTMLStructure processHTMLTables processHTMLLists
    processHTMLLinks cleanupText
  simp only [e7 rgxBr (by simp), e7 rgxP (by simp), e7 rgxDiv (by simp),
    e7 rgxHeading (by simp), e7 rgxTable (by simp), e7 rgxTr (by simp), e7 rgxTd (by simp),
    eUl, eOl, eLi, eEnd, eLink, ite_self, eAll, hun _ hplainY.2, eCol]
  exact TrimSpace_block _ hmap0
    (fun l hl => ⟨(hlines l hl).1, (hlines l hl).2.2.1, (hlines l hl).2.2.2⟩)

/-- C15: for every non-empty list of items, each a non-empty text free of `<`,
`&` and line breaks and without white space at its ends, `convertHTMLToText`
of `<ul>`, the items each between `<li>` and `</li>`, and `</ul>` returns, with
`UseListBullets` true, exactly the lines made of a bullet, a space and the
item, joined by single line breaks, and with `UseListBullets` false the items
joined by single line breaks. The decoder is taken to return a text without
`&` as it is, as `html.UnescapeString` does. -/
theorem convertHTMLToText_unordered_list (unescape : Str → Str)
    (hun : ∀ x, '&' ∉ x → unescape x = x) (o : HTMLConvertOptions)
    (items : List Str) (h0 : items ≠ [])
    (hitems : ∀ a ∈ items, a ≠ [] ∧ (∀ c ∈ a, c ≠ '<' ∧ c ≠ '&' ∧ c ≠ '\n')
      ∧ (∀ c ∈ a.head?, isSpace c = false) ∧ ∀ c ∈ a.getLast?, isSpace c = false) :
    (o.UseListBullets = true →
        convertHTMLToText unescape
            ("<ul>".toList ++ items.flatMap (fun a => "<li>".toList ++ a ++ "</li>".toList)
              ++ "</ul>".toList) o
          = ['\n'].intercalate (items.map (fun a => "• ".toList ++ a)))
      ∧ (o.UseListBullets = false →
        convertHTMLToText unescape
            ("<ul>".toList ++ items.flatMap (fun a => "<li>".toList ++ a ++ "</li>".toList)
              ++ "</ul>".toList) o
          = ['\n'].intercalate items) := by
  constructor
  · intro hb
    exact convertHTMLToText_list_core unescape hun o ['•', ' '] (Or.inl ⟨hb, rfl⟩) items h0 hitems
  · intro hb
    have := convertHTMLToText_list_core unescape hun o [] (Or.inr ⟨hb, rfl⟩) items h0 hitems
    simpa using this

theorem convertHTMLToText_unordered_list_witness :
    convertHTMLToText UnescapeString "<ul><li>a</li><li>b</li></ul>".toList defaultOptions
        = "• a\n• b".toList
      ∧ convertHTMLToText UnescapeString "<ul><li>a</li><li>b</li></ul>".toList
          { ShowLinkURLs := true, UseListBullets := false, TableSeparator := ['\t'] }
        = "a\nb".toList :=
  ⟨(convertHTMLToText_unordered_list UnescapeString UnescapeString_plain defaultOptions
      ["a".toList, "b".toList] (by decide) (by decide)).1 rfl,
   (convertHTMLToText_unordered_list UnescapeString UnescapeString_plain
      { ShowLinkURLs := true, UseListBullets := false, TableSeparator := ['\t'] }
      ["a".toList, "b".toList] (by decide) (by decide)).2 rfl⟩

/-! ## The matcher on `rgxLink` -/

theorem mem_run_group (i : Nat) (r : Rgx) (m m2 : Cursor) :
    m2 ∈ (Rgx.group i r).run m
      ↔ ∃ m1, m1 ∈ r.run m
          ∧ m2 = { m1 with caps := m1.caps
              ++ [(i, m.rest.take (m.rest.length - m1.rest.length))] } := by
  simp only [Rgx.run, List.mem_map]
  constructor
  · rintro ⟨m1, h1, h2⟩
    exact ⟨m1, h1, h2.symm⟩
  · rintro ⟨m1, h1, h2⟩
    exact ⟨m1, h1, h2.symm⟩

theorem split_first (p : Char → Bool) (A B S1 S2 : Str) (x q : Char)
    (hA : ∀ c ∈ A, p c = true) (hq : p q = false)
    (h : A ++ x :: B = S1 ++ q :: S2) :
    (S1 = A ∧ q = x ∧ S2 = B) ∨ ∃ S3, S1 = A ++ x :: S3 ∧ B = S3 ++ q :: S2 := by
  rcases List.append_eq_append_iff.mp h with ⟨a2, h1, h2⟩ | ⟨c2, h1, h2⟩
  · cases a2 with
    | nil =>
      simp only [List.nil_append, List.cons.injEq] at h2
      left
      exact ⟨by simpa using h1, h2.1.symm, h2.2.symm⟩
    | cons y a3 =>
      simp only [List.cons_append, List.cons.injEq] at h2
      right
      exact ⟨a3, by rw [h1, h2.1], h2.2⟩
  · cases c2 with
    | nil =>
      simp only [List.nil_append, List.cons.injEq] at h2
      left
      exact ⟨by simpa using h1.symm, h2.1, h2.2⟩
    | cons y c3 =>
      simp only [List.cons_append, List.cons.injEq] at h2
      have : q ∈ A := by
        rw [h1, h2.1]
        simp
      rw [hA q this] at hq
      cases hq

theorem split_unique (p : Char → Bool) (A B S1 S2 : Str) (x q : Char)
    (hA : ∀ c ∈ A, p c = true) (hx : p x = false) (hS : ∀ c ∈ S1, p c = true)
    (hq : p q = false) (h : A ++ x :: B = S1 ++ q :: S2) :
    S1 = A ∧ q = x ∧ S2 = B := by
  rcases split_first p A B S1 S2 x q hA hq h with h1 | ⟨S3, h1, -⟩
  · exact h1
  · have : x ∈ S1 := by
      rw [h1]
      simp
    rw [hS x this] at hx
    cases hx

theorem mem_run_rgxLink (prev : Option Char) (s : Str) (m : Cursor)
    (h : m ∈ rgxLink.run { caps := [], prev := prev, rest := s }) :
    ∃ a1 q1 g1 q2 b g2 rest,
      s = "<a".toList ++ (a1 ++ ("href=".toList ++ (q1 :: (g1 ++ (q2 :: (b ++ ('>' :: (g2
            ++ ("</a>".toList ++ rest)))))))))
        ∧ (∀ x ∈ a1, notGt x = true) ∧ isQuote q1 = true ∧ (∀ x ∈ g1, notQuote x = true)
        ∧ isQuote q2 = true ∧ (∀ x ∈ b, notGt x = true) ∧ (∀ x ∈ g2, notLt x = true)
        ∧ m.caps = [(1, g1), (2, g2)] ∧ m.rest = rest := by
  have hdef : rgxLink = .seq (Rgx.str "<a".toList) (.seq (.star notGt)
      (.seq (Rgx.str "href=".toList) (.seq (.cls isQuote) (.seq (.group 1 (.star notQuote))
        (.seq (.cls isQuote) (.seq (.star notGt) (.seq (.chr '>')
          (.seq (.group 2 (.star notLt)) (Rgx.str "</a>".toList))))))))) := rfl
  rw [hdef] at h
  simp only [mem_run_seq, mem_run_chr, mem_run_cls, mem_run_star, mem_run_str,
    mem_run_group] at h
  obtain ⟨m1, ⟨r1, h1, rfl⟩, m2, ⟨a1, r2, h2, ha1, rfl⟩, m3, ⟨r3, h3, rfl⟩, m4,
    ⟨q1, r4, h4, hq1, rfl⟩, m5, ⟨m5', ⟨g1, r5, h5, hg1, rfl⟩, rfl⟩, m6, ⟨q2, r6, h6, hq2, rfl⟩,
    m7, ⟨b, r7, h7, hb, rfl⟩, m8, ⟨r8, h8, rfl⟩, m9, ⟨m9', ⟨g2, r9, h9, hg2, rfl⟩, rfl⟩,
    r10, h10, rfl⟩ := h
  simp only at h1 h2 h3 h4 h5 h6 h7 h8 h9 h10
  subst h1 h2 h3 h4 h5 h6 h7 h8 h9 h10
  refine ⟨a1, q1, g1, q2, b, g2, r10, rfl, ha1, hq1, hg1, hq2, hb, hg2, ?_, rfl⟩
  simp

theorem run_rgxLink_intro (prev : Option Char) (a1 g1 b g2 rest : Str) (q1 q2 : Char)
    (ha1 : ∀ x ∈ a1, notGt x = true) (hq1 : isQuote q1 = true)
    (hg1 : ∀ x ∈ g1, notQuote x = true) (hq2 : isQuote q2 = true)
    (hb : ∀ x ∈ b, notGt x = true) (hg2 : ∀ x ∈ g2, notLt x = true) :
    ∃ m, m ∈ rgxLink.run (Cursor.mk [] prev
        ("<a".toList ++ (a1 ++ ("href=".toList ++ (q1 :: (g1 ++ (q2 :: (b ++ ('>' :: (g2
            ++ ("</a>".toList ++ rest))))))))))) := by
  have hdef : rgxLink = .seq (Rgx.str "<a".toList) (.seq (.star notGt)
      (.seq (Rgx.str "href=".toList) (.seq (.cls isQuote) (.seq (.group 1 (.star notQuote))
        (.seq (.cls isQuote) (.seq (.star notGt) (.seq (.chr '>')
          (.seq (.group 2 (.star notLt)) (Rgx.str "</a>".toList))))))))) := rfl
  rw [hdef]
  simp only [mem_run_seq, mem_run_chr, mem_run_cls, mem_run_star, mem_run_str,
    mem_run_group]
  exact ⟨_, _, ⟨_, rfl, rfl⟩, _, ⟨a1, _, rfl, ha1, rfl⟩, _, ⟨_, rfl, rfl⟩, _,
    ⟨q1, _, rfl, hq1, rfl⟩, _, ⟨_, ⟨g1, _, rfl, hg1, rfl⟩, rfl⟩, _, ⟨q2, _, rfl, hq2, rfl⟩,
    _, ⟨b, _, rfl, hb, rfl⟩, _, ⟨_, rfl, rfl⟩, _, ⟨_, ⟨g2, _, rfl, hg2, rfl⟩, rfl⟩,
    rest, rfl, rfl⟩

theorem head?_of_mem_all {α : Type} (l : List α) (P : α → Prop) (h0 : ∃ m, m ∈ l)
    (h : ∀ m ∈ l, P m) : ∃ m, l.head? = some m ∧ P m := by
  cases l with
  | nil =>
    obtain ⟨m, hm⟩ := h0
    cases hm
  | cons a t => exact ⟨a, rfl, h a (List.mem_cons_self _ _)⟩

theorem matchAt_rgxLink_anchor (prev : Option Char) (u t : Str)
    (hu : ∀ c ∈ u, isQuote c = false)
    (ht : ∀ c ∈ t, isQuote c = false ∧ c ≠ '<') :
    ∃ m, matchAt rgxLink prev (anchor u t ++ []) = some m ∧ m.rest = []
      ∧ m.cap 1 = u ∧ m.cap 2 = t := by
  have hnq : ∀ c, isQuote c = false → notQuote c = true := fun c h => by simp [notQuote, h]
  have hX : anchor u t ++ [] = "<a".toList ++ ([' '] ++ ("href=".toList ++ (Char.ofNat 34 :: (u
      ++ (Char.ofNat 34 :: ([] ++ ('>' :: (t ++ ("</a>".toList ++ []))))))))) := by
    simp [anchor]
  have hP2 : ∀ c ∈ '>' :: (t ++ "</a>".toList), notQuote c = true := by
    intro c hc
    rcases List.mem_cons.mp hc with h | h
    · subst h
      decide
    · rcases List.mem_append.mp h with h | h
      · exact hnq c (ht c h).1
      · have h2 : ∀ d ∈ "</a>".toList, notQuote d = true := by decide
        exact h2 c h
  unfold matchAt
  apply head?_of_mem_all
  · rw [hX]
    exact run_rgxLink_intro prev [' '] u [] t [] (Char.ofNat 34) (Char.ofNat 34) (by decide)
      (by decide) (fun c hc => hnq c (hu c hc)) (by decide) (by simp)
      (fun c hc => by simpa [notLt] using (ht c hc).2)
  · intro m hm
    obtain ⟨a1, q1, g1, q2, b, g2, rest, hs, ha1, hq1, hg1, hq2, hb, hg2, hcaps, hrest⟩ :=
      mem_run_rgxLink prev _ m hm
    rw [hX] at hs
    have hs2 := List.append_cancel_left hs
    have hq1' : notQuote q1 = false := by simp [notQuote, hq1]
    have hq2' : notQuote q2 = false := by simp [notQuote, hq2]
    have hs3 : " href=".toList ++ Char.ofNat 34 :: (u ++ Char.ofNat 34 :: ('>' :: (t
        ++ "</a>".toList)))
        = (a1 ++ "href=".toList) ++ q1 :: (g1 ++ q2 :: (b ++ '>' :: (g2 ++ ("</a>".toList
          ++ rest)))) := by
      simpa using hs2
    have key : g1 = u ∧ b ++ '>' :: (g2 ++ ("</a>".toList ++ rest))
        = '>' :: (t ++ "</a>".toList) := by
      rcases split_first notQuote _ _ _ _ _ _ (by decide) hq1' hs3 with ⟨-, -, h3⟩ | ⟨S3, -, h3⟩
      · obtain ⟨h4, -, h5⟩ := split_unique notQuote u _ g1 _ _ _
          (fun c hc => hnq c (hu c hc)) (by decide) hg1 hq2' h3.symm
        exact ⟨h4, h5⟩
      · rcases split_first notQuote u _ S3 _ _ _ (fun c hc => hnq c (hu c hc)) hq1' h3
          with ⟨-, -, h4⟩ | ⟨S4, -, h4⟩
        · have : q2 ∈ '>' :: (t ++ "</a>".toList) := by
            rw [← h4]
            simp
          rw [hP2 q2 this] at hq2'
          cases hq2'
        · have : q1 ∈ '>' :: (t ++ "</a>".toList) := by
            rw [h4]
            simp
          rw [hP2 q1 this] at hq1'
          cases hq1'
    obtain ⟨hg, hT⟩ := key
    have key2 : g2 = t ∧ rest = [] := by
      cases b with
      | nil =>
        simp only [List.nil_append, List.cons.injEq, true_and] at hT
        have hT2 : t ++ '<' :: "/a>".toList = g2 ++ '<' :: ("/a>".toList ++ rest) := by
          simpa using hT.symm
        obtain ⟨h1, -, h2⟩ := split_unique notLt t _ g2 _ _ _
          (fun c hc => by simpa [notLt] using (ht c hc).2) (by decide) hg2 (by decide) hT2
        exact ⟨h1, by simpa using h2⟩
      | cons c b2 =>
        simp only [List.cons_append, List.cons.injEq] at hT
        have := hb c (List.mem_cons_self _ _)
        rw [hT.1] at this
        exact absurd this (by decide)
    obtain ⟨hg2', hr⟩ := key2
    subst hg hg2' hr
    exact ⟨hrest, by simp [Cursor.cap, hcaps], by simp [Cursor.cap, hcaps]⟩

/-! ## An anchor -/

theorem matchAt_anchor_tokens (r : Rgx) (hr : r ∈ structuralRgx) (prev : Option Char)
    (rest : Str) :
    matchAt r prev ('<' :: 'a' :: rest) = none
      ∧ matchAt r prev ('<' :: '/' :: 'a' :: rest) = none := by
  simp only [structuralRgx, List.mem_cons, List.mem_singleton, List.not_mem_nil, or_false] at hr
  rcases hr with rfl | rfl | rfl | rfl | rfl | rfl | rfl | rfl | rfl | rfl | rfl
  all_goals
    simp [matchAt, rgxBr, rgxP, rgxDiv, rgxHeading, rgxTable, rgxTr, rgxTd,
      rgxUl, rgxOl, rgxLi, rgxLiEnd, rgxOpenClose, optSlash, Rgx.cat, Rgx.run, Rgx.str]

theorem structural_anchor (r : Rgx) (hr : r ∈ structuralRgx) (repl : Cursor → Str) (u t : Str)
    (hu : '<' ∉ u) (ht : '<' ∉ t) : ReplaceAllString r (anchor u t) repl = anchor u t := by
  have hf : ∀ prev c rest, c ≠ '<' → matchAt r prev (c :: rest) = none :=
    fun prev c rest h => matchAt_tag_ne r
      (List.mem_cons_of_mem _ (List.mem_cons_of_mem _ hr)) prev c rest h
  have h1 : Maps r repl ('<' :: ("a href=".toList ++ [Char.ofNat 34] ++ u ++ [Char.ofNat 34, '>']
      ++ t)) ('<' :: ("a href=".toList ++ [Char.ofNat 34] ++ u ++ [Char.ofNat 34, '>'] ++ t)) := by
    apply Maps_skip hf
    · simp only [List.mem_append, not_or]
      exact ⟨⟨⟨⟨by decide, by decide⟩, hu⟩, by decide⟩, ht⟩
    · intro prev rest
      exact (matchAt_anchor_tokens r hr prev _).1
  have h2 : Maps r repl "</a>".toList "</a>".toList :=
    Maps_skip hf "/a>".toList (by decide)
      (fun prev rest => (matchAt_anchor_tokens r hr prev _).2)
  have := Maps_apply (Maps_append h1 h2) none
  have e : anchor u t = '<' :: ("a href=".toList ++ [Char.ofNat 34] ++ u ++ [Char.ofNat 34, '>']
      ++ t) ++ "</a>".toList := by
    simp [anchor]
  rw [e]
  exact this

theorem rgxLink_anchor (repl : Cursor → Str) (u t : Str)
    (hu : ∀ c ∈ u, isQuote c = false) (ht : ∀ c ∈ t, isQuote c = false ∧ c ≠ '<') :
    ∃ m, ReplaceAllString rgxLink (anchor u t) repl = repl m ∧ m.cap 1 = u ∧ m.cap 2 = t := by
  obtain ⟨m, h1, h2, h3, h4⟩ := matchAt_rgxLink_anchor none u t hu ht
  refine ⟨m, ?_, h3, h4⟩
  have hne : anchor u t ≠ [] := by simp [anchor]
  have h5 : matchAt rgxLink none (anchor u t ++ m.rest) = some m := by
    rw [h2]
    exact h1
  have := replaceFrom_match rgxLink repl none (anchor u t) m hne h5
  rw [h2, List.append_nil] at this
  rw [ReplaceAllString, this]
  simp [replaceFrom]

theorem convertHTMLToText_of_link (unescape : Str → Str) (x y : Str) (o : HTMLConvertOptions)
    (h1 : ∀ r ∈ structuralRgx, ∀ repl, ReplaceAllString r x repl = x)
    (h2 : processHTMLLinks x o = y)
    (h3 : '<' ∉ y) (h4 : '&' ∉ y) (h5 : '\n' ∉ y)
    (hun : ∀ s, '&' ∉ s → unescape s = s)
    (h0 : y ≠ []) (hh : ∀ c ∈ y.head?, isSpace c = false)
    (hl : ∀ c ∈ y.getLast?, isSpace c = false) :
    convertHTMLToText unescape x o = y := by
  have e3 : ReplaceAllString rgxAllTags y (fun _ => []) = y :=
    Maps_apply (Maps_tag_plain rgxAllTags (by simp) _ y h3) none
  have e5 : ReplaceAllString rgxMultiNewlines y (fun _ => ['\n', '\n']) = y := by
    apply collapse_id _ y none (le_refl _)
    have := blankLinesCollapsed_plain y [] h5
    simpa using this
  unfold convertHTMLToText processHTMLStructure processHTMLTables processHTMLLists cleanupText
  simp only [h1 rgxBr (by simp [structuralRgx]), h1 rgxP (by simp [structuralRgx]),
    h1 rgxDiv (by simp [structuralRgx]), h1 rgxHeading (by simp [structuralRgx]),
    h1 rgxTable (by simp [structuralRgx]), h1 rgxTr (by simp [structuralRgx]),
    h1 rgxTd (by simp [structuralRgx]), h1 rgxUl (by simp [structuralRgx]),
    h1 rgxOl (by simp [structuralRgx]), h1 rgxLi (by simp [structuralRgx]),
    h1 rgxLiEnd (by simp [structuralRgx]), ite_self, h2, e3, hun y h4, e5]
  have := TrimSpace_strip [] y [] (by simp) (by simp) hh hl h0
  simpa using this

/-- C14: for every link text `t` and URL `u` free of `<`, `&`, quotes and line
breaks, `t` being non-empty and without white space at its ends,
`convertHTMLToText` of the anchor `<a href="u">t</a>` returns `t`, a space
and `u` between parentheses when `ShowLinkURLs` is true, and exactly `t` when
it is false. The decoder is taken to return a text without `&` as it is, as
`html.UnescapeString` does. -/
theorem convertHTMLToText_anchor (unescape : Str → Str)
    (hun : ∀ x, '&' ∉ x → unescape x = x) (o : HTMLConvertOptions) (u t : Str)
    (hu : ∀ c ∈ u, c ≠ '<' ∧ c ≠ '&' ∧ c ≠ '\n' ∧ isQuote c = false)
    (ht : ∀ c ∈ t, c ≠ '<' ∧ c ≠ '&' ∧ c ≠ '\n' ∧ isQuote c = false)
    (h0 : t ≠ []) (hh : ∀ c ∈ t.head?, isSpace c = false)
    (hl : ∀ c ∈ t.getLast?, isSpace c = false) :
    (o.ShowLinkURLs = true →
        convertHTMLToText unescape (anchor u t) o = t ++ " (".toList ++ u ++ ")".toList)
      ∧ (o.ShowLinkURLs = false → convertHTMLToText unescape (anchor u t) o = t) := by
  have hu1 : '<' ∉ u := fun h => (hu _ h).1 rfl
  have ht1 : '<' ∉ t := fun h => (ht _ h).1 rfl
  have hs : ∀ r ∈ structuralRgx, ∀ repl, ReplaceAllString r (anchor u t) repl = anchor u t :=
    fun r hr repl => structural_anchor r hr repl u t hu1 ht1
  have huq : ∀ c ∈ u, isQuote c = false := fun c hc => (hu c hc).2.2.2
  have htq : ∀ c ∈ t, isQuote c = false ∧ c ≠ '<' := fun c hc => ⟨(ht c hc).2.2.2, (ht c hc).1⟩
  constructor
  · intro hb
    obtain ⟨m, h1, h2, h3⟩ := rgxLink_anchor
      (fun m => m.cap 2 ++ [' ', '('] ++ m.cap 1 ++ [')']) u t huq htq
    rw [h2, h3] at h1
    apply convertHTMLToText_of_link unescape _ (t ++ " (".toList ++ u ++ ")".toList) o hs
    · rw [processHTMLLinks, if_pos hb]
      exact h1
    · simp only [List.mem_append, not_or]
      exact ⟨⟨⟨ht1, by decide⟩, hu1⟩, by decide⟩
    · simp only [List.mem_append, not_or]
      exact ⟨⟨⟨fun h => (ht _ h).2.1 rfl, by decide⟩, fun h => (hu _ h).2.1 rfl⟩, by decide⟩
    · simp only [List.mem_append, not_or]
      exact ⟨⟨⟨fun h => (ht _ h).2.2.1 rfl, by decide⟩, fun h => (hu _ h).2.2.1 rfl⟩, by decide⟩
    · exact hun
    · simp [h0]
    · intro c hc
      apply hh c
      obtain ⟨x, r, rfl⟩ := List.exists_cons_of_ne_nil h0
      simpa using hc
    · intro c hc
      rw [getLast?_append_ne _ _ (by decide)] at hc
      have : c = ')' := by simpa using hc.symm
      subst this
      decide
  · intro hb
    obtain ⟨m, h1, -, h3⟩ := rgxLink_anchor (fun m => m.cap 2) u t huq htq
    rw [h3] at h1
    apply convertHTMLToText_of_link unescape _ t o hs
    · rw [processHTMLLinks, hb, if_neg (by simp)]
      exact h1
    · exact ht1
    · exact fun h => (ht _ h).2.1 rfl
    · exact fun h => (ht _ h).2.2.1 rfl
    · exact hun
    · exact h0
    · exact hh
    · exact hl

theorem convertHTMLToText_anchor_witness :
    convertHTMLToText UnescapeString (anchor "http://x.test".toList "click".toList)
        defaultOptions = "click (http://x.test)".toList
      ∧ convertHTMLToText UnescapeString (anchor "http://x.test".toList "click".toList)
          { ShowLinkURLs := false, UseListBullets := true, TableSeparator := ['\t'] }
        = "click".toList :=
  ⟨(convertHTMLToText_anchor UnescapeString UnescapeString_plain defaultOptions
      "http://x.test".toList "click".toList (by decide) (by decide) (by decide) (by decide)
      (by decide)).1 rfl,
   (convertHTMLToText_anchor UnescapeString UnescapeString_plain
      { ShowLinkURLs := false, UseListBullets := true, TableSeparator := ['\t'] }
      "http://x.test".toList "click".toList (by decide) (by decide) (by decide) (by decide)
      (by decide)).2 rfl⟩

/-! ## A match of a tag expression is a tag run -/

theorem tagRunAt_intro (c : Char) (mid tail : Str) (hc : c ≠ '>') :
    tagRunAt ('<' :: c :: (mid ++ '>' :: tail)) = true := by
  simp [tagRunAt, hc]

theorem mem_of_matchAt {r : Rgx} {prev : Option Char} {s : Str} {m : Cursor}
    (h : matchAt r prev s = some m) : m ∈ r.run { caps := [], prev := prev, rest := s } :=
  List.mem_of_mem_head? h

theorem mem_run_eps (m m2 : Cursor) : m2 ∈ Rgx.eps.run m ↔ m2 = m := by
  simp [Rgx.run]

theorem tagRun_openClose (name : Rgx)
    (hname : ∀ m m2, m2 ∈ name.run m → ∃ c w, m.rest = c :: (w ++ m2.rest) ∧ c ≠ '>')
    (m0 m : Cursor) (h : m ∈ (rgxOpenClose name).run m0) : tagRunAt m0.rest = true := by
  have hdef : rgxOpenClose name = .seq (.chr '<') (.seq (.alt (.chr '/') .eps)
      (.seq name (.seq (.star notGt) (.chr '>')))) := rfl
  rw [hdef] at h
  simp only [mem_run_seq, mem_run_chr, mem_run_alt, mem_run_star, mem_run_eps] at h
  obtain ⟨m1, ⟨r1, h1, rfl⟩, m2, hslash, m3, hn, m4, ⟨tk, r4, h4, -, rfl⟩, r5, h5, -⟩ := h
  obtain ⟨c, w, hw, hc⟩ := hname m2 m3 hn
  simp only at h4 h5
  rw [h4, h5] at hw
  rcases hslash with ⟨r2, h2, rfl⟩ | he
  · simp only at h2 hw
    rw [h1, h2, hw]
    have := tagRunAt_intro '/' (c :: (w ++ tk)) r5 (by decide)
    simpa using this
  · subst he
    simp only at hw
    rw [h1, hw]
    have := tagRunAt_intro c (w ++ tk) r5 hc
    simpa using this

theorem name_str (n : Str) (c : Char) (w : Str) (hn : n = c :: w) (hc : c ≠ '>') :
    ∀ m m2, m2 ∈ (Rgx.str n).run m → ∃ c w, m.rest = c :: (w ++ m2.rest) ∧ c ≠ '>' := by
  intro m m2 h
  rw [mem_run_str] at h
  obtain ⟨xs, h1, rfl⟩ := h
  exact ⟨c, w, by simp [h1, hn], hc⟩

theorem name_two (a : Char) (p : Char → Bool) (ha : a ≠ '>') :
    ∀ m m2, m2 ∈ (Rgx.seq (.chr a) (.cls p)).run m
      → ∃ c w, m.rest = c :: (w ++ m2.rest) ∧ c ≠ '>' := by
  intro m m2 h
  simp only [mem_run_seq, mem_run_chr, mem_run_cls] at h
  obtain ⟨m1, ⟨xs, h1, rfl⟩, d, ys, h2, -, rfl⟩ := h
  simp only at h2
  exact ⟨a, [d], by simp [h1, h2], ha⟩

theorem tagRun_of_match (r : Rgx) (hr : r ∈ rgxLink :: rgxAllTags :: structuralRgx)
    (m0 m : Cursor) (h : m ∈ r.run m0) : tagRunAt m0.rest = true := by
  simp only [structuralRgx, List.mem_cons, List.mem_singleton, List.not_mem_nil, or_false] at hr
  rcases hr with rfl | rfl | rfl | rfl | rfl | rfl | rfl | rfl | rfl | rfl | rfl | rfl | rfl
  · -- rgxLink
    have hdef : rgxLink = .seq (Rgx.str "<a".toList) (.seq (.star notGt)
        (.seq (Rgx.str "href=".toList) (.seq (.cls isQuote) (.seq (.group 1 (.star notQuote))
          (.seq (.cls isQuote) (.seq (.star notGt) (.seq (.chr '>')
            (.seq (.group 2 (.star notLt)) (Rgx.str "</a>".toList))))))))) := rfl
    rw [hdef] at h
    simp only [mem_run_seq, mem_run_chr, mem_run_cls, mem_run_star, mem_run_str,
      mem_run_group] at h
    obtain ⟨m1, ⟨r1, h1, rfl⟩, m2, ⟨a1, r2, h2, ha1, rfl⟩, m3, ⟨r3, h3, rfl⟩, m4,
      ⟨q1, r4, h4, hq1, rfl⟩, m5, ⟨m5', ⟨g1, r5, h5, hg1, rfl⟩, rfl⟩, m6,
      ⟨q2, r6, h6, hq2, rfl⟩, m7, ⟨b, r7, h7, hb, rfl⟩, m8, ⟨r8, h8, rfl⟩, m9,
      ⟨m9', ⟨g2, r9, h9, hg2, rfl⟩, rfl⟩, r10, h10, rfl⟩ := h
    simp only at h1 h2 h3 h4 h5 h6 h7 h8 h9 h10
    rw [h1, h2, h3, h4, h5, h6, h7, h8]
    have := tagRunAt_intro 'a' (a1 ++ ("href=".toList ++ q1 :: (g1 ++ q2 :: b))) r8 (by decide)
    simpa using this
  · -- rgxAllTags
    have hdef : rgxAllTags = .seq (.chr '<') (.seq (.cls notGt) (.seq (.star notGt) (.chr '>'))) :=
      rfl
    rw [hdef] at h
    simp only [mem_run_seq, mem_run_chr, mem_run_cls, mem_run_star] at h
    obtain ⟨m1, ⟨r1, h1, rfl⟩, m2, ⟨c, r2, h2, hc, rfl⟩, m3, ⟨tk, r3, h3, -, rfl⟩, r4, h4, -⟩ := h
    simp only at h2 h3 h4
    rw [h1, h2, h3, h4]
    exact tagRunAt_intro c tk r4 (by simpa [notGt] using hc)
  · -- rgxBr
    have hdef : rgxBr = .seq (Rgx.str "<br".toList) (.seq (.star isReSpace)
        (.seq (.alt (.chr '/') .eps) (.chr '>'))) := rfl
    rw [hdef] at h
    simp only [mem_run_seq, mem_run_chr, mem_run_alt, mem_run_star, mem_run_str,
      mem_run_eps] at h
    obtain ⟨m1, ⟨r1, h1, rfl⟩, m2, ⟨ws, r2, h2, -, rfl⟩, m3, hslash, r4, h4, -⟩ := h
    simp only at h2
    rcases hslash with ⟨r3, h3, rfl⟩ | he
    · simp only at h3 h4
      rw [h1, h2, h3, h4]
      have := tagRunAt_intro 'b' ('r' :: (ws ++ ['/'])) r4 (by decide)
      simpa using this
    · subst he
      simp only at h4
      rw [h1, h2, h4]
      have := tagRunAt_intro 'b' ('r' :: ws) r4 (by decide)
      simpa using this
  · exact tagRun_openClose _ (name_str _ 'p' [] rfl (by decide)) m0 m h
  · exact tagRun_openClose _ (name_str _ 'd' "iv".toList rfl (by decide)) m0 m h
  · exact tagRun_openClose _ (name_two 'h' _ (by decide)) m0 m h
  · exact tagRun_openClose _ (name_str _ 't' "able".toList rfl (by decide)) m0 m h
  · exact tagRun_openClose _ (name_str _ 't' "r".toList rfl (by decide)) m0 m h
  · exact tagRun_openClose _ (name_two 't' _ (by decide)) m0 m h
  · exact tagRun_openClose _ (name_str _ 'u' "l".toList rfl (by decide)) m0 m h
  · exact tagRun_openClose _ (name_str _ 'o' "l".toList rfl (by decide)) m0 m h
  · -- rgxLi
    have hdef : rgxLi = .seq (Rgx.str "<li".toList) (.seq (.star notGt) (.chr '>')) := rfl
    rw [hdef] at h
    simp only [mem_run_seq, mem_run_chr, mem_run_star, mem_run_str] at h
    obtain ⟨m1, ⟨r1, h1, rfl⟩, m2, ⟨tk, r2, h2, -, rfl⟩, r3, h3, -⟩ := h
    simp only at h2 h3
    rw [h1, h2, h3]
    have := tagRunAt_intro 'l' ('i' :: tk) r3 (by decide)
    simpa using this
  · -- rgxLiEnd
    rw [show rgxLiEnd = Rgx.str "</li>".toList from rfl, mem_run_str] at h
    obtain ⟨xs, h1, -⟩ := h
    rw [h1]
    have := tagRunAt_intro '/' "li".toList xs (by decide)
    simpa using this

theorem replaceFrom_noTagRun (r : Rgx) (hr : r ∈ rgxLink :: rgxAllTags :: structuralRgx)
    (repl : Cursor → Str) (s : Str) (h : hasTagRun s = false) (prev : Option Char) :
    replaceFrom r repl 0 prev s = s := by
  induction s generalizing prev with
  | nil => rfl
  | cons c rest ih =>
    rw [hasTagRun, Bool.or_eq_false_iff] at h
    have hm : matchAt r prev (c :: rest) = none := by
      cases hm : matchAt r prev (c :: rest) with
      | none => rfl
      | some m =>
        have := tagRun_of_match r hr _ m (mem_of_matchAt hm)
        simp only at this
        rw [h.1] at this
        cases this
    rw [replaceFrom_noMatch _ _ _ _ _ hm, ih h.2]

/-! ## What a replacement can put into a text -/

theorem replaceFrom_forall (r : Rgx) (repl : Cursor → Str) (P : Char → Prop)
    (hrepl : ∀ prev s m, matchAt r prev s = some m → (∀ c ∈ s, P c) → ∀ c ∈ repl m, P c)
    (s : Str) (hs : ∀ c ∈ s, P c) (k : Nat) (prev : Option Char) :
    ∀ c ∈ replaceFrom r repl k prev s, P c := by
  induction s generalizing k prev with
  | nil => simp [replaceFrom]
  | cons x rest ih =>
    have hrest : ∀ c ∈ rest, P c := fun c hc => hs c (List.mem_cons_of_mem _ hc)
    cases k with
    | succ k =>
      rw [replaceFrom]
      exact ih hrest k (some x)
    | zero =>
      rw [replaceFrom]
      cases hm : matchAt r prev (x :: rest) with
      | none =>
        intro c hc
        rcases List.mem_cons.mp hc with h | h
        · exact h ▸ hs x (List.mem_cons_self _ _)
        · exact ih hrest 0 (some x) c h
      | some m =>
        simp only
        split
        · intro c hc
          rcases List.mem_cons.mp hc with h | h
          · exact h ▸ hs x (List.mem_cons_self _ _)
          · exact ih hrest 0 (some x) c h
        · intro c hc
          rcases List.mem_append.mp hc with h | h
          · exact hrepl prev _ m hm hs c h
          · exact ih hrest _ (some x) c h

theorem replaceFrom_const_forall (r : Rgx) (out : Str) (P : Char → Prop)
    (hout : ∀ c ∈ out, P c) (s : Str) (hs : ∀ c ∈ s, P c) (prev : Option Char) :
    ∀ c ∈ replaceFrom r (fun _ => out) 0 prev s, P c :=
  replaceFrom_forall r _ P (fun _ _ _ _ _ => hout) s hs 0 prev

theorem rgxLink_caps (prev : Option Char) (s : Str) (m : Cursor)
    (h : matchAt rgxLink prev s = some m) (P : Char → Prop) (hs : ∀ c ∈ s, P c) :
    (∀ c ∈ m.cap 1, P c) ∧ ∀ c ∈ m.cap 2, P c := by
  obtain ⟨a1, q1, g1, q2, b, g2, rest, h1, -, -, -, -, -, -, hcaps, -⟩ :=
    mem_run_rgxLink prev s m (mem_of_matchAt h)
  subst h1
  constructor
  · intro c hc
    have : c ∈ g1 := by simpa [Cursor.cap, hcaps] using hc
    exact hs c (by simp [this])
  · intro c hc
    have : c ∈ g2 := by simpa [Cursor.cap, hcaps] using hc
    exact hs c (by simp [this])

theorem processHTMLLinks_forall (P : Char → Prop) (hsp : P ' ') (hl : P '(') (hr : P ')')
    (s : Str) (o : HTMLConvertOptions) (hs : ∀ c ∈ s, P c) :
    ∀ c ∈ processHTMLLinks s o, P c := by
  unfold processHTMLLinks ReplaceAllString
  split
  · apply replaceFrom_forall _ _ P _ s hs
    intro prev s2 m hm hs2 c hc
    obtain ⟨h1, h2⟩ := rgxLink_caps prev s2 m hm P hs2
    simp only [List.mem_append, List.mem_cons, List.mem_singleton, List.not_mem_nil,
      or_false] at hc
    rcases hc with ((h | h | h) | h) | h
    · exact h2 c h
    · exact h ▸ hsp
    · exact h ▸ hl
    · exact h1 c h
    · exact h ▸ hr
  · apply replaceFrom_forall _ _ P _ s hs
    intro prev s2 m hm hs2 c hc
    exact (rgxLink_caps prev s2 m hm P hs2).2 c hc

theorem stages_forall (P : Char → Prop) (hnl : P '\n') (hbul : P '•') (hsp : P ' ')
    (hl : P '(') (hr : P ')') (x : Str) (o : HTMLConvertOptions) (hx : ∀ c ∈ x, P c)
    (hsep : ∀ c ∈ o.TableSeparator, P c) :
    ∀ c ∈ ReplaceAllString rgxAllTags
        (processHTMLLinks (processHTMLLists (processHTMLTables (processHTMLStructure x) o) o) o)
        (fun _ => []), P c := by
  have hn : ∀ c ∈ ['\n'], P c := by simpa using hnl
  have h1 : ∀ c ∈ processHTMLStructure x, P c := by
    unfold processHTMLStructure ReplaceAllString
    exact replaceFrom_const_forall _ _ P hn _ (replaceFrom_const_forall _ _ P hn _
      (replaceFrom_const_forall _ _ P hn _ (replaceFrom_const_forall _ _ P hn _ hx _) _) _) _
  have h2 : ∀ c ∈ processHTMLTables (processHTMLStructure x) o, P c := by
    unfold processHTMLTables ReplaceAllString
    exact replaceFrom_const_forall _ _ P hsep _ (replaceFrom_const_forall _ _ P hn _
      (replaceFrom_const_forall _ _ P hn _ h1 _) _) _
  have h3 : ∀ c ∈ processHTMLLists (processHTMLTables (processHTMLStructure x) o) o, P c := by
    unfold processHTMLLists ReplaceAllString
    apply replaceFrom_const_forall _ _ P (by simp)
    have h4 := replaceFrom_const_forall rgxOl _ P hn _
      (replaceFrom_const_forall rgxUl _ P hn _ h2 none) none
    split
    · exact replaceFrom_const_forall _ _ P (by simp [hnl, hbul, hsp]) _ h4 _
    · exact replaceFrom_const_forall _ _ P hn _ h4 _
  have h5 := processHTMLLinks_forall P hsp hl hr _ o h3
  exact replaceFrom_const_forall _ _ P (by simp) _ h5 _

/-! ## No tag run is left by `rgxAllTags` -/

theorem tagRunAt_eq_true (s : Str) (h : tagRunAt s = true) :
    ∃ c tk tail, s = '<' :: c :: (tk ++ '>' :: tail) ∧ c ≠ '>' ∧ '>' ∉ tk := by
  match s, h with
  | a :: c :: rest, h =>
    simp only [tagRunAt, Bool.and_eq_true, beq_iff_eq, bne_iff_ne, ne_eq,
      decide_eq_true_eq] at h
    obtain ⟨⟨rfl, hc⟩, hmem⟩ := h
    obtain ⟨tk, tail, h1, h2⟩ := List.eq_append_cons_of_mem hmem
    exact ⟨c, tk, tail, by rw [h1], hc, h2⟩

theorem matchAt_rgxAllTags_of_tagRun (prev : Option Char) (s : Str) (h : tagRunAt s = true) :
    ∃ a m, a ≠ [] ∧ s = a ++ m.rest ∧ matchAt rgxAllTags prev s = some m := by
  obtain ⟨c, tk, tail, rfl, hc, htk⟩ := tagRunAt_eq_true s h
  refine ⟨'<' :: c :: (tk ++ ['>']), { caps := [], prev := some '>', rest := tail },
    by simp, by simp, ?_⟩
  exact matchAt_rgxHtml_token prev c tk tail hc (fun x hx e => htk (e ▸ hx))

theorem matchAt_rgxAllTags_none (prev : Option Char) (s : Str) (h : tagRunAt s = false) :
    matchAt rgxAllTags prev s = none := by
  cases hm : matchAt rgxAllTags prev s with
  | none => rfl
  | some m =>
    have := tagRun_of_match rgxAllTags (by simp) _ m (mem_of_matchAt hm)
    simp only at this
    rw [h] at this
    cases this

theorem tagRunAt_cons_false (x : Char) (s : Str) (h : tagRunAt (x :: s) = false)
    (o : Str) (ho : ∀ c, c ∈ o → c ∈ s) (hh : ∀ c ∈ s.head?, c = '>' → o.head? = some '>') :
    tagRunAt (x :: o) = false := by
  cases o with
  | nil => rfl
  | cons c2 o2 =>
    cases s with
    | nil => exact absurd (ho c2 (List.mem_cons_self _ _)) (by simp)
    | cons d r2 =>
      simp only [tagRunAt, Bool.and_eq_false_imp, decide_eq_false_iff_not] at h ⊢
      intro hx hmem
      simp only [Bool.and_eq_true, beq_iff_eq, bne_iff_ne, ne_eq] at hx h
      by_cases hd : d = '>'
      · have := hh d (by simp) hd
        simp only [List.head?_cons, Option.some.injEq] at this
        exact hx.2 this
      · have h1 := h ⟨hx.1, hd⟩
        have h2 := ho '>' (List.mem_cons_of_mem _ hmem)
        rcases List.mem_cons.mp h2 with e | e
        · exact hd e.symm
        · exact h1 e

theorem allTags_noTagRun (n : Nat) : ∀ (s : Str) (prev : Option Char), s.length ≤ n →
    hasTagRun (replaceFrom rgxAllTags (fun _ => []) 0 prev s) = false := by
  induction n with
  | zero =>
    intro s prev hs
    have : s = [] := List.length_eq_zero.mp (by omega)
    subst this
    rfl
  | succ k ih =>
    intro s prev hs
    cases s with
    | nil => rfl
    | cons x rest =>
      have hr : rest.length ≤ k := by simp only [List.length_cons] at hs; omega
      cases ht : tagRunAt (x :: rest) with
      | true =>
        obtain ⟨a, m, ha, hsplit, hm⟩ := matchAt_rgxAllTags_of_tagRun prev _ ht
        rw [hsplit] at hm ⊢
        rw [replaceFrom_match _ _ _ _ m ha hm]
        simp only [List.nil_append]
        apply ih
        have hlen : (x :: rest).length = a.length + m.rest.length := by
          rw [hsplit, List.length_append]
        have : 0 < a.length := List.length_pos.mpr ha
        simp only [List.length_cons] at hlen
        omega
      | false =>
        rw [replaceFrom_noMatch _ _ _ _ _ (matchAt_rgxAllTags_none prev _ ht), hasTagRun,
          ih rest _ hr, Bool.or_false]
        apply tagRunAt_cons_false x rest ht
        · intro c hc
          by_contra hne
          exact replaceFrom_const_forall rgxAllTags [] (fun y => y ≠ c) (by simp) rest
            (fun y hy e => hne (e ▸ hy)) (some x) c hc rfl
        · intro c hc hgt
          cases rest with
          | nil => simp at hc
          | cons d r2 =>
            simp only [List.head?_cons, Option.mem_def, Option.some.injEq] at hc
            subst hc
            subst hgt
            rw [replaceFrom_noMatch _ _ _ _ _ (matchAt_tag_ne rgxAllTags (by simp) _ _ _
              (by decide))]
            rfl

/-! ## Tag runs and parts of a text -/

theorem tagRunAt_append (s q : Str) (h : tagRunAt s = true) : tagRunAt (s ++ q) = true := by
  obtain ⟨c, tk, tail, rfl, hc, -⟩ := tagRunAt_eq_true s h
  have := tagRunAt_intro c tk (tail ++ q) hc
  simpa using this

theorem hasTagRun_append_right (s q : Str) (h : hasTagRun s = true) :
    hasTagRun (s ++ q) = true := by
  induction s with
  | nil => simp [hasTagRun] at h
  | cons c rest ih =>
    rw [hasTagRun, Bool.or_eq_true] at h
    rw [List.cons_append, hasTagRun, Bool.or_eq_true]
    rcases h with h | h
    · left
      have := tagRunAt_append (c :: rest) q h
      simpa using this
    · exact Or.inr (ih h)

theorem hasTagRun_append_left (p s : Str) (h : hasTagRun s = true) :
    hasTagRun (p ++ s) = true := by
  induction p with
  | nil => exact h
  | cons c rest ih =>
    rw [List.cons_append, hasTagRun, ih, Bool.or_true]

theorem hasTagRun_within (a b : Str) (hab : a <:+: b) (h : hasTagRun a = true) :
    hasTagRun b = true := by
  obtain ⟨p, q, rfl⟩ := hab
  rw [List.append_assoc]
  exact hasTagRun_append_left p _ (hasTagRun_append_right a q h)

/-! ## The collapse of the blank lines keeps a text free of tag runs -/

theorem collapse_head (n : Nat) : ∀ (s : Str) (prev : Option Char), s.length ≤ n →
    (replaceFrom rgxMultiNewlines (fun _ => ['\n', '\n']) 0 prev s).head? = s.head? := by
  intro s prev _
  cases s with
  | nil => rfl
  | cons c rest =>
    by_cases hc : c = '\n'
    · subst hc
      cases h : afterLastNL rest with
      | none => rw [collapse_single _ _ _ h]; rfl
      | some r =>
        obtain ⟨m, prev2, e⟩ := collapse_run (fun _ => ['\n', '\n']) prev rest r h
        rw [e]
        rfl
    · rw [collapse_ne _ _ _ _ hc]
      rfl

theorem collapse_mem (s : Str) (prev : Option Char) (c : Char) (hc : c ≠ '\n')
    (h : c ∈ replaceFrom rgxMultiNewlines (fun _ => ['\n', '\n']) 0 prev s) : c ∈ s := by
  by_contra hne
  have hout : ∀ y ∈ ['\n', '\n'], y ≠ c := by
    intro y hy e
    subst e
    simp at hy
    exact hc hy
  exact replaceFrom_const_forall rgxMultiNewlines ['\n', '\n'] (fun y => y ≠ c)
    hout s (fun y hy e => hne (e ▸ hy)) prev c h rfl

theorem hasTagRun_cons_ne (c : Char) (s : Str) (hc : c ≠ '<') :
    hasTagRun (c :: s) = hasTagRun s := by
  have : tagRunAt (c :: s) = false := by
    cases s with
    | nil => rfl
    | cons d r => simp [tagRunAt, hc]
  rw [hasTagRun, this, Bool.false_or]

theorem collapse_tagRun (n : Nat) : ∀ (s : Str) (prev : Option Char), s.length ≤ n →
    hasTagRun (replaceFrom rgxMultiNewlines (fun _ => ['\n', '\n']) 0 prev s) = true →
    hasTagRun s = true := by
  induction n with
  | zero =>
    intro s prev hs h
    have : s = [] := List.length_eq_zero.mp (by omega)
    subst this
    exact h
  | succ k ih =>
    intro s prev hs h
    cases s with
    | nil => exact h
    | cons c rest =>
      have hr : rest.length ≤ k := by simp only [List.length_cons] at hs; omega
      by_cases hc : c = '\n'
      · subst hc
        cases ha : afterLastNL rest with
        | none =>
          rw [collapse_single _ _ _ ha, hasTagRun_cons_ne _ _ (by decide)] at h
          rw [hasTagRun_cons_ne _ _ (by decide)]
          exact ih rest _ hr h
        | some r =>
          obtain ⟨m, prev2, e⟩ := collapse_run (fun _ => ['\n', '\n']) prev rest r ha
          obtain ⟨⟨w, hw⟩, -⟩ := afterLastNL_eq_some rest r ha
          rw [e] at h
          have h2 : hasTagRun (replaceFrom rgxMultiNewlines (fun _ => ['\n', '\n']) 0 prev2 r)
              = true := by
            simp only [List.cons_append, List.nil_append] at h
            rw [hasTagRun_cons_ne _ _ (by decide), hasTagRun_cons_ne _ _ (by decide)] at h
            exact h
          have hlen : r.length ≤ k := by
            rw [hw] at hr
            simp only [List.length_append, List.length_cons] at hr
            omega
          have h3 := ih r prev2 hlen h2
          have : '\n' :: rest = ('\n' :: (w ++ ['\n'])) ++ r := by simp [hw]
          rw [this]
          exact hasTagRun_append_left _ _ h3
      · rw [collapse_ne _ _ _ _ hc, hasTagRun, Bool.or_eq_true] at h
        rw [hasTagRun, Bool.or_eq_true]
        rcases h with h | h
        · left
          obtain ⟨c2, tk, tail, h1, hc2, -⟩ := tagRunAt_eq_true _ h
          simp only [List.cons.injEq] at h1
          obtain ⟨rfl, h1⟩ := h1
          have hhead := collapse_head _ rest (some '<') (le_refl _)
          rw [h1] at hhead
          cases rest with
          | nil => simp at hhead
          | cons d r2 =>
            simp only [List.head?_cons, Option.some.injEq] at hhead
            subst hhead
            have hmem : '>' ∈ c2 :: r2 := by
              apply collapse_mem _ (some '<') '>' (by decide)
              rw [h1]
              simp
            have hmem2 : '>' ∈ r2 := by
              rcases List.mem_cons.mp hmem with e | e
              · exact absurd e.symm hc2
              · exact e
            simp [tagRunAt, hc2, hmem2]
        · exact Or.inr (ih rest _ hr h)

/-! ## The collapse of the blank lines is settled after one pass -/

theorem blankAhead_collapse (s : Str) (prev : Option Char) (h : blankAhead s = false) :
    blankAhead (replaceFrom rgxMultiNewlines (fun _ => ['\n', '\n']) 0 prev s) = false := by
  induction s generalizing prev with
  | nil => rfl
  | cons x xs ih =>
    have hx : x ≠ '\n' := by
      intro e
      subst e
      simp [blankAhead, isReSpace] at h
    rw [collapse_ne _ _ _ _ hx]
    rw [blankAhead] at h ⊢
    by_cases hs : isReSpace x = true
    · simp only [hs, Bool.true_and, Bool.or_eq_false_iff] at h ⊢
      exact ⟨h.1, ih _ h.2⟩
    · simp [hs]

theorem blankLinesCollapsed_settled (o : Str) (h : blankAhead o = false) :
    blankLinesCollapsed ('\n' :: o) = blankLinesCollapsed o := by
  rw [blankLinesCollapsed_cons]
  cases o with
  | nil => rfl
  | cons x r2 =>
    rw [blankAhead] at h
    by_cases hs : isReSpace x = true
    · simp only [hs, Bool.true_and, Bool.or_eq_false_iff] at h
      simp [h.2]
    · simp [hs]

theorem collapse_collapsed (n : Nat) : ∀ (s : Str) (prev : Option Char), s.length ≤ n →
    blankLinesCollapsed (replaceFrom rgxMultiNewlines (fun _ => ['\n', '\n']) 0 prev s)
      = true := by
  induction n with
  | zero =>
    intro s prev hs
    have : s = [] := List.length_eq_zero.mp (by omega)
    subst this
    rfl
  | succ k ih =>
    intro s prev hs
    cases s with
    | nil => rfl
    | cons c rest =>
      have hr : rest.length ≤ k := by simp only [List.length_cons] at hs; omega
      by_cases hc : c = '\n'
      · subst hc
        cases ha : afterLastNL rest with
        | none =>
          rw [collapse_single _ _ _ ha, blankLinesCollapsed_settled _
            (blankAhead_collapse rest _ ((afterLastNL_eq_none _).mp ha))]
          exact ih rest _ hr
        | some r =>
          obtain ⟨m, prev2, e⟩ := collapse_run (fun _ => ['\n', '\n']) prev rest r ha
          obtain ⟨⟨w, hw⟩, hb⟩ := afterLastNL_eq_some rest r ha
          have hlen : r.length ≤ k := by
            rw [hw] at hr
            simp only [List.length_append, List.length_cons] at hr
            omega
          have hb2 := blankAhead_collapse r prev2 hb
          rw [e]
          simp only [List.cons_append, List.nil_append]
          rw [blankLinesCollapsed_cons, blankLinesCollapsed_settled _ hb2, ih r _ hlen]
          simp [hb2]
      · rw [collapse_ne _ _ _ _ hc, blankLinesCollapsed_cons, ih rest _ hr]
        simp [hc]

theorem blankAhead_append (s q : Str) (h : blankAhead s = true) :
    blankAhead (s ++ q) = true := by
  induction s with
  | nil => simp [blankAhead] at h
  | cons x xs ih =>
    rw [blankAhead, Bool.and_eq_true, Bool.or_eq_true] at h
    rw [List.cons_append, blankAhead, Bool.and_eq_true, Bool.or_eq_true]
    exact ⟨h.1, h.2.imp id ih⟩

theorem blankLinesCollapsed_left (a q : Str) (h : blankLinesCollapsed (a ++ q) = true) :
    blankLinesCollapsed a = true := by
  induction a with
  | nil => rfl
  | cons c rest ih =>
    rw [List.cons_append, blankLinesCollapsed_cons, Bool.and_eq_true] at h
    rw [blankLinesCollapsed_cons, Bool.and_eq_true]
    refine ⟨?_, ih h.2⟩
    cases rest with
    | nil => simp
    | cons x r2 =>
      have h1 := h.1
      simp only [List.cons_append, Bool.or_eq_true, bne_iff_ne, ne_eq, Bool.not_eq_true',
        Bool.and_eq_false_imp] at h1 ⊢
      rcases h1 with h1 | h1
      · exact Or.inl h1
      · right
        intro hx
        have := h1 hx
        cases hb : blankAhead r2 with
        | false => rfl
        | true => rw [blankAhead_append r2 q hb] at this; cases this

theorem blankLinesCollapsed_right (p a : Str) (h : blankLinesCollapsed (p ++ a) = true) :
    blankLinesCollapsed a = true := by
  induction p with
  | nil => exact h
  | cons c rest ih =>
    rw [List.cons_append, blankLinesCollapsed_cons, Bool.and_eq_true] at h
    exact ih h.2

theorem blankLinesCollapsed_within (a b : Str) (hab : a <:+: b)
    (h : blankLinesCollapsed b = true) : blankLinesCollapsed a = true := by
  obtain ⟨p, q, rfl⟩ := hab
  rw [List.append_assoc] at h
  exact blankLinesCollapsed_left a q (blankLinesCollapsed_right p _ h)

/-! ## `strings.TrimSpace` twice -/

theorem head?_dropWhile (p : Char → Bool) (s : Str) : ∀ c ∈ (s.dropWhile p).head?, p c = false := by
  induction s with
  | nil => simp
  | cons x xs ih =>
    rw [List.dropWhile_cons]
    by_cases hx : p x = true
    · rw [if_pos hx]
      exact ih
    · rw [if_neg hx]
      intro c hc
      simp only [List.head?_cons, Option.mem_def, Option.some.injEq] at hc
      subst hc
      simpa using hx

theorem TrimSpace_idem (s : Str) : TrimSpace (TrimSpace s) = TrimSpace s := by
  by_cases h0 : TrimSpace s = []
  · rw [h0]
    rfl
  · have hl : ∀ c ∈ (TrimSpace s).getLast?, isSpace c = false := by
      unfold TrimSpace
      rw [List.getLast?_reverse]
      exact head?_dropWhile isSpace _
    have hh : ∀ c ∈ (TrimSpace s).head?, isSpace c = false := by
      have hpre : TrimSpace s <+: s.dropWhile isSpace := by
        unfold TrimSpace
        have h3 : ((s.dropWhile isSpace).reverse).dropWhile isSpace
            <:+ (s.dropWhile isSpace).reverse :=
          List.dropWhile_suffix isSpace
        rw [← List.reverse_prefix] at h3
        simpa using h3
      obtain ⟨q, hq⟩ := hpre
      obtain ⟨x, r, hx⟩ := List.exists_cons_of_ne_nil h0
      intro c hc
      apply head?_dropWhile isSpace s c
      rw [← hq, hx]
      rw [hx] at hc
      simpa using hc
    have := TrimSpace_strip [] (TrimSpace s) [] (by simp) (by simp) hh hl h0
    simpa using this

/-! ## The conversion of a text without tag run -/

theorem convertHTMLToText_of_noTagRun (unescape : Str → Str) (x : Str)
    (o : HTMLConvertOptions) (hx : hasTagRun x = false) (hun : unescape x = x) :
    convertHTMLToText unescape x o
      = TrimSpace (ReplaceAllString rgxMultiNewlines x (fun _ => ['\n', '\n'])) := by
  have h : ∀ r ∈ rgxLink :: rgxAllTags :: structuralRgx, ∀ repl,
      ReplaceAllString r x repl = x :=
    fun r hr repl => replaceFrom_noTagRun r hr repl x hx none
  have hl : processHTMLLinks x o = x := by
    unfold processHTMLLinks
    split <;> exact h rgxLink (by simp) _
  unfold convertHTMLToText processHTMLStructure processHTMLTables processHTMLLists cleanupText
  simp only [h rgxBr (by simp [structuralRgx]), h rgxP (by simp [structuralRgx]),
    h rgxDiv (by simp [structuralRgx]), h rgxHeading (by simp [structuralRgx]),
    h rgxTable (by simp [structuralRgx]), h rgxTr (by simp [structuralRgx]),
    h rgxTd (by simp [structuralRgx]), h rgxUl (by simp [structuralRgx]),
    h rgxOl (by simp [structuralRgx]), h rgxLi (by simp [structuralRgx]),
    h rgxLiEnd (by simp [structuralRgx]), ite_self, hl, h rgxAllTags (by simp), hun]

/-- C13 (counterexample): the text `a &amp; b` holds no tag run and is left as
it is by the trimming and the collapse of the blank lines, yet the conversion
returns `a & b`: the character reference is decoded. -/
theorem convertHTMLToText_decodes_entity :
    hasTagRun "a &amp; b".toList = false
      ∧ TrimSpace (ReplaceAllString rgxMultiNewlines "a &amp; b".toList (fun _ => ['\n', '\n']))
        = "a &amp; b".toList
      ∧ convertHTMLToText UnescapeString "a &amp; b".toList defaultOptions = "a & b".toList := by
  decide

/-- C13 (as amended): for every text `x` that holds no tag run (no `<`
followed by a rune other than `>` and, further on, a `>`) and that the decoder
of the entities leaves as it is, as it does a text without `&`, and for every
options value, `convertHTMLToText` returns `x` with the blank lines collapsed
(each match of `\n\s*\n` replaced by two line breaks) and the white space at
its ends trimmed, nothing else being changed; when the blank lines of `x` are
collapsed already and `x` has no white space at its ends, it returns `x`. -/
theorem convertHTMLToText_no_tag (unescape : Str → Str) (x : Str) (o : HTMLConvertOptions)
    (hx : hasTagRun x = false) (hun : unescape x = x) :
    convertHTMLToText unescape x o
        = TrimSpace (ReplaceAllString rgxMultiNewlines x (fun _ => ['\n', '\n']))
      ∧ (blankLinesCollapsed x = true → (∀ c ∈ x.head?, isSpace c = false)
          → (∀ c ∈ x.getLast?, isSpace c = false) → convertHTMLToText unescape x o = x) := by
  have h := convertHTMLToText_of_noTagRun unescape x o hx hun
  refine ⟨h, ?_⟩
  intro hb hh hl
  rw [h, show ReplaceAllString rgxMultiNewlines x (fun _ => ['\n', '\n']) = x from
    collapse_id _ x none (le_refl _) hb]
  by_cases h0 : x = []
  · subst h0
    rfl
  · have := TrimSpace_strip [] x [] (by simp) (by simp) hh hl h0
    simpa using this

theorem convertHTMLToText_no_tag_witness :
    convertHTMLToText UnescapeString " a <> b\n \n\nc ".toList defaultOptions
        = TrimSpace (ReplaceAllString rgxMultiNewlines " a <> b\n \n\nc ".toList
            (fun _ => ['\n', '\n']))
      ∧ (blankLinesCollapsed " a <> b\n \n\nc ".toList = true
          → (∀ c ∈ " a <> b\n \n\nc ".toList.head?, isSpace c = false)
          → (∀ c ∈ " a <> b\n \n\nc ".toList.getLast?, isSpace c = false)
          → convertHTMLToText UnescapeString " a <> b\n \n\nc ".toList defaultOptions
            = " a <> b\n \n\nc ".toList) :=
  convertHTMLToText_no_tag UnescapeString " a <> b\n \n\nc ".toList defaultOptions
    (by decide) (by decide)

/-! ## The conversion applied twice -/

/-- C12 (counterexample): the conversion of `x &lt;b&gt; y` is `x <b> y`, which
holds a tag, and the conversion of that text is `x  y`, a different text: the
entities are decoded after the tags are removed, so a decoded entity can leave
a tag that a second pass removes. -/
theorem convertHTMLToText_not_idempotent :
    convertHTMLToText UnescapeString "x &lt;b&gt; y".toList defaultOptions = "x <b> y".toList
      ∧ hasTagRun "x <b> y".toList = true
      ∧ convertHTMLToText UnescapeString "x <b> y".toList defaultOptions = "x  y".toList := by
  decide

/-- C12 (as amended): for every input `x` without `&` and every options value
whose table separator holds no `&` and no `$`, so that no entity is decoded
and the separator is inserted as it is, the converted text holds no tag run
and converting it again returns it unchanged. The decoder is taken to return a
text without `&` as it is, as `html.UnescapeString` does. -/
theorem convertHTMLToText_idempotent (unescape : Str → Str)
    (hun : ∀ s, '&' ∉ s → unescape s = s) (x : Str) (o : HTMLConvertOptions)
    (hx : '&' ∉ x) (hsep : ∀ c ∈ o.TableSeparator, c ≠ '&' ∧ c ≠ '$') :
    hasTagRun (convertHTMLToText unescape x o) = false
      ∧ convertHTMLToText unescape (convertHTMLToText unescape x o) o
        = convertHTMLToText unescape x o := by
  have hTamp : ∀ c ∈ ReplaceAllString rgxAllTags
      (processHTMLLinks (processHTMLLists (processHTMLTables (processHTMLStructure x) o) o) o)
      (fun _ => []), c ≠ '&' :=
    stages_forall (fun c => c ≠ '&') (by decide) (by decide) (by decide) (by decide)
      (by decide) x o (fun c hc e => hx (e ▸ hc)) (fun c hc => (hsep c hc).1)
  have hTtag : hasTagRun (ReplaceAllString rgxAllTags
      (processHTMLLinks (processHTMLLists (processHTMLTables (processHTMLStructure x) o) o) o)
      (fun _ => [])) = false :=
    allTags_noTagRun _ _ none (le_refl _)
  have hconv : convertHTMLToText unescape x o
      = TrimSpace (ReplaceAllString rgxMultiNewlines (ReplaceAllString rgxAllTags
          (processHTMLLinks (processHTMLLists (processHTMLTables (processHTMLStructure x) o) o)
            o) (fun _ => [])) (fun _ => ['\n', '\n'])) := by
    unfold convertHTMLToText cleanupText
    simp only
    rw [hun _ (fun h => hTamp _ h rfl)]
  generalize ReplaceAllString rgxAllTags
      (processHTMLLinks (processHTMLLists (processHTMLTables (processHTMLStructure x) o) o) o)
      (fun _ => []) = T at hTamp hTtag hconv
  have hCtag : hasTagRun (ReplaceAllString rgxMultiNewlines T (fun _ => ['\n', '\n']))
      = false := by
    cases h : hasTagRun (ReplaceAllString rgxMultiNewlines T (fun _ => ['\n', '\n'])) with
    | false => rfl
    | true =>
      rw [collapse_tagRun _ T none (le_refl _) h] at hTtag
      cases hTtag
  have hytag : hasTagRun (TrimSpace (ReplaceAllString rgxMultiNewlines T
      (fun _ => ['\n', '\n']))) = false := by
    cases h : hasTagRun (TrimSpace (ReplaceAllString rgxMultiNewlines T
        (fun _ => ['\n', '\n']))) with
    | false => rfl
    | true =>
      rw [hasTagRun_within _ _ (TrimSpace_within _) h] at hCtag
      cases hCtag
  have hyamp : '&' ∉ TrimSpace (ReplaceAllString rgxMultiNewlines T (fun _ => ['\n', '\n'])) := by
    intro h
    have h2 := (TrimSpace_within _).subset h
    exact hTamp _ (collapse_mem T none '&' (by decide) h2) rfl
  have hycol : blankLinesCollapsed (TrimSpace (ReplaceAllString rgxMultiNewlines T
      (fun _ => ['\n', '\n']))) = true :=
    blankLinesCollapsed_within _ _ (TrimSpace_within _) (collapse_collapsed _ T none (le_refl _))
  rw [hconv]
  refine ⟨hytag, ?_⟩
  rw [convertHTMLToText_of_noTagRun unescape _ o hytag (hun _ hyamp),
    show ReplaceAllString rgxMultiNewlines (TrimSpace (ReplaceAllString rgxMultiNewlines T
      (fun _ => ['\n', '\n']))) (fun _ => ['\n', '\n'])
      = TrimSpace (ReplaceAllString rgxMultiNewlines T (fun _ => ['\n', '\n'])) from
    collapse_id _ _ none (le_refl _) hycol]
  exact TrimSpace_idem _

theorem convertHTMLToText_idempotent_witness :
    hasTagRun (convertHTMLToText UnescapeString
        "<p>Hello <b>world</b></p>\n\n\n<td>1</td><td>2</td> < a > ".toList defaultOptions) = false
      ∧ convertHTMLToText UnescapeString (convertHTMLToText UnescapeString
          "<p>Hello <b>world</b></p>\n\n\n<td>1</td><td>2</td> < a > ".toList defaultOptions)
          defaultOptions
        = convertHTMLToText UnescapeString
          "<p>Hello <b>world</b></p>\n\n\n<td>1</td><td>2</td> < a > ".toList defaultOptions :=
  convertHTMLToText_idempotent UnescapeString UnescapeString_plain
    "<p>Hello <b>world</b></p>\n\n\n<td>1</td><td>2</td> < a > ".toList defaultOptions
    (by decide) (by decide)

/-! ## The width of the written lines -/

theorem contentRow_width (rw : Char → Nat) (hrw : PanelWidths rw) (p : Printer) (indent : Int)
    (coloured : Seg) (measured : Nat) (hi : 0 ≤ indent)
    (hc : Seg.width rw coloured = measured) (hfit : 4 + indent + (measured : Int) ≤ p.width) :
    (rowWidth rw (contentRow p indent coloured measured) : Int) = p.width := by
  have e1 : stripTags "<dim>".toList = [] := by decide
  have e2 : stripTags "</dim> ".toList = [' '] := by decide
  have e3 : stripTags " <dim>".toList = [' '] := by decide
  have e4 : stripTags "</dim>".toList = [] := by decide
  subst hc
  generalize hm : Seg.width rw coloured = m at hfit ⊢
  have hw : rowWidth rw (contentRow p indent coloured m)
      = 4 + indent.toNat + m + (p.width - 4 - indent - (m : Int)).toNat := by
    simp only [contentRow, rowWidth, List.map_cons, List.map_nil, List.sum_cons, List.sum_nil,
      hm]
    simp only [Seg.width, e1, e2, e3, e4, StringWidth_safeRepeat, StringWidth_cons,
      hrw.vertical, hrw.space]
    simp only [StringWidth, List.map_nil, List.sum_nil]
    omega
  rw [hw]
  omega

theorem titleRow_width (rw : Char → Nat) (hrw : PanelWidths rw) (p : Printer)
    (left right : Char) (hl : rw left = 1) (hr : rw right = 1) (heading : Str)
    (hfit : 7 + (StringWidth rw heading : Int) ≤ p.width) :
    (rowWidth rw (titleRow rw p left right heading) : Int) = p.width := by
  have e1 : stripTags "<dim>".toList = [] := by decide
  have e4 : stripTags "</dim>".toList = [] := by decide
  have e5 : stripTags "</dim> <bold>".toList = [' '] := by decide
  have e6 : stripTags "</bold> <dim>".toList = [' '] := by decide
  have hw : rowWidth rw (titleRow rw p left right heading)
      = 7 + StringWidth rw heading + (p.width - 7 - (StringWidth rw heading : Int)).toNat := by
    simp only [titleRow, rowWidth, List.map_cons, List.map_nil, List.sum_cons, List.sum_nil,
      Seg.width, e1, e4, e5, e6, StringWidth_cons, StringWidth_safeRepeat, hrw.horizontal,
      hrw.rightT, hrw.leftT, hrw.space, hl, hr]
    simp only [StringWidth, List.map_nil, List.sum_nil]
    omega
  rw [hw]
  omega

theorem footerRow_width (rw : Char → Nat) (hrw : PanelWidths rw) (p : Printer)
    (hW : 2 ≤ p.width) : (rowWidth rw (footerRow p) : Int) = p.width := by
  have e1 : stripTags "<dim>".toList = [] := by decide
  have e4 : stripTags "</dim>".toList = [] := by decide
  have hw : rowWidth rw (footerRow p) = 2 + (p.width - 2).toNat := by
    simp only [footerRow, rowWidth, List.map_cons, List.map_nil, List.sum_cons, List.sum_nil,
      Seg.width, e1, e4, StringWidth_cons, StringWidth_safeRepeat, hrw.bottomLeft,
      hrw.bottomRight, hrw.horizontal]
    simp only [StringWidth, List.map_nil, List.sum_nil]
    omega
  rw [hw]
  omega

theorem StringWidth_le_length (rw : Char → Nat) (hrw : PanelWidths rw) (s : Str)
    (h : ∀ c ∈ s, c.toNat < 128) : StringWidth rw s ≤ s.length := by
  induction s with
  | nil => simp [StringWidth]
  | cons c cs ih =>
    have h1 := hrw.ascii c (h c (List.mem_cons_self _ _))
    have h2 := ih (fun x hx => h x (List.mem_cons_of_mem _ hx))
    rw [StringWidth_cons, List.length_cons]
    omega

/-! ## The pieces of a wrapped line -/

theorem tmlTagNames_shape (n : Str) (h : n ∈ tmlTagNames) :
    n ≠ [] ∧ ∀ c ∈ n, c ≠ '<' ∧ c ≠ '>' := by
  simp only [tmlTagNames, List.mem_cons, List.mem_singleton, List.not_mem_nil, or_false] at h
  rcases h with rfl | rfl <;> decide

theorem stripTags_pieces (ps : List Piece) (h : ∀ q ∈ ps, q.Known) (prev : Option Char) :
    replaceFrom rgxHtml (fun _ => []) 0 prev (ps.flatMap Piece.text)
      = ps.flatMap Piece.plain := by
  induction ps generalizing prev with
  | nil => rfl
  | cons q t ih =>
    have ht : ∀ q2 ∈ t, q2.Known := fun q2 h2 => h q2 (List.mem_cons_of_mem _ h2)
    have hq := h q (List.mem_cons_self _ _)
    rw [List.flatMap_cons, List.flatMap_cons]
    cases q with
    | tag n =>
      obtain ⟨h0, hin⟩ := tmlTagNames_shape n hq
      simp only [Piece.text, Piece.plain, List.nil_append]
      rw [stripTags_token prev n _ h0 hin]
      exact ih ht _
    | txt s =>
      simp only [Piece.text, Piece.plain]
      by_cases hs : s = []
      · subst hs
        simpa using ih ht prev
      · rw [replaceFrom_rgxHtml_plain_append s _ prev hq.1 hs, ih ht]

theorem tmlFrom_plain (s rest : Str) (h : '<' ∉ s) :
    tmlFrom none (s ++ rest) = s ++ tmlFrom none rest := by
  induction s with
  | nil => rfl
  | cons c cs ih =>
    have hc : c ≠ '<' := fun e => h (e ▸ List.mem_cons_self _ _)
    rw [List.cons_append, tmlFrom, if_neg hc, ih (fun e => h (List.mem_cons_of_mem _ e))]
    rfl

theorem tmlFrom_tag (n rest : Str) (h : n ∈ tmlTagNames) :
    tmlFrom none (markupToken n ++ rest) = tmlFrom none rest := by
  simp only [tmlTagNames, List.mem_cons, List.mem_singleton, List.not_mem_nil, or_false] at h
  rcases h with rfl | rfl
  · simp [markupToken, tmlFrom, tmlTagNames]
  · simp [markupToken, tmlFrom, tmlTagNames]

theorem tmlKnown_tmlVisible : TmlKnown tmlVisible := by
  intro ps h
  unfold tmlVisible
  induction ps with
  | nil => rfl
  | cons q t ih =>
    have ht : ∀ q2 ∈ t, q2.Known := fun q2 h2 => h q2 (List.mem_cons_of_mem _ h2)
    have hq := h q (List.mem_cons_self _ _)
    rw [List.flatMap_cons, List.flatMap_cons]
    cases q with
    | tag n =>
      simp only [Piece.text, Piece.plain, List.nil_append]
      rw [tmlFrom_tag n _ hq]
      exact ih ht
    | txt s =>
      simp only [Piece.text, Piece.plain]
      rw [tmlFrom_plain s _ hq.1, ih ht]

/-! ## The lines of the wrapper fit the budget -/

theorem lineStep_fits (rw : Char → Nat) (hsp : rw ' ' = 1) (size : Int) (st : LineState)
    (w : Str) (hw : WordFits rw size w)
    (hline : ∃ ps : List Piece, (∀ q ∈ ps, q.Known) ∧ st.line = ps.flatMap Piece.text
      ∧ StringWidth rw (ps.flatMap Piece.plain) ≤ st.currentSize)
    (hsize : (st.currentSize : Int) ≤ size)
    (hlines : ∀ l ∈ st.lines, LineFits rw size l) :
    ∃ st2, lineStep rw size st w = some st2
      ∧ (∃ ps : List Piece, (∀ q ∈ ps, q.Known) ∧ st2.line = ps.flatMap Piece.text
          ∧ StringWidth rw (ps.flatMap Piece.plain) ≤ st2.currentSize)
      ∧ (st2.currentSize : Int) ≤ size
      ∧ ∀ l ∈ st2.lines, LineFits rw size l := by
  obtain ⟨ps, hk, hl, hwd⟩ := hline
  have hclosed : ∀ l ∈ st.lines ++ [st.line], LineFits rw size l := by
    intro l hmem
    rcases List.mem_append.mp hmem with h | h
    · exact hlines l h
    · rw [List.mem_singleton.mp h]
      exact ⟨ps, hk, hl, by omega⟩
  rcases hw with rfl | ⟨n, hn, rfl⟩ | ⟨h0, hlt, hpc, hnl, hfit⟩
  · refine ⟨{ st with lines := st.lines ++ [st.line], line := [] }, by simp [lineStep], ?_,
      hsize, hclosed⟩
    exact ⟨[], by simp, rfl, by simp [StringWidth]⟩
  · refine ⟨{ st with line := st.line ++ markupToken n }, by simp [lineStep, markupToken], ?_,
      hsize, hlines⟩
    refine ⟨ps ++ [Piece.tag n], ?_, ?_, ?_⟩
    · intro q hq
      rcases List.mem_append.mp hq with h | h
      · exact hk q h
      · rw [List.mem_singleton.mp h]
        exact hn
    · simp [hl, Piece.text]
    · simpa [Piece.plain] using hwd
  · obtain ⟨c, cs, rfl⟩ := List.exists_cons_of_ne_nil h0
    have h1 : c ≠ '<' := fun e => hlt (e ▸ List.mem_cons_self _ _)
    have h2 : c ≠ '\n' := fun e => hnl (e ▸ List.mem_cons_self _ _)
    have hword : (Piece.txt (c :: cs)).Known := ⟨hlt, hpc⟩
    rw [lineStep_plainHead rw size st c cs h1 h2]
    split
    · refine ⟨_, rfl, ⟨[Piece.txt (c :: cs)], ?_, ?_, ?_⟩, hfit, hclosed⟩
      · intro q hq
        rw [List.mem_singleton.mp hq]
        exact hword
      · simp [Piece.text]
      · simp [Piece.plain]
    · rename_i hnot
      have hroom : (st.currentSize : Int) + StringWidth rw (c :: cs) + 1 ≤ size := by
        push_cast at hnot
        omega
      split
      · refine ⟨_, rfl, ⟨ps ++ [Piece.txt (' ' :: c :: cs)], ?_, ?_, ?_⟩, ?_, hlines⟩
        · intro q hq
          rcases List.mem_append.mp hq with h | h
          · exact hk q h
          · rw [List.mem_singleton.mp h]
            refine ⟨?_, ?_⟩
            · intro e
              rcases List.mem_cons.mp e with e1 | e1
              · exact absurd e1 (by decide)
              · exact hlt e1
            · intro e
              rcases List.mem_cons.mp e with e1 | e1
              · exact absurd e1 (by decide)
              · exact hpc e1
        · simp [hl, Piece.text]
        · simp only [List.flatMap_append, List.flatMap_cons, List.flatMap_nil, Piece.plain,
            List.append_nil, StringWidth_append, StringWidth_cons, hsp] at hwd ⊢
          omega
        · simp only
          push_cast
          omega
      · refine ⟨_, rfl, ⟨ps ++ [Piece.txt (c :: cs)], ?_, ?_, ?_⟩, ?_, hlines⟩
        · intro q hq
          rcases List.mem_append.mp hq with h | h
          · exact hk q h
          · rw [List.mem_singleton.mp h]
            exact hword
        · simp [hl, Piece.text]
        · simp only [List.flatMap_append, List.flatMap_cons, List.flatMap_nil, Piece.plain,
            List.append_nil, StringWidth_append] at hwd ⊢
          omega
        · simp only
          push_cast
          omega

theorem lineLoop_fits (rw : Char → Nat) (hsp : rw ' ' = 1) (size : Int) (ws : List Str)
    (st : LineState) (hws : ∀ w ∈ ws, WordFits rw size w)
    (hline : ∃ ps : List Piece, (∀ q ∈ ps, q.Known) ∧ st.line = ps.flatMap Piece.text
      ∧ StringWidth rw (ps.flatMap Piece.plain) ≤ st.currentSize)
    (hsize : (st.currentSize : Int) ≤ size)
    (hlines : ∀ l ∈ st.lines, LineFits rw size l) :
    ∃ st2, lineLoop rw size st ws = some st2 ∧ ∀ l ∈ finishLines st2, LineFits rw size l := by
  induction ws generalizing st with
  | nil =>
    refine ⟨st, rfl, ?_⟩
    obtain ⟨ps, hk, hl, hwd⟩ := hline
    have hcur : LineFits rw size st.line := ⟨ps, hk, hl, by omega⟩
    have hempty : LineFits rw size [] := by
      refine ⟨[], by simp, rfl, ?_⟩
      have h1 : (0 : Int) ≤ st.currentSize := Int.ofNat_nonneg _
      simp only [List.flatMap_nil, StringWidth, List.map_nil, List.sum_nil]
      push_cast
      omega
    have hall : ∀ l ∈ (if st.line ≠ [] then st.lines ++ [st.line] else st.lines),
        LineFits rw size l := by
      intro l hmem
      split at hmem
      · rcases List.mem_append.mp hmem with h | h
        · exact hlines l h
        · rw [List.mem_singleton.mp h]
          exact hcur
      · exact hlines l hmem
    intro l hmem
    have hfin : finishLines st
        = if (if st.line ≠ [] then st.lines ++ [st.line] else st.lines).length = 0 then [[]]
          else (if st.line ≠ [] then st.lines ++ [st.line] else st.lines) := rfl
    rw [hfin] at hmem
    by_cases hlen : (if st.line ≠ [] then st.lines ++ [st.line] else st.lines).length = 0
    · rw [if_pos hlen] at hmem
      rw [List.mem_singleton.mp hmem]
      exact hempty
    · rw [if_neg hlen] at hmem
      exact hall l hmem
  | cons w t ih =>
    obtain ⟨st1, h1, i1, i2, i3⟩ := lineStep_fits rw hsp size st w
      (hws w (List.mem_cons_self _ _)) hline hsize hlines
    obtain ⟨st2, h2, h3⟩ := ih st1 (fun x hx => hws x (List.mem_cons_of_mem _ hx)) i1 i2 i3
    exact ⟨st2, by rw [lineLoop, h1, Option.some_bind, h2], h3⟩

theorem limitSizeWithStrip_fits (rw : Char → Nat) (hsp : rw ' ' = 1) (size : Int)
    (h0 : 0 ≤ size) (input : Str) (ws : List Str) (hsplit : splitWords input = some ws)
    (hws : ∀ w ∈ ws, WordFits rw size w) :
    ∃ lines, limitSizeWithStrip rw input size = some lines
      ∧ ∀ l ∈ lines, LineFits rw size l := by
  obtain ⟨st2, h2, h3⟩ := lineLoop_fits rw hsp size ws
    { line := [], currentSize := 0, lines := [], hasContent := false } hws
    ⟨[], by simp, rfl, by simp [StringWidth]⟩ (by simpa using h0) (by simp)
  exact ⟨finishLines st2, limitSizeWithStrip_of_words hsplit h2, h3⟩

/-! ## The tokens of the texts the printer wraps -/

theorem splitWords_leading_space (t : Str) : splitWords (' ' :: t) = none := by
  simp [splitWords, wordLoop, wordStep, appendLast]

theorem splitWords_ne_nil (t : Str) (ws : List Str) (h : splitWords t = some ws) :
    ∀ w ∈ ws, w ≠ [] := by
  have hhead : t.head? ≠ some ' ' := by
    intro e
    cases t with
    | nil => simp at e
    | cons c cs =>
      simp only [List.head?_cons, Option.some.injEq] at e
      subst e
      rw [splitWords_leading_space] at h
      exact absurd h (by simp)
  obtain ⟨st2, h1, h2⟩ := wordLoop_returns t { word := [], words := [], inTag := false }
    (Or.inr (Or.inr hhead)) (by simp)
  have h3 : ws = pushWord st2.words st2.word := by
    simpa [splitWords, h1] using h.symm
  rw [h3]
  exact pushWord_ne_nil _ _ h2

theorem wordStep_tagHead (st st2 : WordState) (c : Char) (h : wordStep st c = some st2)
    (hi : st.inTag = true → st.word.head? = some '<') :
    st2.inTag = true → st2.word.head? = some '<' := by
  obtain ⟨word, words, inTag⟩ := st
  cases inTag with
  | true =>
    have hw := hi rfl
    simp only at hw
    obtain ⟨w0, wr, rfl⟩ : ∃ w0 wr, word = w0 :: wr := by
      cases word with
      | nil => simp at hw
      | cons a b => exact ⟨a, b, rfl⟩
    simp only [List.head?_cons, Option.some.injEq] at hw
    subst hw
    by_cases hg : c = '>'
    · subst hg
      simp only [wordStep, if_true, Option.some.injEq] at h
      subst h
      simp
    · simp only [wordStep, if_true, hg, if_false, Option.some.injEq] at h
      subst h
      simp
  | false =>
    by_cases hc : c = '<'
    · subst hc
      simp only [wordStep, Bool.false_eq_true, if_false, if_true, Option.some.injEq] at h
      subst h
      simp
    · by_cases hsp : c = ' '
      · subst hsp
        by_cases hw0 : word = []
        · subst hw0
          simp only [wordStep, Bool.false_eq_true, if_false, if_true, ne_eq, not_true_eq_false,
            Option.map_eq_some', hc] at h
          obtain ⟨a, -, rfl⟩ := h
          simp
        · rw [wordStep_space_word words word hw0, Option.some.injEq] at h
          subst h
          simp
      · by_cases hnl : c = '\n'
        · subst hnl
          simp only [wordStep, Bool.false_eq_true, if_false, if_true, hc, hsp,
            Option.some.injEq] at h
          subst h
          simp
        · rw [wordStep_plain word words c ⟨hsp, hc, hnl⟩, Option.some.injEq] at h
          subst h
          simp

theorem wordLoop_tagHead (q : Str) (st st2 : WordState) (h : wordLoop st q = some st2)
    (hi : st.inTag = true → st.word.head? = some '<') :
    st2.inTag = true → st2.word.head? = some '<' := by
  induction q generalizing st with
  | nil =>
    simp only [wordLoop, Option.some.injEq] at h
    subst h
    exact hi
  | cons c cs ih =>
    rw [wordLoop] at h
    cases hs : wordStep st c with
    | none => rw [hs] at h; simp at h
    | some st1 =>
      rw [hs, Option.some_bind] at h
      exact ih st1 h (wordStep_tagHead st st1 c hs hi)

/-- The tokens of a text that follows a heading whose tokens are `pw`, the
heading ending outside a tag with no pending word. -/
theorem splitWords_after (pt : Str) (pw : List Str) (t : Str) (ws : List Str)
    (hp : wordLoop { word := [], words := [], inTag := false } pt
      = some { word := [], words := pw, inTag := false })
    (ht : splitWords t = some ws) : splitWords (pt ++ t) = some (pw ++ ws) := by
  unfold splitWords at ht ⊢
  cases h1 : wordLoop { word := [], words := [], inTag := false } t with
  | none => rw [h1] at ht; simp at ht
  | some st2 =>
    rw [h1, Option.map_some', Option.some.injEq] at ht
    have h2 := wordLoop_prepend pw t { word := [], words := [], inTag := false } st2 h1
    simp only [List.append_nil] at h2
    rw [wordLoop_append, hp, Option.some_bind, h2, Option.map_some', pushWord_prepend, ht]

/-- The tokens of an address between its two colour tags. -/
theorem splitWords_blue (t : Str) (ws : List Str) (ht : splitWords t = some ws)
    (hlt : ∀ w ∈ ws, '<' ∉ w) :
    splitWords ("<blue>".toList ++ t ++ "</blue>".toList)
      = some ("<blue>".toList :: (ws ++ ["</blue>".toList])) := by
  unfold splitWords at ht ⊢
  cases h1 : wordLoop { word := [], words := [], inTag := false } t with
  | none => rw [h1] at ht; simp at ht
  | some st2 =>
    rw [h1, Option.map_some', Option.some.injEq] at ht
    have h2 := wordLoop_prepend ["<blue>".toList] t { word := [], words := [], inTag := false }
      st2 h1
    simp only [List.append_nil] at h2
    have hopen : wordLoop { word := [], words := [], inTag := false } "<blue>".toList
        = some { word := [], words := ["<blue>".toList], inTag := false } := by decide
    have htag : st2.inTag = false := by
      cases hb : st2.inTag with
      | false => rfl
      | true =>
        exfalso
        have h3 := wordLoop_tagHead t _ st2 h1 (by simp) hb
        have h4 : st2.word ≠ [] := by
          intro e
          rw [e] at h3
          simp at h3
        have h5 : st2.word ∈ ws := by
          rw [← ht, pushWord, if_pos h4]
          simp
        have h6 := hlt _ h5
        cases hw : st2.word with
        | nil => exact h4 hw
        | cons a b =>
          rw [hw] at h3 h6
          simp only [List.head?_cons, Option.some.injEq] at h3
          subst h3
          exact h6 (List.mem_cons_self _ _)
    obtain ⟨word, words, inTag⟩ := st2
    simp only at htag ht h2
    subst htag
    have hclose : wordLoop { word := word, words := "<blue>".toList :: words, inTag := false }
        "</blue>".toList
        = some { word := [], words := pushWord ("<blue>".toList :: words) word
            ++ ["</blue>".toList], inTag := false } := by
      rw [show "</blue>".toList = '<' :: ("/blue".toList ++ ['>']) from rfl, wordLoop]
      simp only [wordStep, Bool.false_eq_true, if_false, if_true, Option.some_bind]
      rw [wordLoop_inTag "/blue".toList ['<'] _ (by decide)]
      rfl
    rw [List.append_assoc, wordLoop_append, hopen, Option.some_bind, wordLoop_append]
    simp only [List.singleton_append] at h2
    rw [h2, Option.some_bind, hclose, Option.map_some']
    simp only [pushWord, ne_eq, not_true_eq_false, if_false]
    rw [← ht]
    unfold pushWord
    split <;> simp

/-! ## The lines of a panel are as wide as the panel -/

theorem wordFits_ascii (rw : Char → Nat) (hrw : PanelWidths rw) (size : Int) (w : Str)
    (h : w ≠ [] ∧ (∀ c ∈ w, c.toNat < 128 ∧ c ≠ '<' ∧ c ≠ '%' ∧ c ≠ '\n')
      ∧ (w.length : Int) ≤ size) : WordFits rw size w := by
  obtain ⟨h0, hc, hlen⟩ := h
  refine Or.inr (Or.inr ⟨h0, fun e => (hc _ e).2.1 rfl, fun e => (hc _ e).2.2.1 rfl,
    fun e => (hc _ e).2.2.2 rfl, ?_⟩)
  have := StringWidth_le_length rw hrw w (fun c hc2 => (hc c hc2).1)
  omega

theorem wordFits_wraps (rw : Char → Nat) (size : Int) (t : Str) (ws : List Str)
    (hs : splitWords t = some ws)
    (h : ∀ w ∈ ws, w = ['\n']
      ∨ ('<' ∉ w ∧ '%' ∉ w ∧ '\n' ∉ w ∧ (StringWidth rw w : Int) ≤ size)) :
    ∀ w ∈ ws, WordFits rw size w := by
  intro w hw
  rcases h w hw with h1 | ⟨h1, h2, h3, h4⟩
  · exact Or.inl h1
  · exact Or.inr (Or.inr ⟨splitWords_ne_nil t ws hs w hw, h1, h2, h3, h4⟩)

theorem printIn_fits (rw : Char → Nat) (hrw : PanelWidths rw) (tml : Str → Str)
    (html : TmlKnown tml) (p : Printer) (indent : Int) (hi : 0 ≤ indent)
    (hroom : 0 ≤ p.width - indent - 4) (input : Str) (ws : List Str)
    (hsplit : splitWords input = some ws)
    (hws : ∀ w ∈ ws, WordFits rw (p.width - indent - 4) w) :
    ∃ rows, printIn rw tml p indent true input = some rows
      ∧ ∀ row ∈ rows, (rowWidth rw row : Int) = p.width := by
  obtain ⟨lines, hl, hfit⟩ := limitSizeWithStrip_fits rw hrw.space _ hroom input ws hsplit hws
  refine ⟨printInStyled rw tml p indent lines, by simp [printIn, hl], ?_⟩
  intro row hrow
  unfold printInStyled at hrow
  obtain ⟨line, hline, rfl⟩ := List.mem_map.mp hrow
  obtain ⟨ps, hk, rfl, hwd⟩ := hfit line hline
  have hs : stripTags (ps.flatMap Piece.text) = ps.flatMap Piece.plain :=
    stripTags_pieces ps hk none
  rw [hs, html ps hk]
  exact contentRow_width rw hrw p indent _ _ hi rfl (by omega)

theorem printBlank_fits (rw : Char → Nat) (hrw : PanelWidths rw) (tml : Str → Str)
    (html : TmlKnown tml) (p : Printer) (hW : 4 ≤ p.width) :
    ∃ rows, printBlank rw tml p = some rows
      ∧ ∀ row ∈ rows, (rowWidth rw row : Int) = p.width :=
  printIn_fits rw hrw tml html p 0 (le_refl _) (by omega) [] [] rfl (by simp)

theorem printHeader_fits (rw : Char → Nat) (hrw : PanelWidths rw) (tml : Str → Str)
    (html : TmlKnown tml) (p : Printer) (heading : Str)
    (hfit : 7 + (StringWidth rw heading : Int) ≤ p.width) :
    ∃ rows, printHeader rw tml p heading = some rows
      ∧ ∀ row ∈ rows, (rowWidth rw row : Int) = p.width := by
  obtain ⟨bl, hbl, hw⟩ := printBlank_fits rw hrw tml html p (by omega)
  refine ⟨_, by rw [printHeader, hbl]; rfl, ?_⟩
  intro row hrow
  rcases List.mem_cons.mp hrow with h | h
  · rw [h]
    exact titleRow_width rw hrw p _ _ hrw.topLeft hrw.topRight heading hfit
  · exact hw row h

theorem printDivider_fits (rw : Char → Nat) (hrw : PanelWidths rw) (tml : Str → Str)
    (html : TmlKnown tml) (p : Printer) (heading : Str)
    (hfit : 7 + (StringWidth rw heading : Int) ≤ p.width) :
    ∃ rows, printDivider rw tml p heading = some rows
      ∧ ∀ row ∈ rows, (rowWidth rw row : Int) = p.width := by
  obtain ⟨bl, hbl, hw⟩ := printBlank_fits rw hrw tml html p (by omega)
  refine ⟨_, by rw [printDivider, hbl]; rfl, ?_⟩
  intro row hrow
  rcases List.mem_append.mp hrow with h | h
  · exact hw row h
  · rcases List.mem_cons.mp h with h | h
    · rw [h]
      exact titleRow_width rw hrw p _ _ hrw.leftT hrw.rightT heading hfit
    · exact hw row h

theorem printFooter_fits (rw : Char → Nat) (hrw : PanelWidths rw) (tml : Str → Str)
    (html : TmlKnown tml) (p : Printer) (hW : 4 ≤ p.width) :
    ∃ rows, printFooter rw tml p = some rows
      ∧ ∀ row ∈ rows, (rowWidth rw row : Int) = p.width := by
  obtain ⟨bl, hbl, hw⟩ := printBlank_fits rw hrw tml html p hW
  refine ⟨_, by rw [printFooter, hbl]; rfl, ?_⟩
  intro row hrow
  rcases List.mem_append.mp hrow with h | h
  · exact hw row h
  · rw [List.mem_singleton.mp h]
    exact footerRow_width rw hrw p (by omega)

theorem printAddresses_fits (rw : Char → Nat) (hrw : PanelWidths rw) (tml : Str → Str)
    (html : TmlKnown tml) (p : Printer) (hW : 8 ≤ p.width) (addresses : List Str)
    (h : ∀ addr ∈ addresses, WrapsWithin rw (p.width - 8) (TrimSpace addr)) :
    ∃ rows, printAddresses rw tml p addresses = some rows
      ∧ ∀ row ∈ rows, (rowWidth rw row : Int) = p.width := by
  induction addresses with
  | nil => exact ⟨[], rfl, by simp⟩
  | cons addr rest ih =>
    obtain ⟨more, hm, hmw⟩ := ih (fun a ha => h a (List.mem_cons_of_mem _ ha))
    by_cases he : TrimSpace addr = []
    · exact ⟨more, by rw [printAddresses, if_neg (by simpa using he), hm], hmw⟩
    · obtain ⟨ws, hs, hws⟩ := h addr (List.mem_cons_self _ _)
      have hsize : p.width - 4 - 4 = p.width - 8 := by omega
      have hfits := wordFits_wraps rw (p.width - 8) _ ws hs hws
      have hlt : ∀ w ∈ ws, '<' ∉ w := by
        intro w hw
        rcases hws w hw with h1 | h1
        · rw [h1]
          decide
        · exact h1.1
      obtain ⟨rows, hr, hrw2⟩ := printIn_fits rw hrw tml html p 4 (by decide) (by omega)
        ("<blue>".toList ++ TrimSpace addr ++ "</blue>".toList)
        ("<blue>".toList :: (ws ++ ["</blue>".toList])) (splitWords_blue _ ws hs hlt)
        (by
          rw [hsize]
          intro w hw
          rcases List.mem_cons.mp hw with h1 | h1
          · exact Or.inr (Or.inl ⟨"blue".toList, by decide, h1⟩)
          · rcases List.mem_append.mp h1 with h2 | h2
            · exact hfits w h2
            · exact Or.inr (Or.inl ⟨"/blue".toList, by decide, List.mem_singleton.mp h2⟩))
      refine ⟨rows ++ more, by rw [printAddresses, if_pos he, hr, Option.some_bind, hm]; rfl, ?_⟩
      intro row hrow
      rcases List.mem_append.mp hrow with h1 | h1
      · exact hrw2 row h1
      · exact hmw row h1

theorem printIn_sentence_fits (rw : Char → Nat) (hrw : PanelWidths rw) (tml : Str → Str)
    (html : TmlKnown tml) (p : Printer) (hW : 14 ≤ p.width) (input : Str) (ws : List Str)
    (hsplit : splitWords input = some ws)
    (hws : ∀ w ∈ ws, w ≠ [] ∧ (∀ c ∈ w, c.toNat < 128 ∧ c ≠ '<' ∧ c ≠ '%' ∧ c ≠ '\n')
      ∧ (w.length : Int) ≤ 10) :
    ∃ rows, printIn rw tml p 0 true input = some rows
      ∧ ∀ row ∈ rows, (rowWidth rw row : Int) = p.width :=
  printIn_fits rw hrw tml html p 0 (le_refl _) (by omega) input ws hsplit
    (fun w hw => wordFits_ascii rw hrw _ w
      ⟨(hws w hw).1, (hws w hw).2.1, by have := (hws w hw).2.2; omega⟩)

theorem printIn_entry_fits (rw : Char → Nat) (hrw : PanelWidths rw) (tml : Str → Str)
    (html : TmlKnown tml) (p : Printer) (hW : 14 ≤ p.width) (label : Str) (t : Str)
    (hlabel : wordLoop { word := [], words := [], inTag := false } label
      = some { word := [], words := [(label.take 8) ++ "  ".toList, "<blue>".toList],
               inTag := false })
    (hl : (label.take 8) ≠ []
      ∧ (∀ c ∈ (label.take 8) ++ "  ".toList, c.toNat < 128 ∧ c ≠ '<' ∧ c ≠ '%' ∧ c ≠ '\n')
      ∧ (((label.take 8) ++ "  ".toList).length : Int) ≤ 10)
    (h : WrapsWithin rw (p.width - 4) t) :
    ∃ rows, printIn rw tml p 0 true (label ++ t) = some rows
      ∧ ∀ row ∈ rows, (rowWidth rw row : Int) = p.width := by
  obtain ⟨ws, hs, hws⟩ := h
  have hsize : p.width - 0 - 4 = p.width - 4 := by omega
  refine printIn_fits rw hrw tml html p 0 (le_refl _) (by omega) (label ++ t) _
    (splitWords_after label _ t ws hlabel hs) ?_
  rw [hsize]
  intro w hw
  rcases List.mem_cons.mp hw with h1 | h1
  · rw [h1]
    exact wordFits_ascii rw hrw _ _ ⟨by simp, hl.2.1, by have := hl.2.2; omega⟩
  · rcases List.mem_cons.mp h1 with h2 | h2
    · exact Or.inr (Or.inl ⟨"blue".toList, by decide, h2⟩)
    · exact wordFits_wraps rw _ t ws hs hws w h2

theorem printIn_body_fits (rw : Char → Nat) (hrw : PanelWidths rw) (tml : Str → Str)
    (p : Printer) (hW : 5 ≤ p.width) (input : Str) :
    ∃ chunks, limitSize rw input (p.width - 4) = some chunks
      ∧ printIn rw tml p 0 false input
        = some (chunks.map (fun c => contentRow p 0 (Seg.raw c) (widthBytes rw c)))
      ∧ ∀ row ∈ chunks.map (fun c => contentRow p 0 (Seg.raw c) (widthBytes rw c)),
          (rowWidth rw row : Int) = p.width := by
  obtain ⟨chunks, hc, hfit⟩ := limitSize_returns rw hrw (p.width - 4) (by omega) input
  refine ⟨chunks, hc, ?_, ?_⟩
  · unfold printIn
    rw [if_neg (by simp), Int.sub_zero, hc]
    rfl
  · intro row hrow
    obtain ⟨c, hcm, rfl⟩ := List.mem_map.mp hrow
    have := hfit c hcm
    exact contentRow_width rw hrw p 0 _ _ (le_refl _) rfl (by omega)

/-! ## The width of the lines of a panel -/

/-- C1 (as amended): with the space and the border runes one column wide, an
ASCII rune at most one and no rune more than two, and with `tml.Sprintf`
showing of a line exactly its text outside the tags `<blue>` and `</blue>`,
every line of a panel is exactly as wide as the panel when the title and the
words fit. `PrintSummary` returns and every line it writes is `W` wide when
`W ≥ 26` and every trimmed address wraps within `W - 8` columns; `PrintEmail`
returns and every line it writes is `W` wide when `W ≥ 14`, the title
`Email #` with the identifier is at most `W - 7` wide and the subject, the
sender and the time wrap within `W - 4` columns. A text wraps within a budget
when it does not begin with a space and each of its tokens is a line break or
a word without `<`, `%` and line break that is no wider than the budget. -/
theorem panel_lines_exactly_wide (rw : Char → Nat) (hrw : PanelWidths rw) (tml : Str → Str)
    (html : TmlKnown tml) (unescape : Str → Str) (p : Printer) :
    (∀ addresses : List Str, 26 ≤ p.width →
        (∀ addr ∈ addresses, WrapsWithin rw (p.width - 8) (TrimSpace addr)) →
        ∃ rows, PrintSummary rw tml p addresses = some rows
          ∧ ∀ row ∈ rows, (rowWidth rw row : Int) = p.width)
      ∧ (∀ email : Email, 14 ≤ p.width →
        (StringWidth rw ("Email #".toList ++ email.ID) : Int) ≤ p.width - 7 →
        WrapsWithin rw (p.width - 4) email.Subject →
        WrapsWithin rw (p.width - 4) email.From →
        WrapsWithin rw (p.width - 4) email.Timestamp →
        ∃ rows, PrintEmail rw tml unescape p email = some rows
          ∧ ∀ row ∈ rows, (rowWidth rw row : Int) = p.width) := by
  constructor
  · intro addresses hW haddr
    have htitle : StringWidth rw "New Address Created".toList ≤ 19 :=
      StringWidth_le_length rw hrw _ (by decide)
    obtain ⟨r1, e1, w1⟩ := printHeader_fits rw hrw tml html p "New Address Created".toList
      (by omega)
    obtain ⟨r2, e2, w2⟩ := printIn_sentence_fits rw hrw tml html p (by omega)
      "Your disposable email addresses are:".toList
      ["Your".toList, "disposable".toList, "email".toList, "addresses".toList, "are:".toList]
      (by decide) (by decide)
    obtain ⟨r3, e3, w3⟩ := printBlank_fits rw hrw tml html p (by omega)
    obtain ⟨r4, e4, w4⟩ := printAddresses_fits rw hrw tml html p (by omega) addresses haddr
    obtain ⟨r6, e6, w6⟩ := printIn_sentence_fits rw hrw tml html p (by omega)
      "Emails will appear below as they are received.".toList
      ["Emails".toList, "will".toList, "appear".toList, "below".toList, "as".toList,
       "they".toList, "are".toList, "received.".toList]
      (by decide) (by decide)
    obtain ⟨r7, e7, w7⟩ := printFooter_fits rw hrw tml html p (by omega)
    unfold printBlank at e3
    refine ⟨r1 ++ r2 ++ r3 ++ r4 ++ r3 ++ r6 ++ r7, ?_, ?_⟩
    · unfold PrintSummary
      rw [e1, Option.some_bind, e2, Option.some_bind, e3, Option.some_bind, e4,
        Option.some_bind, Option.some_bind, e6, Option.some_bind, e7]
      rfl
    · intro row hrow
      simp only [List.mem_append] at hrow
      rcases hrow with (((((h | h) | h) | h) | h) | h) | h
      · exact w1 row h
      · exact w2 row h
      · exact w3 row h
      · exact w4 row h
      · exact w3 row h
      · exact w6 row h
      · exact w7 row h
  · intro email hW hid hsub hfrom htime
    have hbody : StringWidth rw "Body".toList ≤ 4 :=
      StringWidth_le_length rw hrw _ (by decide)
    obtain ⟨r1, e1, w1⟩ := printHeader_fits rw hrw tml html p ("Email #".toList ++ email.ID)
      (by omega)
    obtain ⟨r2, e2, w2⟩ := printIn_entry_fits rw hrw tml html p hW
      "Subject:   <blue>".toList email.Subject (by decide) (by decide) hsub
    obtain ⟨r3, e3, w3⟩ := printIn_entry_fits rw hrw tml html p hW
      "From:      <blue>".toList email.From (by decide) (by decide) hfrom
    obtain ⟨r4, e4, w4⟩ := printIn_entry_fits rw hrw tml html p hW
      "Time:      <blue>".toList email.Timestamp (by decide) (by decide) htime
    obtain ⟨r5, e5, w5⟩ := printDivider_fits rw hrw tml html p "Body".toList (by omega)
    obtain ⟨chunks, -, e6, w6⟩ := printIn_body_fits rw hrw tml p (by omega)
      (bodyContent unescape p email)
    obtain ⟨r7, e7, w7⟩ := printFooter_fits rw hrw tml html p (by omega)
    refine ⟨r1 ++ r2 ++ r3 ++ r4 ++ r5
      ++ chunks.map (fun c => contentRow p 0 (Seg.raw c) (widthBytes rw c)) ++ r7, ?_, ?_⟩
    · unfold PrintEmail
      rw [e1, Option.some_bind, e2, Option.some_bind, e3, Option.some_bind, e4,
        Option.some_bind, e5, Option.some_bind, e6, Option.some_bind, e7]
      rfl
    · intro row hrow
      simp only [List.mem_append] at hrow
      rcases hrow with (((((h | h) | h) | h) | h) | h) | h
      · exact w1 row h
      · exact w2 row h
      · exact w3 row h
      · exact w4 row h
      · exact w5 row h
      · exact w6 row h
      · exact w7 row h

theorem panel_lines_exactly_wide_witness :
    (∃ rows, PrintSummary runeWidth tmlVisible { width := 80, htmlOptions := defaultOptions }
          [" first.address@example.com ".toList, "  ".toList] = some rows
        ∧ ∀ row ∈ rows, (rowWidth runeWidth row : Int) = 80)
      ∧ (∃ rows, PrintEmail runeWidth tmlVisible UnescapeString
            { width := 80, htmlOptions := defaultOptions }
            { ID := "42".toList, Subject := "Hi".toList, From := "a@b.com".toList,
              Timestamp := "Mon, 02 Jan 2006 15:04:05 MST".toList,
              Body := "plain text, no tags".toList } = some rows
        ∧ ∀ row ∈ rows, (rowWidth runeWidth row : Int) = 80) :=
  ⟨(panel_lines_exactly_wide runeWidth panelWidths_runeWidth tmlVisible tmlKnown_tmlVisible
      UnescapeString { width := 80, htmlOptions := defaultOptions }).1
      [" first.address@example.com ".toList, "  ".toList] (by decide)
      (by
        intro addr h
        rcases List.mem_cons.mp h with h1 | h1
        · rw [h1]
          exact ⟨["first.address@example.com".toList], by decide, by decide⟩
        · rw [List.mem_singleton.mp h1]
          exact ⟨[], by decide, by decide⟩),
   (panel_lines_exactly_wide runeWidth panelWidths_runeWidth tmlVisible tmlKnown_tmlVisible
      UnescapeString { width := 80, htmlOptions := defaultOptions }).2
      { ID := "42".toList, Subject := "Hi".toList, From := "a@b.com".toList,
        Timestamp := "Mon, 02 Jan 2006 15:04:05 MST".toList,
        Body := "plain text, no tags".toList }
      (by decide) (by decide) ⟨["Hi".toList], by decide, by decide⟩
      ⟨["a@b.com".toList], by decide, by decide⟩
      ⟨["Mon,".toList, "02".toList, "Jan".toList, "2006".toList, "15:04:05".toList,
        "MST".toList], by decide, by decide⟩⟩

/-- C1 (counterexample): at the render width 10 the panel of `PrintSummary`,
here for an empty list of addresses, has lines that are not 10 columns wide:
its top border is 26 wide (the title alone takes 19 columns) and the content
lines holding the words `disposable`, `addresses` and `received.` are 14, 13
and 13 wide. At the render width 20 the line of an address of 15 columns,
which does not fit the 12 columns left for it, is 23 wide. -/
theorem PrintSummary_narrow_panel_lines :
    (PrintSummary runeWidth tmlVisible { width := 10, htmlOptions := defaultOptions } []).map
        (fun rows => rows.map (rowWidth runeWidth))
      = some [26, 10, 10, 14, 10, 13, 10, 10, 10, 10, 10, 10, 10, 10, 10, 10, 10, 13, 10, 10]
      ∧ (printAddresses runeWidth tmlVisible { width := 20, htmlOptions := defaultOptions }
          ["someone@mail.io".toList]).map (fun rows => rows.map (rowWidth runeWidth))
        = some [20, 23] := by
  decide

/-! ## The lines of `PrintEmail` -/

theorem limitSizeWithStrip_nil (rw : Char → Nat) (W : Int) :
    limitSizeWithStrip rw [] W = some [[]] := by
  simp [limitSizeWithStrip, splitWords, wordLoop, lineLoop, finishLines, pushWord]

theorem printBlank_eq (rw : Char → Nat) (tml : Str → Str) (p : Printer) :
    printBlank rw tml p
      = some [contentRow p 0 (Seg.text (tml [])) (StringWidth rw (stripTags []))] := by
  unfold printBlank printIn
  rw [if_pos rfl, limitSizeWithStrip_nil]
  rfl

theorem printIn_entry_eq (rw : Char → Nat) (tml : Str → Str) (p : Printer) (c : Char)
    (rest : Str) (hc : c ≠ ' ') :
    ∃ lines, limitSizeWithStrip rw (c :: rest) (p.width - 4) = some lines
      ∧ printIn rw tml p 0 true (c :: rest)
        = some (lines.map (fun line =>
            contentRow p 0 (Seg.text (tml line)) (StringWidth rw (stripTags line)))) := by
  obtain ⟨lines, hl⟩ := limitSizeWithStrip_returns rw (c :: rest) (p.width - 4)
    (by simpa using hc)
  refine ⟨lines, hl, ?_⟩
  unfold printIn
  rw [if_pos rfl, Int.sub_zero, hl]
  rfl

/-- C18: for every message and render width `W ≥ 10`, with the space and the
border runes one column wide, an ASCII rune at most one and no rune more than
two, `PrintEmail` returns and writes, in this order: the title line with the
heading `Email #` followed by the identifier, a blank line, the lines of the
three header entries as `limitSizeWithStrip` wraps them at `W - 4`, a blank
line, the `Body` divider, a blank line, the body lines, a blank line and the
bottom border. The body lines are the chunks of `limitSize` at `W - 4`, of
`convertHTMLToText` of the body when `isHTMLContent` is true of it and of the
body itself when it is false, each written as it is between the two borders
and followed by `W - 4` less its width spaces. For the body
`plain text, no tags` detection is false and the chunks at the width 80 are
the single unmodified line. -/
theorem PrintEmail_lines (rw : Char → Nat) (hrw : PanelWidths rw) (tml : Str → Str)
    (unescape : Str → Str) (p : Printer) (hW : 10 ≤ p.width) (email : Email) :
    (∃ subj frm tim chunks,
        limitSizeWithStrip rw ("Subject:   <blue>".toList ++ email.Subject) (p.width - 4)
          = some subj
        ∧ limitSizeWithStrip rw ("From:      <blue>".toList ++ email.From) (p.width - 4)
          = some frm
        ∧ limitSizeWithStrip rw ("Time:      <blue>".toList ++ email.Timestamp) (p.width - 4)
          = some tim
        ∧ limitSize rw (if isHTMLContent email.Body = true
            then convertHTMLToText unescape email.Body p.htmlOptions else email.Body)
            (p.width - 4) = some chunks
        ∧ PrintEmail rw tml unescape p email
          = some (
            [[Seg.markup "<dim>".toList, Seg.text [borderTopLeft], Seg.text [borderHorizontal],
              Seg.text [borderRightT], Seg.markup "</dim> <bold>".toList,
              Seg.text ("Email #".toList ++ email.ID), Seg.markup "</bold> <dim>".toList,
              Seg.text [borderLeftT],
              Seg.fill (safeRepeat [borderHorizontal]
                (p.width - 7 - (StringWidth rw ("Email #".toList ++ email.ID) : Int))),
              Seg.text [borderTopRight], Seg.markup "</dim>".toList]]
            ++ ([[]] ++ subj ++ frm ++ tim ++ [[]]).map (fun line =>
              [Seg.markup "<dim>".toList, Seg.text [borderVertical],
               Seg.markup "</dim> ".toList, Seg.text [], Seg.text (tml line),
               Seg.fill (safeRepeat [' ']
                 (p.width - 4 - 0 - (StringWidth rw (stripTags line) : Int))),
               Seg.markup " <dim>".toList, Seg.text [borderVertical],
               Seg.markup "</dim>".toList])
            ++ [[Seg.markup "<dim>".toList, Seg.text [borderLeftT], Seg.text [borderHorizontal],
              Seg.text [borderRightT], Seg.markup "</dim> <bold>".toList,
              Seg.text "Body".toList, Seg.markup "</bold> <dim>".toList,
              Seg.text [borderLeftT],
              Seg.fill (safeRepeat [borderHorizontal]
                (p.width - 7 - (StringWidth rw "Body".toList : Int))),
              Seg.text [borderRightT], Seg.markup "</dim>".toList],
             [Seg.markup "<dim>".toList, Seg.text [borderVertical],
              Seg.markup "</dim> ".toList, Seg.text [], Seg.text (tml []),
              Seg.fill (safeRepeat [' ']
                (p.width - 4 - 0 - (StringWidth rw (stripTags []) : Int))),
              Seg.markup " <dim>".toList, Seg.text [borderVertical],
              Seg.markup "</dim>".toList]]
            ++ chunks.map (fun chunk =>
              [Seg.markup "<dim>".toList, Seg.text [borderVertical],
               Seg.markup "</dim> ".toList, Seg.text [], Seg.raw chunk,
               Seg.fill (safeRepeat [' '] (p.width - 4 - 0 - (widthBytes rw chunk : Int))),
               Seg.markup " <dim>".toList, Seg.text [borderVertical],
               Seg.markup "</dim>".toList])
            ++ [[Seg.markup "<dim>".toList, Seg.text [borderVertical],
              Seg.markup "</dim> ".toList, Seg.text [], Seg.text (tml []),
              Seg.fill (safeRepeat [' ']
                (p.width - 4 - 0 - (StringWidth rw (stripTags []) : Int))),
              Seg.markup " <dim>".toList, Seg.text [borderVertical],
              Seg.markup "</dim>".toList],
             [Seg.markup "<dim>".toList, Seg.text [borderBottomLeft],
              Seg.fill (safeRepeat [borderHorizontal] (p.width - 2)),
              Seg.text [borderBottomRight], Seg.markup "</dim>".toList]]))
      ∧ isHTMLContent "plain text, no tags".toList = false
      ∧ limitSize runeWidth "plain text, no tags".toList (80 - 4)
          = some [utf8 "plain text, no tags".toList] := by
  refine ⟨?_, by decide, by decide⟩
  have hbl := printBlank_eq rw tml p
  obtain ⟨subj, hs, es⟩ := printIn_entry_eq rw tml p 'S'
    ("ubject:   <blue>".toList ++ email.Subject) (by decide)
  obtain ⟨frm, hf, ef⟩ := printIn_entry_eq rw tml p 'F'
    ("rom:      <blue>".toList ++ email.From) (by decide)
  obtain ⟨tim, ht, et⟩ := printIn_entry_eq rw tml p 'T'
    ("ime:      <blue>".toList ++ email.Timestamp) (by decide)
  obtain ⟨chunks, hc, -⟩ := limitSize_returns rw hrw (p.width - 4) (by omega)
    (bodyContent unescape p email)
  have hbody : printIn rw tml p 0 false (bodyContent unescape p email)
      = some (chunks.map (fun c => contentRow p 0 (Seg.raw c) (widthBytes rw c))) := by
    unfold printIn
    rw [if_neg (by simp), Int.sub_zero, hc]
    rfl
  refine ⟨subj, frm, tim, chunks, hs, hf, ht, hc, ?_⟩
  have es2 : printIn rw tml p 0 true ("Subject:   <blue>".toList ++ email.Subject) = _ := es
  have ef2 : printIn rw tml p 0 true ("From:      <blue>".toList ++ email.From) = _ := ef
  have et2 : printIn rw tml p 0 true ("Time:      <blue>".toList ++ email.Timestamp) = _ := et
  unfold PrintEmail printHeader printDivider printFooter
  rw [hbl, Option.map_some', Option.some_bind, es2, Option.some_bind, ef2, Option.some_bind,
    et2, Option.some_bind, Option.some_bind, Option.map_some', Option.some_bind, hbody,
    Option.some_bind, Option.map_some', Option.map_some']
  simp [contentRow, titleRow, footerRow, safeRepeat]

theorem PrintEmail_lines_witness :
    (∃ subj frm tim chunks,
        limitSizeWithStrip runeWidth ("Subject:   <blue>".toList ++ "Hi".toList) (80 - 4)
          = some subj
        ∧ limitSizeWithStrip runeWidth ("From:      <blue>".toList ++ "a@b.com".toList) (80 - 4)
          = some frm
        ∧ limitSizeWithStrip runeWidth
            ("Time:      <blue>".toList ++ "Mon, 02 Jan 2006 15:04:05 MST".toList) (80 - 4)
          = some tim
        ∧ limitSize runeWidth (if isHTMLContent "plain text, no tags".toList = true
            then convertHTMLToText UnescapeString "plain text, no tags".toList defaultOptions
            else "plain text, no tags".toList)
            (80 - 4) = some chunks
        ∧ PrintEmail runeWidth tmlVisible UnescapeString
              { width := 80, htmlOptions := defaultOptions }
              { ID := "42".toList, Subject := "Hi".toList, From := "a@b.com".toList,
                Timestamp := "Mon, 02 Jan 2006 15:04:05 MST".toList,
                Body := "plain text, no tags".toList }
          = some (
            [[Seg.markup "<dim>".toList, Seg.text [borderTopLeft], Seg.text [borderHorizontal],
              Seg.text [borderRightT], Seg.markup "</dim> <bold>".toList,
              Seg.text ("Email #".toList ++ "42".toList), Seg.markup "</bold> <dim>".toList,
              Seg.text [borderLeftT],
              Seg.fill (safeRepeat [borderHorizontal]
                (80 - 7 - (StringWidth runeWidth ("Email #".toList ++ "42".toList) : Int))),
              Seg.text [borderTopRight], Seg.markup "</dim>".toList]]
            ++ ([[]] ++ subj ++ frm ++ tim ++ [[]]).map (fun line =>
              [Seg.markup "<dim>".toList, Seg.text [borderVertical],
               Seg.markup "</dim> ".toList, Seg.text [], Seg.text (tmlVisible line),
               Seg.fill (safeRepeat [' ']
                 (80 - 4 - 0 - (StringWidth runeWidth (stripTags line) : Int))),
               Seg.markup " <dim>".toList, Seg.text [borderVertical],
               Seg.markup "</dim>".toList])
            ++ [[Seg.markup "<dim>".toList, Seg.text [borderLeftT], Seg.text [borderHorizontal],
              Seg.text [borderRightT], Seg.markup "</dim> <bold>".toList,
              Seg.text "Body".toList, Seg.markup "</bold> <dim>".toList,
              Seg.text [borderLeftT],
              Seg.fill (safeRepeat [borderHorizontal]
                (80 - 7 - (StringWidth runeWidth "Body".toList : Int))),
              Seg.text [borderRightT], Seg.markup "</dim>".toList],
             [Seg.markup "<dim>".toList, Seg.text [borderVertical],
              Seg.markup "</dim> ".toList, Seg.text [], Seg.text (tmlVisible []),
              Seg.fill (safeRepeat [' ']
                (80 - 4 - 0 - (StringWidth runeWidth (stripTags []) : Int))),
              Seg.markup " <dim>".toList, Seg.text [borderVertical],
              Seg.markup "</dim>".toList]]
            ++ chunks.map (fun chunk =>
              [Seg.markup "<dim>".toList, Seg.text [borderVertical],
               Seg.markup "</dim> ".toList, Seg.text [], Seg.raw chunk,
               Seg.fill (safeRepeat [' '] (80 - 4 - 0 - (widthBytes runeWidth chunk : Int))),
               Seg.markup " <dim>".toList, Seg.text [borderVertical],
               Seg.markup "</dim>".toList])
            ++ [[Seg.markup "<dim>".toList, Seg.text [borderVertical],
              Seg.markup "</dim> ".toList, Seg.text [], Seg.text (tmlVisible []),
              Seg.fill (safeRepeat [' ']
                (80 - 4 - 0 - (StringWidth runeWidth (stripTags []) : Int))),
              Seg.markup " <dim>".toList, Seg.text [borderVertical],
              Seg.markup "</dim>".toList],
             [Seg.markup "<dim>".toList, Seg.text [borderBottomLeft],
              Seg.fill (safeRepeat [borderHorizontal] (80 - 2)),
              Seg.text [borderBottomRight], Seg.markup "</dim>".toList]]))
      ∧ isHTMLContent "plain text, no tags".toList = false
      ∧ limitSize runeWidth "plain text, no tags".toList (80 - 4)
          = some [utf8 "plain text, no tags".toList] :=
  PrintEmail_lines runeWidth panelWidths_runeWidth tmlVisible UnescapeString
    { width := 80, htmlOptions := defaultOptions } (by decide)
    { ID := "42".toList, Subject := "Hi".toList, From := "a@b.com".toList,
      Timestamp := "Mon, 02 Jan 2006 15:04:05 MST".toList, Body := "plain text, no tags".toList }

/-! ## When the wrapper returns -/

/-- C19 (counterexample): on the text of a space and `a`, at the budget 80,
`limitSizeWithStrip` does not return. The first rune is a space met with an
empty pending word, so the tokenizer runs `words[len(words)-1] += " "` on the
empty slice `words`, an index out of range. -/
theorem limitSizeWithStrip_leading_space_aborts :
    limitSizeWithStrip runeWidth " a".toList 80 = none := by
  decide

/-- C19 (as amended): for every budget `W`, `limitSizeWithStrip` returns a list
of lines, no index of its tokenizer or line builder being out of range,
exactly on the inputs that do not begin with a space; a space directly after a
line break or a markup token does not prevent it, as on the text `a`, line
break, ` b<i> c`. Every text that `PrintSummary` and `PrintEmail` pass to it is
of that kind, whatever the addresses and the message are: the empty text, the
two sentences of the summary, a trimmed address between `<blue>` and
`</blue>`, and the subject, the sender and the time after their headings. -/
theorem limitSizeWithStrip_returns_iff (rw : Char → Nat) (W : Int) (input : Str) :
    ((∃ lines, limitSizeWithStrip rw input W = some lines) ↔ input.head? ≠ some ' ')
      ∧ limitSizeWithStrip runeWidth "a\n b<i> c".toList 80 = some ["a \n  b<i>  c".toList]
      ∧ (∃ lines, limitSizeWithStrip rw [] W = some lines)
      ∧ (∃ lines, limitSizeWithStrip rw "Your disposable email addresses are:".toList W
          = some lines)
      ∧ (∃ lines, limitSizeWithStrip rw "Emails will appear below as they are received.".toList
          W = some lines)
      ∧ ∀ t : Str,
        (∃ lines, limitSizeWithStrip rw ("<blue>".toList ++ TrimSpace t ++ "</blue>".toList) W
            = some lines)
        ∧ (∃ lines, limitSizeWithStrip rw ("Subject:   <blue>".toList ++ t) W = some lines)
        ∧ (∃ lines, limitSizeWithStrip rw ("From:      <blue>".toList ++ t) W = some lines)
        ∧ (∃ lines, limitSizeWithStrip rw ("Time:      <blue>".toList ++ t) W = some lines) := by
  refine ⟨⟨?_, limitSizeWithStrip_returns rw input W⟩, by decide,
    limitSizeWithStrip_returns rw _ W (by simp),
    limitSizeWithStrip_returns rw _ W (by decide),
    limitSizeWithStrip_returns rw _ W (by decide), fun t => ⟨?_, ?_, ?_, ?_⟩⟩
  · rintro ⟨lines, h⟩ e
    cases input with
    | nil => simp at e
    | cons c cs =>
      simp only [List.head?_cons, Option.some.injEq] at e
      subst e
      simp [limitSizeWithStrip, splitWords_leading_space] at h
  · exact limitSizeWithStrip_returns rw _ W
      (by rw [show "<blue>".toList = '<' :: "blue>".toList from rfl]; simp)
  · exact limitSizeWithStrip_returns rw _ W
      (by rw [show "Subject:   <blue>".toList = 'S' :: "ubject:   <blue>".toList from rfl]; simp)
  · exact limitSizeWithStrip_returns rw _ W
      (by rw [show "From:      <blue>".toList = 'F' :: "rom:      <blue>".toList from rfl]; simp)
  · exact limitSizeWithStrip_returns rw _ W
      (by rw [show "Time:      <blue>".toList = 'T' :: "ime:      <blue>".toList from rfl]; simp)

/-! ## Texts on which the detection departs from its description -/

/-- C10 (counterexample): five texts on which `isHTMLContent` does not follow
the three signals as they are worded. The text `</p></div>` holds the closing
tags of two listed names, the text `<P>Hello</P>` a listed name in upper case,
and the text `<!DOCTYPE html PUBLIC>` an HTML doctype, with no `&` in any of
them, and all three are not detected. The text `&#1;&` holds two `&`, the
first of which starts the only `&#`, so two entity markers, and is detected,
the first marker being counted twice. The text
`contact <a.smith@example.com> now`, with no `&`, no doctype and no `<html`,
holds one `<`, which starts an address and not a tag named `a`, and is
detected. -/
theorem isHTMLContent_departs_from_signals :
    (Contains "</p></div>".toList "</p>".toList = true
        ∧ Contains "</p></div>".toList "</div>".toList = true
        ∧ isHTMLContent "</p></div>".toList = false)
      ∧ (ToLower "<P>Hello</P>".toList = "<p>hello</p>".toList
        ∧ isHTMLContent "<p>hello</p>".toList = true
        ∧ isHTMLContent "<P>Hello</P>".toList = false)
      ∧ (Contains (ToLower "<!DOCTYPE html PUBLIC>".toList) "<!doctype html".toList = true
        ∧ isHTMLContent "<!DOCTYPE html PUBLIC>".toList = false)
      ∧ (occurrences "&".toList "&#1;&".toList = 2
        ∧ occurrences "&#".toList "&#1;&".toList = 1
        ∧ MatchString rgxHtmlContent "&#1;&".toList = false
        ∧ isHTMLContent "&#1;&".toList = true)
      ∧ (occurrences "<".toList "contact <a.smith@example.com> now".toList = 1
        ∧ occurrences "&".toList "contact <a.smith@example.com> now".toList = 0
        ∧ Contains (ToLower "contact <a.smith@example.com> now".toList) "<html".toList = false
        ∧ Contains (ToLower "contact <a.smith@example.com> now".toList)
            "<!doctype html>".toList = false
        ∧ isHTMLContent "contact <a.smith@example.com> now".toList = true) := by
  decide

end TempEmail
